import Mathlib

/-!
# GPXSee — Garmin IMG container (`src/map/IMG/img.cpp`)

Shallow embedding of the byte source, the directory reader and the tile
assembly of `IMG::IMG`, together with the properties of the specification that
have been checked against it.

Conventions of the embedding

* A file is the list of its bytes (`List Nat`, every entry below 256 in a real
  file).  The container is opened read-only, so the content never changes and
  the only state of the `QFile` is its position.
* `char` buffers are lists of bytes; a buffer handed to a read keeps its
  content from the number of delivered bytes onwards.
* `qint64` quantities that may be negative are `Int`; file offsets are `Nat`
  (the `quint64 offset` of the constructor stays far below `2^64`: it never
  exceeds the file length plus `512 * 2^31`).
* What the constructor takes from outside the sources is a parameter: the
  UTF-8 decoder of Qt (`fromUtf8`), the parser of a tile (`init`, for
  `VectorTile::init()`), and the content of the objects it leaves
  uninitialised (`Indeterminate`).
* The Qt functions are those of Qt 5 (Qt 4 behaves alike where it matters
  here); the sources are written for these versions, they use the global `hex`
  manipulator that Qt 6 no longer has.
-/

set_option autoImplicit false

namespace GPXSee

/-! ## Qt environment: `QFile` on a regular file -/

/-- Qt `QIODevice::read(char *data, qint64 maxSize)` on a regular file that holds
`file`, at position `pos`: a negative `maxSize` is refused with `-1`;
otherwise the bytes from `pos` on, at most `maxSize` of them, are copied to the
front of `data` and the position advances by their number.  The result is
`(ret, data, pos)`. -/
def QFile.read (file : List Nat) (pos : Nat) (data : List Nat) (maxSize : Int) :
    Int × List Nat × Nat :=
  if maxSize < 0 then (-1, data, pos)
  else
    let got := (file.drop pos).take maxSize.toNat
    ((got.length : Int), got ++ data.drop got.length, pos + got.length)

/-- Qt `QFileDevice::seek(qint64 pos)`: a negative position is refused, every
other one is accepted (also beyond the end of the file).  The result is
`(ok, pos)`. -/
def QFile.seek (pos : Nat) (target : Int) : Bool × Nat :=
  if target < 0 then (false, pos) else (true, target.toNat)

/-- Qt `QIODevice::errorString()`: the text of the last error, "Unknown error"
when the device has none. -/
def QFile.errorString (e : String) : String :=
  if e = "" then "Unknown error" else e

/-! ## Qt environment: strings -/

/-- A `QString` is the list of its UTF-16 code units. -/
abbrev QString := List Nat

/-- Qt 5 `QString(const QByteArray &ba)` (Qt 4 alike): "the given byte array
is converted to Unicode using fromUtf8(); stops copying at the first 0
character, otherwise copies the entire byte array".  The result is never a
null string.  The UTF-8 decoder is the parameter `fromUtf8`. -/
def QString.ofByteArray (fromUtf8 : List Nat → QString) (ba : List Nat) : QString :=
  fromUtf8 (ba.takeWhile (· ≠ 0))

/-- Qt `QString::fromLatin1(str, size)` with an explicit size: one code unit per
byte, the value of the byte. -/
def QString.fromLatin1 (str : List Nat) (size : Nat) : QString := str.take size

/-- Qt `QChar::isSpace` on the Latin-1 range: the ASCII white space and the
characters U+0085 and U+00A0. -/
def QChar.isSpace (c : Nat) : Bool :=
  c = 0x20 || (9 ≤ c && c ≤ 13) || c = 0x85 || c = 0xA0

/-- Qt `QString::trimmed()`: white space removed from both ends. -/
def QString.trimmed (s : QString) : QString :=
  ((s.dropWhile QChar.isSpace).reverse.dropWhile QChar.isSpace).reverse

/-! ## `IMG::read`, `IMG::readValue` -/

/-- The loop `for (int i = 0; i < ret; i++) data[i] ^= _key;` with `n`
iterations left, the counter standing at `i`.  The counter is an `int`: the
loop is the one of the source for counts below `2^31`. -/
def xorLoop (key : Nat) : Nat → Nat → List Nat → List Nat
  | 0, _, data => data
  | n + 1, i, data => xorLoop key n (i + 1) (data.set i (data.getD i 0 ^^^ key))

/-- Source `qint64 IMG::read(char *data, qint64 maxSize)`. -/
def IMG.read (key : Nat) (file : List Nat) (pos : Nat) (data : List Nat) (maxSize : Int) :
    Int × List Nat × Nat :=
  let r := QFile.read file pos data maxSize
  let ret := r.1
  let data := if key ≠ 0 then xorLoop key ret.toNat 0 r.2.1 else r.2.1
  (ret, data, r.2.2)

/-- Qt `qFromLittleEndian` of the bytes of an object in memory order: byte `i`
has weight `256^i`, on every host. -/
def qFromLittleEndian : List Nat → Nat
  | [] => 0
  | b :: bs => b + 256 * qFromLittleEndian bs

/-- Source `template<class T> bool IMG::readValue(T &val)` with `size = sizeof(T)`.
The local `T data` is indeterminate before the read; it is only looked at when
all its bytes were read, so the embedding starts it at zero.  The result is
`(ok, val, pos)`. -/
def IMG.readValue (key : Nat) (file : List Nat) (pos : Nat) (size : Nat) (val : Nat) :
    Bool × Nat × Nat :=
  let r := IMG.read key file pos (List.replicate size 0) size
  if r.1 < (size : Int) then (false, val, r.2.2)
  else (true, qFromLittleEndian r.2.1, r.2.2)

/-! ## `IMG::readBlock` -/

/-- Qt `QByteArray::resize(int size)`: the array is cut or extended to `size`
bytes, a negative size counting as 0.  The bytes gained are uninitialised;
`fresh i` stands for what the byte at index `i` then holds. -/
def QByteArray.resize (data : List Nat) (size : Int) (fresh : Nat → Nat) : List Nat :=
  (List.range size.toNat).map (fun i => data.getD i (fresh i))

/-- Source `bool IMG::readBlock(int blockNum, QByteArray &data)`.  The two factors of
the offset are converted to `qint64` before they are multiplied; as `int`
values they lie between `-2^31` and `2^31`, so the 64-bit product is the exact
one.  The result is `(ok, data, pos)`. -/
def IMG.readBlock (key : Nat) (blockSize : Int) (file : List Nat) (pos : Nat) (blockNum : Int)
    (data : List Nat) (fresh : Nat → Nat) : Bool × List Nat × Nat :=
  let sk := QFile.seek pos (blockNum * blockSize)
  if !sk.1 then (false, data, sk.2) else
  let data := QByteArray.resize data blockSize fresh
  let r := IMG.read key file sk.2 data blockSize
  if r.1 < blockSize then (false, r.2.1, r.2.2) else (true, r.2.1, r.2.2)

/-! ## Sub-file types and tiles -/

/-- Bytes of a string literal, without the terminating zero. -/
def ascii (s : String) : List Nat := s.toList.map Char.toNat

/-- The array a C string literal denotes: its characters and the final zero. -/
def cstr (s : String) : List Nat := ascii s ++ [0]

/-- C `memcmp(a, b, n) != 0`: the first `n` bytes of the two buffers differ. -/
def memcmp (a b : List Nat) (n : Nat) : Bool := a.take n != b.take n

/-- Source `SubFile::Type` (the enumeration is declared in `subfile.h`). -/
inductive SubFileType where
  | Unknown | TRE | RGN | LBL | NET | TYP | GMP
  deriving DecidableEq, Repr

/-- Source `static SubFile::Type tileType(const char str[3])`. -/
def tileType (str : List Nat) : SubFileType :=
  if !memcmp str (cstr "TRE") 3 then SubFileType.TRE
  else if !memcmp str (cstr "RGN") 3 then SubFileType.RGN
  else if !memcmp str (cstr "LBL") 3 then SubFileType.LBL
  else if !memcmp str (cstr "TYP") 3 then SubFileType.TYP
  else if !memcmp str (cstr "GMP") 3 then SubFileType.GMP
  else if !memcmp str (cstr "NET") 3 then SubFileType.NET
  else SubFileType.Unknown

/-- Source `static bool VectorTile::isTileFile(SubFile::Type type)`. -/
def VectorTile.isTileFile (type : SubFileType) : Bool :=
  type = SubFileType.TRE || type = SubFileType.LBL || type = SubFileType.RGN
    || type = SubFileType.NET || type = SubFileType.GMP

/-- Modelled from the spec: the class `SubFile` (`subfile.h`, not among the
sources) as far as the directory reader uses it: a sub-file is the chain of
block numbers that `addBlock` appends to ("appending each to the owning
sub-file's block chain"). -/
structure SubFile where
  _blocks : List Nat
  deriving DecidableEq, Repr

/-- Modelled from the spec: `SubFile::addBlock` appends one block number to
the chain. -/
def SubFile.addBlock (f : SubFile) (block : Nat) : SubFile :=
  { f with _blocks := f._blocks ++ [block] }

/-- The members of `class VectorTile`; a null pointer is `none`. -/
structure VectorTile where
  _tre : Option SubFile
  _rgn : Option SubFile
  _lbl : Option SubFile
  _net : Option SubFile
  _gmp : Option SubFile
  deriving DecidableEq, Repr

/-- Source `VectorTile() : _tre(0), _rgn(0), _lbl(0), _net(0), _gmp(0) {}`. -/
def VectorTile.new : VectorTile :=
  { _tre := none, _rgn := none, _lbl := none, _net := none, _gmp := none }

/-- Modelled from the spec: `VectorTile::file(type)` (defined in
`vectortile.cpp`, not among the sources) "returns the existing sub-file or a
null result if this tile has no sub-file of that type". -/
def VectorTile.file (t : VectorTile) : SubFileType → Option SubFile
  | SubFileType.TRE => t._tre
  | SubFileType.RGN => t._rgn
  | SubFileType.LBL => t._lbl
  | SubFileType.NET => t._net
  | SubFileType.GMP => t._gmp
  | _ => none

/-- Assignment through the pointer `file(type)` returned: the sub-file in the
slot of `type` becomes `f`.  A type without a slot has no pointer to assign
through. -/
def VectorTile.setFile (t : VectorTile) (type : SubFileType) (f : SubFile) : VectorTile :=
  match type with
  | SubFileType.TRE => { t with _tre := some f }
  | SubFileType.RGN => { t with _rgn := some f }
  | SubFileType.LBL => { t with _lbl := some f }
  | SubFileType.NET => { t with _net := some f }
  | SubFileType.GMP => { t with _gmp := some f }
  | _ => t

/-- Modelled from the spec: `VectorTile::addFile(img, type)` (defined in
`vectortile.cpp`, not among the sources) "creates the sub-file of the requested
type if absent (idempotent — returns the existing instance if a record for
that type/part already started it)".  The result is the tile afterwards; the
pointer returned is `file type` of it. -/
def VectorTile.addFile (t : VectorTile) (type : SubFileType) : VectorTile :=
  match t.file type with
  | some _ => t
  | none => t.setFile type { _blocks := [] }

/-! ## The tile map -/

/-- Source `typedef QMap<QString, VectorTile*> TileMap`, as the list of its entries.
The list keeps the order of insertion, `QMap` iterates in key order; nothing
below depends on the order of the tiles. -/
abbrev TileMap := List (QString × VectorTile)

/-- Source `tileMap.find(fn)`, `none` for `constEnd()`. -/
def TileMap.find : TileMap → QString → Option VectorTile
  | [], _ => none
  | (k, t) :: m, fn => if k = fn then some t else TileMap.find m fn

/-- Source `tileMap.insert(fn, tile)`: the value of an existing key is replaced, a new
key is added.  It also stands for an update of the tile behind the pointer
stored under `fn`. -/
def TileMap.insert : TileMap → QString → VectorTile → TileMap
  | [], fn, t => [(fn, t)]
  | (k, t0) :: m, fn, t => if k = fn then (k, t) :: m else (k, t0) :: TileMap.insert m fn t

/-! ## Machine integers -/

/-- Conversion of an integer to `int`: its value modulo `2^32`, read as a
two's-complement number. -/
def toInt32 (x : Int) : Int :=
  let y := x % 2 ^ 32
  if y < 2 ^ 31 then y else y - 2 ^ 32

/-- Source `int cnt = (size - offset) / 512;` with `quint32 size` and
`quint64 offset`: the difference is taken in 64-bit unsigned arithmetic, the
quotient is converted to `int`. -/
def fatCount (size offset : Nat) : Int :=
  toInt32 ((((size : Int) - (offset : Int)) % 2 ^ 64) / 512)

/-- Source `1 << (e1 + e2)`, an `int`.  C++ leaves the shift undefined once the
result does not fit; the embedding takes the power of two reduced to 32 bits. -/
def blockSizeOf (e1 e2 : Nat) : Int := toInt32 (2 ^ (e1 + e2))

/-! ## The directory reader -/

/-- The loop
`for (int i = 0; i < 240; i++) { CHECK(readValue(block)); if (block == 0xFFFF) break; file->addBlock(block); }`
with `n` iterations left, on the sub-file `f` that `file` points to.  The
result is `(ok, f, pos)`, with `ok = false` when the `CHECK` failed. -/
def readBlocks (key : Nat) (file : List Nat) : Nat → Nat → SubFile → Bool × SubFile × Nat
  | 0, pos, f => (true, f, pos)
  | n + 1, pos, f =>
    let r := IMG.readValue key file pos 2 0
    if !r.1 then (false, f, r.2.2)
    else if r.2.1 = 0xFFFF then (true, f, r.2.2)
    else readBlocks key file n r.2.2 (f.addBlock r.2.1)

/-- What the directory scan of the constructor changes: the position of
`_file`, the local `tileMap`, the local `typFile` (`none` while it is a null
string) and the member `_typ`. -/
structure Scan where
  pos : Nat
  tileMap : TileMap
  typFile : Option QString
  _typ : Option SubFile
  deriving DecidableEq, Repr

/-- The body of the record loop behind its first `CHECK`: the record is
classified and its block numbers are appended to the sub-file it belongs to.
`name`, `type` and `part` are the fields read from the record, `s.pos` is the
position behind them.  In the styling branch `start` is `(typ, _typ, typFile)`
as the `if (typFile.isNull()) ... else if (fn == typFile) ...` leaves them.  The
result is `(ok, state)`, with `ok = false` when a `CHECK` failed. -/
def recordBody (fromUtf8 : List Nat → QString) (key : Nat) (file : List Nat)
    (offset : Nat) (name type : List Nat) (part : Nat) (s : Scan) : Bool × Scan :=
  let tt := tileType type
  let fn := QString.ofByteArray fromUtf8 (name.take 8)
  if VectorTile.isTileFile tt then
    let it := s.tileMap.find fn
    let tile := it.getD VectorTile.new
    let tileMap := if it.isNone then s.tileMap.insert fn tile else s.tileMap
    let tile := if part ≠ 0 then tile else tile.addFile tt
    match tile.file tt with
    | none => (false, { s with tileMap := tileMap.insert fn tile })
    | some f =>
      let sk := QFile.seek s.pos ((offset : Int) + 0x20)
      let rb := readBlocks key file 240 sk.2 f
      (rb.1, { s with pos := rb.2.2, tileMap := tileMap.insert fn (tile.setFile tt rb.2.1) })
  else if tt = SubFileType.TYP then
    let start : Option SubFile × Option SubFile × Option QString :=
      match s.typFile with
      | none => (some { _blocks := [] }, some { _blocks := [] }, some fn)
      | some tf => (if fn = tf then s._typ else none, s._typ, s.typFile)
    match start.1 with
    | some typ =>
      let sk := QFile.seek s.pos ((offset : Int) + 0x20)
      let rb := readBlocks key file 240 sk.2 typ
      (rb.1, { s with pos := rb.2.2, typFile := start.2.2, _typ := some rb.2.1 })
    | none => (true, { s with typFile := start.2.2, _typ := start.2.1 })
  else (true, s)

/-- One pass through the body of the loop "Read FAT blocks describing the IMG
sub-files" for the record at `offset`:
`CHECK(_file.seek(offset) && readValue(flag) && read(name, sizeof(name)) && read(type, sizeof(type)) && readValue(size) && readValue(part));`
and then the rest of the body.  The buffers `name` and `type` are indeterminate
before the first pass; they are only looked at after both were read and the
two `readValue` calls behind them succeeded, which needs both to be complete,
so the embedding starts them at zero. -/
def processRecord (fromUtf8 : List Nat → QString) (key : Nat) (file : List Nat)
    (offset : Nat) (s : Scan) : Bool × Scan :=
  let sk := QFile.seek s.pos offset
  if !sk.1 then (false, { s with pos := sk.2 }) else
  let rFlag := IMG.readValue key file sk.2 1 0
  if !rFlag.1 then (false, { s with pos := rFlag.2.2 }) else
  let rName := IMG.read key file rFlag.2.2 (List.replicate 8 0) 8
  if rName.1 = 0 then (false, { s with pos := rName.2.2 }) else
  let rType := IMG.read key file rName.2.2 (List.replicate 3 0) 3
  if rType.1 = 0 then (false, { s with pos := rType.2.2 }) else
  let rSize := IMG.readValue key file rType.2.2 4 0
  if !rSize.1 then (false, { s with pos := rSize.2.2 }) else
  let rPart := IMG.readValue key file rSize.2.2 2 0
  if !rPart.1 then (false, { s with pos := rPart.2.2 }) else
  recordBody fromUtf8 key file offset rName.2.1 rType.2.1 rPart.2.1 { s with pos := rPart.2.2 }

/-- The loop `for (int i = 0; i < cnt; i++) { ...; offset += 512; }` with `n`
iterations left.  The result is `(ok, state)`. -/
def fatLoop (fromUtf8 : List Nat → QString) (key : Nat) (file : List Nat) :
    Nat → Nat → Scan → Bool × Scan
  | 0, _, s => (true, s)
  | n + 1, offset, s =>
    let r := processRecord fromUtf8 key file offset s
    if !r.1 then r else fatLoop fromUtf8 key file n (offset + 512) r.2

/-- The loop "Skip unused FAT blocks if any",
`while (true) { CHECK(_file.seek(offset) && readValue(flag)); if (flag) break; offset += 512; }`,
run for at most as many passes as the list `fuel` has entries.  The result is
`some (ok, offset, pos)` when the loop ended within them, with `ok = false`
when the `CHECK` failed, and `none` when it did not end. -/
def skipLoop (key : Nat) (file : List Nat) : List Nat → Nat → Nat → Option (Bool × Nat × Nat)
  | [], _, _ => none
  | _ :: fuel, offset, pos =>
    let sk := QFile.seek pos offset
    if !sk.1 then some (false, offset, sk.2) else
    let r := IMG.readValue key file sk.2 1 0
    if !r.1 then some (false, offset, r.2.2)
    else if r.2.1 ≠ 0 then some (true, offset, r.2.2)
    else skipLoop key file fuel (offset + 512) r.2.2

/-- The skip loop started at `offset`.  Every pass that goes on has read a
byte, 512 further than the pass before, so the loop makes at most one pass per
byte of the file and one more: the bytes of the file and one more entry count
the passes, the loop ends within them (`skipLoop_isSome`) and the default is
never taken. -/
def skipUnused (key : Nat) (file : List Nat) (offset pos : Nat) : Bool × Nat × Nat :=
  (skipLoop key file (0 :: file) offset pos).getD (false, offset, pos)

/-- The part of the constructor from "Read the FAT table" to the end of the
record loop.  The result is `(ok, state)`. -/
def readFAT (fromUtf8 : List Nat → QString) (key : Nat) (file : List Nat) (pos : Nat) :
    Bool × Scan :=
  let s0 : Scan := { pos := pos, tileMap := [], typFile := none, _typ := none }
  let sk := skipUnused key file 0x200 pos
  if !sk.1 then (false, { s0 with pos := sk.2.2 }) else
  let offset := sk.2.1
  let sk2 := QFile.seek sk.2.2 ((offset : Int) + 12)
  if !sk2.1 then (false, { s0 with pos := sk2.2 }) else
  let rSize := IMG.readValue key file sk2.2 4 0
  if !rSize.1 then (false, { s0 with pos := rSize.2.2 }) else
  let offset := offset + 512
  let cnt := fatCount rSize.2.1 offset
  fatLoop fromUtf8 key file cnt.toNat offset { s0 with pos := rSize.2.2 }

/-! ## The constructor `IMG::IMG` -/

/-- The content of the objects the constructor does not initialise before it
may look at them or leave them behind: the members `_key` and `_blockSize` and
the local buffers of the header. -/
structure Indeterminate where
  _key : Nat
  _blockSize : Int
  signature : List Nat
  identifier : List Nat
  d1 : List Nat
  d2 : List Nat

/-- The members of `class IMG` the constructor sets (the caches, the style and
the bounds apart). -/
structure IMG where
  _key : Nat
  _blockSize : Int
  _name : QString
  _typ : Option SubFile
  _tileTree : List VectorTile
  _valid : Bool
  _errorString : String
  deriving DecidableEq, Repr

/-- The statement
`_file.read((char*)&_key, 1) && _file.seek(0x10) && read(signature, sizeof(signature)) && _file.seek(0x41) && read(identifier, sizeof(identifier));`
on the freshly opened file.  Its value is discarded by the constructor; the
result here is `(_key, signature, identifier, pos)`. -/
def readSignature (u : Indeterminate) (file : List Nat) :
    Nat × List Nat × List Nat × Nat :=
  let r0 := QFile.read file 0 [u._key] 1
  let key := r0.2.1.headD u._key
  if r0.1 = 0 then (key, u.signature, u.identifier, r0.2.2) else
  let sk := QFile.seek r0.2.2 0x10
  if !sk.1 then (key, u.signature, u.identifier, sk.2) else
  let rs := IMG.read key file sk.2 u.signature 7
  if rs.1 = 0 then (key, rs.2.1, u.identifier, rs.2.2) else
  let sk := QFile.seek rs.2.2 0x41
  if !sk.1 then (key, rs.2.1, u.identifier, sk.2) else
  let ri := IMG.read key file sk.2 u.identifier 7
  (key, rs.2.1, ri.2.1, ri.2.2)

/-- The condition of
`CHECK(_file.seek(0x49) && read(d1, sizeof(d1)) && _file.seek(0x61) && readValue(e1) && readValue(e2) && _file.seek(0x65) && read(d2, sizeof(d2)));`.
The result is `(ok, d1, e1, e2, d2, pos)`. -/
def readDescription (u : Indeterminate) (key : Nat) (file : List Nat) (pos : Nat) :
    Bool × List Nat × Nat × Nat × List Nat × Nat :=
  let sk := QFile.seek pos 0x49
  if !sk.1 then (false, u.d1, 0, 0, u.d2, sk.2) else
  let r1 := IMG.read key file sk.2 u.d1 20
  if r1.1 = 0 then (false, r1.2.1, 0, 0, u.d2, r1.2.2) else
  let sk := QFile.seek r1.2.2 0x61
  if !sk.1 then (false, r1.2.1, 0, 0, u.d2, sk.2) else
  let re1 := IMG.readValue key file sk.2 1 0
  if !re1.1 then (false, r1.2.1, 0, 0, u.d2, re1.2.2) else
  let re2 := IMG.readValue key file re1.2.2 1 0
  if !re2.1 then (false, r1.2.1, re1.2.1, 0, u.d2, re2.2.2) else
  let sk := QFile.seek re2.2.2 0x65
  if !sk.1 then (false, r1.2.1, re1.2.1, re2.2.1, u.d2, sk.2) else
  let r2 := IMG.read key file sk.2 u.d2 31
  (r2.1 ≠ 0, r1.2.1, re1.2.1, re2.2.1, r2.2.1, r2.2.2)

/-- The display name:
`QByteArray nba(QByteArray(d1, sizeof(d1)) + QByteArray(d2, sizeof(d2)));`
`_name = QString::fromLatin1(nba.constData(), nba.size()-1).trimmed();`. -/
def displayName (d1 d2 : List Nat) : QString :=
  let nba := d1.take 20 ++ d2.take 31
  QString.trimmed (QString.fromLatin1 nba (nba.length - 1))

/-- The loop "Create tile tree" over the tile map; `init` stands for
`VectorTile::init()`, the parser of the mandatory sub-file (an external
decoder).  A tile whose `init` fails is deleted, the others enter the
tile tree. -/
def createTileTree (init : VectorTile → Bool) : TileMap → List VectorTile → List VectorTile
  | [], tree => tree
  | (_, tile) :: m, tree =>
    if !init tile then createTileTree init m tree
    else createTileTree init m (tree ++ [tile])

/-- The message the `CHECK` macro stores. -/
def unsupportedError : String := "Unsupported or invalid IMG file"

/-- The constructor `IMG::IMG(const QString &fileName)`.  `disk` is what
`_file.open(QFile::ReadOnly)` finds: the bytes of the file, or the error of the
device. -/
def IMG.open (fromUtf8 : List Nat → QString) (init : VectorTile → Bool)
    (u : Indeterminate) (disk : Except String (List Nat)) : IMG :=
  let img : IMG :=
    { _key := u._key, _blockSize := u._blockSize, _name := [], _typ := none,
      _tileTree := [], _valid := false, _errorString := "" }
  match disk with
  | Except.error e => { img with _errorString := QFile.errorString e }
  | Except.ok file =>
    let sg := readSignature u file
    let img := { img with _key := sg.1 }
    if memcmp sg.2.1 (cstr "DSKIMG") 7 || memcmp sg.2.2.1 (cstr "GARMIN") 7 then
      { img with _errorString := "Not a Garmin IMG file" }
    else
    let d := readDescription u img._key file sg.2.2.2
    if !d.1 then { img with _errorString := unsupportedError } else
    let img := { img with _name := displayName d.2.1 d.2.2.2.2.1,
                          _blockSize := blockSizeOf d.2.2.1 d.2.2.2.1 }
    let fat := readFAT fromUtf8 img._key file d.2.2.2.2.2
    let img := { img with _typ := fat.2._typ }
    if !fat.1 then { img with _errorString := unsupportedError } else
    let img := { img with _tileTree := createTileTree init fat.2.tileMap [] }
    if img._tileTree.length = 0 then { img with _errorString := "No usable map tile found" }
    else { img with _valid := true }

/-! ## Views of the decrypted file -/

/-- The `n` bytes of the file from offset `p` on (fewer at the end of the
file), each XORed with the key. -/
def decrypted (key : Nat) (file : List Nat) (p n : Nat) : List Nat :=
  ((file.drop p).take n).map (· ^^^ key)

/-- The decrypted byte at offset `p`. -/
def byteAt (key : Nat) (file : List Nat) (p : Nat) : Nat :=
  qFromLittleEndian (decrypted key file p 1)

/-- The little-endian 16-bit value of the two decrypted bytes at offset `p`. -/
def le16At (key : Nat) (file : List Nat) (p : Nat) : Nat :=
  qFromLittleEndian (decrypted key file p 2)

/-- The little-endian 32-bit value of the four decrypted bytes at offset `p`. -/
def le32At (key : Nat) (file : List Nat) (p : Nat) : Nat :=
  qFromLittleEndian (decrypted key file p 4)

/-- The 240 16-bit values stored in the record at offset `o`, from `o + 0x20`
to the end of the record at `o + 0x200`, decrypted, in stored order. -/
def blockValues (key : Nat) (file : List Nat) (o : Nat) : List Nat :=
  (List.range 240).map (fun i => le16At key file (o + 0x20 + 2 * i))

/-- A directory record as the format lays it out at offset `o`: name at
`o + 1`, type code at `o + 9`, part number at `o + 0x10`, block-number list at
`o + 0x20` up to the first `0xFFFF`. -/
structure DirRecord where
  name : List Nat
  type : SubFileType
  part : Nat
  blocks : List Nat
  deriving DecidableEq, Repr

/-- The directory record at offset `o` of the decrypted file. -/
def recordAt (key : Nat) (file : List Nat) (o : Nat) : DirRecord :=
  { name := decrypted key file (o + 1) 8
    type := tileType (decrypted key file (o + 9) 3)
    part := le16At key file (o + 16)
    blocks := (blockValues key file o).takeWhile (· ≠ 0xFFFF) }

/-- The name under which a record is filed: the `QString` made of its 8 name
bytes. -/
def DirRecord.fn (fromUtf8 : List Nat → QString) (r : DirRecord) : QString :=
  QString.ofByteArray fromUtf8 r.name

/-- The `n` directory records from offset `o` on, 512 bytes apart. -/
def directory (key : Nat) (file : List Nat) (o n : Nat) : List DirRecord :=
  (List.range n).map (fun i => recordAt key file (o + 512 * i))

/-- The records the constructor scans: those from the first record behind the
block the skip loop stops at, as many as the record count says. -/
def scannedDirectory (key : Nat) (file : List Nat) (pos : Nat) : List DirRecord :=
  let b := (skipUnused key file 0x200 pos).2.1
  directory key file (b + 512) (fatCount (le32At key file (b + 12)) (b + 512)).toNat

/-- The sub-file a record's block numbers go to, as it stands when the record
is reached: for a tile-family record the sub-file of its type in the tile of
its name (created on the spot by a record with part 0), for a styling record
the styling sub-file if the record is the first of its type or carries the
name of the first; `none` when there is no such sub-file. -/
def owningFile (fromUtf8 : List Nat → QString) (r : DirRecord) (s : Scan) : Option SubFile :=
  if VectorTile.isTileFile r.type then
    let tile := (s.tileMap.find (r.fn fromUtf8)).getD VectorTile.new
    (if r.part ≠ 0 then tile else tile.addFile r.type).file r.type
  else if r.type = SubFileType.TYP then
    match s.typFile with
    | none => some { _blocks := [] }
    | some tf => if r.fn fromUtf8 = tf then s._typ else none
  else none

/-- The same sub-file in the state `s` behind the record. -/
def owningFileAfter (fromUtf8 : List Nat → QString) (r : DirRecord) (s : Scan) :
    Option SubFile :=
  if VectorTile.isTileFile r.type then
    (s.tileMap.find (r.fn fromUtf8)).bind (fun tile => tile.file r.type)
  else if r.type = SubFileType.TYP then s._typ
  else none

/-! ## Views of the constructor -/

/-- Whether the constructor gets past the comparison of the two signatures. -/
def signatureOk (u : Indeterminate) (file : List Nat) : Bool :=
  !(memcmp (readSignature u file).2.1 (cstr "DSKIMG") 7
    || memcmp (readSignature u file).2.2.1 (cstr "GARMIN") 7)

/-- Whether the constructor gets past the header: past the signatures and past
the `CHECK` of the name fragments and the block-size exponents. -/
def headerOk (u : Indeterminate) (file : List Nat) : Bool :=
  signatureOk u file
    && (readDescription u (readSignature u file).1 file (readSignature u file).2.2.2).1

/-- The directory scan as the constructor runs it behind the header. -/
def openScan (fromUtf8 : List Nat → QString) (u : Indeterminate) (file : List Nat) :
    Bool × Scan :=
  readFAT fromUtf8 (readSignature u file).1 file
    (readDescription u (readSignature u file).1 file (readSignature u file).2.2.2).2.2.2.2.2

/-- The offsets of the records the record loop passes through: the loop of
`fatLoop`, recording the offset at the start of every pass of the body. -/
def fatTrace (fromUtf8 : List Nat → QString) (key : Nat) (file : List Nat) :
    Nat → Nat → Scan → List Nat
  | 0, _, _ => []
  | n + 1, offset, s =>
    let r := processRecord fromUtf8 key file offset s
    offset :: (if !r.1 then [] else fatTrace fromUtf8 key file n (offset + 512) r.2)

/-- The offsets of the records the constructor passes through in `readFAT`:
none when the skip loop or the read of the size fails, else those of the
record loop. -/
def readFATTrace (fromUtf8 : List Nat → QString) (key : Nat) (file : List Nat) (pos : Nat) :
    List Nat :=
  let sk := skipUnused key file 0x200 pos
  if !sk.1 then [] else
  let sk2 := QFile.seek sk.2.2 ((sk.2.1 : Int) + 12)
  if !sk2.1 then [] else
  let rSize := IMG.readValue key file sk2.2 4 0
  if !rSize.1 then [] else
  fatTrace fromUtf8 key file (fatCount rSize.2.1 (sk.2.1 + 512)).toNat (sk.2.1 + 512)
    { pos := rSize.2.2, tileMap := [], typFile := none, _typ := none }

/-! ## The directory as a list of records -/

/-- What one record does to the tile map, the styling name and the styling
sub-file when all its reads succeed; `none` when `CHECK(file)` fails. -/
def applyRecord (fromUtf8 : List Nat → QString) (r : DirRecord) (s : Scan) : Option Scan :=
  let fn := r.fn fromUtf8
  if VectorTile.isTileFile r.type then
    let it := s.tileMap.find fn
    let tile := it.getD VectorTile.new
    let tileMap := if it.isNone then s.tileMap.insert fn tile else s.tileMap
    let tile := if r.part ≠ 0 then tile else tile.addFile r.type
    match tile.file r.type with
    | none => none
    | some f =>
      some { s with tileMap :=
        tileMap.insert fn (tile.setFile r.type { _blocks := f._blocks ++ r.blocks }) }
  else if r.type = SubFileType.TYP then
    match s.typFile with
    | none => some { s with typFile := some fn, _typ := some { _blocks := r.blocks } }
    | some tf =>
      if fn = tf then
        match s._typ with
        | some typ => some { s with _typ := some { _blocks := typ._blocks ++ r.blocks } }
        | none => some s
      else some s
  else some s

/-- The records of a directory applied in order. -/
def applyDirectory (fromUtf8 : List Nat → QString) : List DirRecord → Scan → Option Scan
  | [], s => some s
  | r :: rs, s => (applyRecord fromUtf8 r s).bind (applyDirectory fromUtf8 rs)

/-- The records of a directory filed under the name `fn` with the type `tt`,
in directory order. -/
def recordsOf (fromUtf8 : List Nat → QString) (dir : List DirRecord) (fn : QString)
    (tt : SubFileType) : List DirRecord :=
  dir.filter (fun r => decide (r.fn fromUtf8 = fn) && decide (r.type = tt))

/-- The block chain the records of a directory give the sub-file of type `tt`
filed under `fn`: the concatenation of their block lists in directory order,
`none` when there is no such record. -/
def chainOf (fromUtf8 : List Nat → QString) (dir : List DirRecord) (fn : QString)
    (tt : SubFileType) : Option (List Nat) :=
  match recordsOf fromUtf8 dir fn tt with
  | [] => none
  | rs => some (rs.flatMap (·.blocks))

/-- The styling records (type TYP) of a directory, in directory order. -/
def typRecords (dir : List DirRecord) : List DirRecord :=
  dir.filter (fun r => decide (r.type = SubFileType.TYP))

/-- The block chain the records of a directory give the styling sub-file: the
concatenation, in directory order, of the block lists of the styling records
filed under the name of the first styling record; `none` when the directory
has no styling record. -/
def styleChain (fromUtf8 : List Nat → QString) (dir : List DirRecord) : Option (List Nat) :=
  match typRecords dir with
  | [] => none
  | r0 :: _ => some ((recordsOf fromUtf8 dir (r0.fn fromUtf8) SubFileType.TYP).flatMap (·.blocks))

/-- The tile map `m` holds what the tile-family records of `dir` build: one
tile per name they are filed under, in each tile the sub-files whose type
occurs under that name, each with the block lists of its records in directory
order; and the first record of every name and type has the part number 0. -/
def TileInv (fromUtf8 : List Nat → QString) (dir : List DirRecord) (m : TileMap) : Prop :=
  (m.map Prod.fst).Nodup
  ∧ (∀ fn, fn ∈ m.map Prod.fst
      ↔ ∃ r ∈ dir, VectorTile.isTileFile r.type = true ∧ r.fn fromUtf8 = fn)
  ∧ (∀ fn tt, VectorTile.isTileFile tt = true →
      ((TileMap.find m fn).bind (fun tile => tile.file tt)).map (·._blocks)
        = chainOf fromUtf8 dir fn tt)
  ∧ (∀ fn tt, VectorTile.isTileFile tt = true →
      ∀ r, (recordsOf fromUtf8 dir fn tt).head? = some r → r.part = 0)

/-- The styling name and the styling sub-file hold what the styling records of
`dir` build: the name of the first styling record, and the block lists of the
styling records filed under that name, in directory order. -/
def StyleInv (fromUtf8 : List Nat → QString) (dir : List DirRecord)
    (typFile : Option QString) (typ : Option SubFile) : Prop :=
  typFile = (typRecords dir).head?.map (fun r => r.fn fromUtf8)
  ∧ typ.map (·._blocks) = styleChain fromUtf8 dir

/-! ## The obfuscated container -/

/-- The plain container `P` obfuscated with the key `k`, as the specification
describes it: the key in byte 0 and every further byte of `P` XORed with the
key ("the whole container after the key byte is obfuscated identically").  The
definition follows the words of the specification; it is what a plain
container is compared with, not a part of the source. -/
def obfuscated (k : Nat) : List Nat → List Nat
  | [] => []
  | _ :: rest => k :: rest.map (· ^^^ k)

/-! ## The aggregate bounds -/

/-- Modelled from the spec: the class `RectC` (`common/rectc.h`, not among the
sources) as far as the constructor uses it.  The default rectangle, which the
member `_bounds` starts from, is "the empty/zero rectangle", `none` here; every
other rectangle is a value of the type `R` of proper rectangles, which is left
open. -/
abbrev RectC (R : Type) := Option R

/-- Modelled from the spec: `RectC::operator|=`, the union ("union it into the
container's aggregate bounds"): the empty rectangle adds nothing, and two
proper rectangles give the proper rectangle `join a b` that spans both. -/
def RectC.union {R : Type} (join : R → R → R) : RectC R → RectC R → RectC R
  | none, r => r
  | some a, none => some a
  | some a, some b => some (join a b)

/-- The loop "Create tile tree" as far as the member `_bounds` goes:
`if (!tile->init()) { ...; continue; } ...; _bounds |= tile->bounds();`.
Modelled from the spec: `bounds` stands for `VectorTile::bounds()`, which hands on
the rectangle of the mandatory sub-file (`TREFile::bounds()`, not among the
sources); a tile that has parsed has a proper rectangle. -/
def unionBounds {R : Type} (join : R → R → R) (init : VectorTile → Bool)
    (bounds : VectorTile → R) : TileMap → RectC R → RectC R
  | [], b => b
  | (_, tile) :: m, b =>
    if !init tile then unionBounds join init bounds m b
    else unionBounds join init bounds m (RectC.union join b (some (bounds tile)))

/-- The member `_bounds` the constructor leaves behind, kept apart from the
structure `IMG`: the default rectangle when the constructor returns before the
loop "Create tile tree", that is on a file that cannot be opened, a header that
is not accepted or a directory scan that fails, and else what the loop makes of
the default rectangle. -/
def IMG.openBounds {R : Type} (join : R → R → R) (fromUtf8 : List Nat → QString)
    (init : VectorTile → Bool) (bounds : VectorTile → R) (u : Indeterminate)
    (disk : Except String (List Nat)) : RectC R :=
  match disk with
  | Except.error _ => none
  | Except.ok file =>
    if headerOk u file && (openScan fromUtf8 u file).1 then
      unionBounds join init bounds (openScan fromUtf8 u file).2.tileMap none
    else none

/-! ## `IMG::clear` -/

/-- Qt `QCache<Key, T>` as far as `IMG::clear` and a lookup go: the maximum cost
and the entries held, each a key with its object and its cost. -/
structure QCache (K V : Type) where
  maxCost : Nat
  entries : List (K × V × Nat)

/-- Qt `QCache::clear()`: "Deletes all the objects in the cache." -/
def QCache.clear {K V : Type} (c : QCache K V) : QCache K V :=
  { c with entries := [] }

/-- Qt `QCache::object(key)`: the object stored under the key, `none` (a null
pointer) when the cache holds no such key, which is a miss. -/
def QCache.object {K V : Type} [DecidableEq K] (c : QCache K V) (key : K) : Option V :=
  (c.entries.find? (fun e => decide (e.1 = key))).map (fun e => e.2.1)

/-- Modelled from the spec: `TREFile::clear()` (`trefile.cpp`, not among the
sources), by which the mandatory sub-file is asked "to release any decoded
caches specific to it"; the block chain, which is all the embedding keeps of a
sub-file, stays as it is. -/
def SubFile.clear (f : SubFile) : SubFile := f

/-- Source `void clear() {_tre->clear();}` of `class VectorTile`; `none` when `_tre` is a
null pointer, which the call would go through. -/
def VectorTile.clear (t : VectorTile) : Option VectorTile :=
  match t._tre with
  | none => none
  | some tre => some { t with _tre := some tre.clear }

/-- The loop
`for (_tileTree.GetFirst(it); !_tileTree.IsNull(it); _tileTree.GetNext(it)) _tileTree.GetAt(it)->clear();`
over the tiles of the tile tree; `none` when a tile without the mandatory
sub-file is met. -/
def clearTiles : List VectorTile → Option (List VectorTile)
  | [] => some []
  | t :: ts =>
    match t.clear with
    | none => none
    | some t1 => (clearTiles ts).map (fun ts1 => t1 :: ts1)

/-- The members of `class IMG` that `IMG::clear` is about: those the constructor
sets (`img`), the aggregate bounds, the style (`none` for a null pointer) and
the two caches.  The types of the bounds, of the style, of the keys of the
caches (`const SubDiv*`) and of the cached objects are declared outside the
sources and left open. -/
structure Container (B S K P Q : Type) where
  img : IMG
  _bounds : B
  _style : Option S
  _polyCache : QCache K P
  _pointCache : QCache K Q

/-- Source `void IMG::clear()`: every tile of the tile tree is cleared, the style is
deleted and set to null, both caches are cleared.  `none` when a tile without
the mandatory sub-file is met. -/
def IMG.clear {B S K P Q : Type} (c : Container B S K P Q) : Option (Container B S K P Q) :=
  match clearTiles c.img._tileTree with
  | none => none
  | some tree =>
    some { c with img := { c.img with _tileTree := tree }, _style := none,
                  _polyCache := c._polyCache.clear, _pointCache := c._pointCache.clear }

/-! ## Example containers -/

/-- The file with `bytes` written at offset `off`. -/
def put (file : List Nat) (off : Nat) (bytes : List Nat) : List Nat :=
  file.take off ++ bytes ++ file.drop (off + bytes.length)

/-- The two bytes of a 16-bit value, little-endian. -/
def le16 (v : Nat) : List Nat := [v % 256, v / 256 % 256]

/-- The four bytes of a 32-bit value, little-endian. -/
def le32 (v : Nat) : List Nat := [v % 256, v / 256 % 256, v / 65536 % 256, v / 16777216 % 256]

/-- A header block of 512 bytes, not encrypted: both signatures, the name
"Test map", block-size exponents 9 and 0. -/
def exHeader : List Nat :=
  put (put (put (put (put (List.replicate 512 0) 0x10 (cstr "DSKIMG")) 0x41 (cstr "GARMIN"))
    0x49 (ascii "  Test map          ")) 0x61 [9, 0]) 0x65 (List.replicate 30 0x20)

/-- A first directory block of 512 bytes: flag 1 and the size field `size`. -/
def exFatBlock (size : Nat) : List Nat :=
  [1] ++ List.replicate 11 0 ++ le32 size ++ List.replicate 496 0

/-- A directory record of 512 bytes: flag 1, the 8 name bytes, the 3 type
bytes, size 0, the part number, and the block numbers followed by `0xFFFF` up
to the end of the record. -/
def exRecord (name type : List Nat) (part : Nat) (blocks : List Nat) : List Nat :=
  [1] ++ name.take 8 ++ type.take 3 ++ le32 0 ++ le16 part ++ List.replicate 14 0
    ++ ((blocks ++ List.replicate (240 - blocks.length) 0xFFFF).take 240).flatMap le16

/-- Indeterminate objects that happen to hold zeros. -/
def exIndeterminate : Indeterminate :=
  { _key := 0, _blockSize := 0, signature := List.replicate 7 0,
    identifier := List.replicate 7 0, d1 := List.replicate 20 0, d2 := List.replicate 31 0 }

/-- The header `exHeader` with the byte behind "DSKIMG", at `0x16`, set to 1. -/
def exBadTerminator : List Nat := put exHeader 0x16 [1]

/-- A container with one record behind the first directory block, which
declares the size `0x600`. -/
def exCount : List Nat :=
  exHeader ++ exFatBlock 0x600 ++ exRecord (ascii "00000001") (ascii "TRE") 0 [3, 4]

/-- The same directory behind two blocks whose flag byte is zero, the size
field raised by `2 * 512`. -/
def exCountShifted : List Nat :=
  exHeader ++ List.replicate 1024 0 ++ exFatBlock 0xA00
    ++ exRecord (ascii "00000001") (ascii "TRE") 0 [3, 4]

/-- A container whose directory holds two tile-family records with the names
"A\0BBBBBB" and "A\0CCCCCC". -/
def exTileNames : List Nat :=
  exHeader ++ exFatBlock 0x800
    ++ exRecord (ascii "A" ++ [0] ++ ascii "BBBBBB") (ascii "TRE") 0 [1, 2]
    ++ exRecord (ascii "A" ++ [0] ++ ascii "CCCCCC") (ascii "TRE") 0 [3]

/-- A container whose directory holds two styling records with the names
"A\0BBBBBB" and "A\0CCCCCC". -/
def exStyleNames : List Nat :=
  exHeader ++ exFatBlock 0x800
    ++ exRecord (ascii "A" ++ [0] ++ ascii "BBBBBB") (ascii "TYP") 0 [1, 2]
    ++ exRecord (ascii "A" ++ [0] ++ ascii "CCCCCC") (ascii "TYP") 0 [3]

/-- A container whose directory holds a record of part 0 with the name
"A\0BBBBBB" and a record of part 1 with the name "A\0CCCCCC", both of type
TRE. -/
def exOrphanNames : List Nat :=
  exHeader ++ exFatBlock 0x800
    ++ exRecord (ascii "A" ++ [0] ++ ascii "BBBBBB") (ascii "TRE") 0 [1, 2]
    ++ exRecord (ascii "A" ++ [0] ++ ascii "CCCCCC") (ascii "TRE") 1 [3]

/-- A container whose directory holds a record of part 0 with the name
"00000001" and behind it a record of part 1 with the name "00000002", both of
type TRE. -/
def exOrphan : List Nat :=
  exHeader ++ exFatBlock 0x800
    ++ exRecord (ascii "00000001") (ascii "TRE") 0 [1, 2]
    ++ exRecord (ascii "00000002") (ascii "TRE") 1 [3]

/-- The header `exHeader` with the block-size exponents 16 and 15. -/
def exShift31 : List Nat := put exHeader 0x61 [16, 15]

/-- Indeterminate objects whose signature buffers happen to hold the two
tags. -/
def exTagged : Indeterminate :=
  { exIndeterminate with signature := cstr "DSKIMG", identifier := cstr "GARMIN" }

/-- Indeterminate objects whose second name buffer happens to hold the letter
"X" throughout. -/
def exLettered : Indeterminate :=
  { exIndeterminate with d2 := List.replicate 31 0x58 }

/-- The header `exHeader` cut off behind offset `0x6F`, within the second name
fragment. -/
def exTruncated : List Nat := exHeader.take 0x70

/-- A container whose directory consists of two blocks with a zero flag. -/
def exAllZero : List Nat := exHeader ++ List.replicate 1024 0

/-- A container whose first directory block declares the size `0x200`, less
than the offset `0x400` of the first record. -/
def exUndersized : List Nat := exHeader ++ exFatBlock 0x200

/-- A container as the open of `exCount` leaves it, with a style and with
entries in both caches. -/
def exLoaded : Container Nat Nat Nat (List Nat) (List Nat) :=
  { img := IMG.open id (fun t => t._tre.isSome) exIndeterminate (Except.ok exCount),
    _bounds := 7, _style := some 1,
    _polyCache := { maxCost := 2048, entries := [(5, [1, 2], 2), (6, [3], 1)] },
    _pointCache := { maxCost := 2048, entries := [(5, [4], 1)] } }

/-! ## Lemmas on the byte source -/

/-! ### Lengths of the example containers -/

theorem put_length (file : List Nat) (off : Nat) (bytes : List Nat)
    (h : off + bytes.length ≤ file.length) : (put file off bytes).length = file.length := by
  unfold put
  simp only [List.length_append, List.length_take, List.length_drop]
  omega

theorem exHeader_length : exHeader.length = 512 := by
  have h1 : (cstr "DSKIMG").length = 7 := by decide
  have h2 : (cstr "GARMIN").length = 7 := by decide
  have h3 : (ascii "  Test map          ").length = 20 := by decide
  have l0 : (List.replicate 512 (0 : Nat)).length = 512 := List.length_replicate _ _
  have l1 : (put (List.replicate 512 0) 0x10 (cstr "DSKIMG")).length = 512 := by
    rw [put_length _ _ _ (by rw [l0, h1]; decide), l0]
  have l2 : (put (put (List.replicate 512 0) 0x10 (cstr "DSKIMG")) 0x41 (cstr "GARMIN")).length
      = 512 := by
    rw [put_length _ _ _ (by rw [l1, h2]; decide), l1]
  have l3 : (put (put (put (List.replicate 512 0) 0x10 (cstr "DSKIMG")) 0x41 (cstr "GARMIN"))
      0x49 (ascii "  Test map          ")).length = 512 := by
    rw [put_length _ _ _ (by rw [l2, h3]; decide), l2]
  have l4 : (put (put (put (put (List.replicate 512 0) 0x10 (cstr "DSKIMG")) 0x41
      (cstr "GARMIN")) 0x49 (ascii "  Test map          ")) 0x61 [9, 0]).length = 512 := by
    rw [put_length _ _ _ (by rw [l3]; decide), l3]
  unfold exHeader
  rw [put_length _ _ _ (by rw [l4, List.length_replicate]; decide), l4]

theorem exBadTerminator_length : exBadTerminator.length = 512 := by
  unfold exBadTerminator
  rw [put_length _ _ _ (by rw [exHeader_length, List.length_singleton]; decide), exHeader_length]

theorem exFatBlock_length (size : Nat) : (exFatBlock size).length = 512 := by
  simp only [exFatBlock, le32, List.length_append, List.length_replicate, List.length_cons,
    List.length_nil]

theorem flatMap_le16_length (l : List Nat) : (l.flatMap le16).length = 2 * l.length := by
  induction l with
  | nil => rfl
  | cons a l ih => simp [List.flatMap_cons, le16, ih]; omega

theorem exRecord_length (name type : List Nat) (part : Nat) (blocks : List Nat)
    (hn : 8 ≤ name.length) (ht : 3 ≤ type.length) :
    (exRecord name type part blocks).length = 512 := by
  unfold exRecord
  simp only [List.length_append, List.length_singleton, List.length_take, List.length_replicate,
    flatMap_le16_length, le32, le16, List.length_cons, List.length_nil]
  omega

theorem exCount_length : exCount.length = 1536 := by
  unfold exCount
  rw [List.length_append, List.length_append, exHeader_length, exFatBlock_length,
    exRecord_length _ _ _ _ (by decide) (by decide)]

theorem exCountShifted_length : exCountShifted.length = 2560 := by
  unfold exCountShifted
  rw [List.length_append, List.length_append, List.length_append, exHeader_length,
    exFatBlock_length, exRecord_length _ _ _ _ (by decide) (by decide), List.length_replicate]

theorem xorLoop_append (key : Nat) (mid : List Nat) :
    ∀ (pre post : List Nat),
      xorLoop key mid.length pre.length (pre ++ mid ++ post)
        = pre ++ mid.map (· ^^^ key) ++ post := by
  induction mid with
  | nil => intro pre post; simp [xorLoop]
  | cons x mid ih =>
    intro pre post
    have h := ih (pre ++ [x ^^^ key]) post
    simp only [List.length_append, List.length_singleton, List.append_assoc,
      List.singleton_append] at h
    simp only [List.length_cons, xorLoop, List.append_assoc, List.cons_append, List.map_cons]
    rw [List.getD_eq_getElem?_getD, List.getElem?_append_right (Nat.le_refl _)]
    simp only [Nat.sub_self, List.getElem?_cons_zero, Option.getD_some]
    rw [List.set_append_right _ _ (Nat.le_refl _)]
    simpa using h

theorem xorLoop_eq (key n : Nat) (data : List Nat) (h : n ≤ data.length) :
    xorLoop key n 0 data = (data.take n).map (· ^^^ key) ++ data.drop n := by
  have := xorLoop_append key (data.take n) [] (data.drop n)
  simpa [List.length_take, Nat.min_eq_left h] using this

theorem decrypted_length (key : Nat) (file : List Nat) (p n : Nat) :
    (decrypted key file p n).length = min n (file.length - p) := by
  simp [decrypted]

theorem decrypted_key_zero (file : List Nat) (p n : Nat) :
    decrypted 0 file p n = (file.drop p).take n := by
  simp [decrypted]

/-- Closed form of `IMG::read` for a non-negative size that fits the buffer. -/
theorem IMG.read_eq (key : Nat) (file : List Nat) (pos : Nat) (buf : List Nat) (n : Nat) :
    IMG.read key file pos buf (n : Int)
      = (((min n (file.length - pos) : Nat) : Int),
          decrypted key file pos n ++ buf.drop (min n (file.length - pos)),
          pos + min n (file.length - pos)) := by
  have hneg : ¬ ((n : Int) < 0) := by omega
  by_cases hk : key = 0
  · subst hk
    simp [IMG.read, QFile.read, hneg, decrypted_key_zero]
  · have hlen : min n (file.length - pos)
        ≤ ((file.drop pos).take n ++ buf.drop (min n (file.length - pos))).length := by
      simp
    simp only [IMG.read, QFile.read, hneg, if_false, Int.toNat_ofNat, List.length_take,
      List.length_drop, ne_eq, hk, not_false_eq_true, if_true, Prod.mk.injEq, true_and, and_true]
    rw [xorLoop_eq key _ _ hlen]
    simp [decrypted, List.take_append_eq_append_take, List.drop_append_eq_append_drop,
      List.take_take]

theorem decrypted_getElem? (key : Nat) (file : List Nat) (p n i : Nat) (h : i < n) :
    (decrypted key file p n)[i]? = (file[p + i]?).map (· ^^^ key) := by
  simp [decrypted, List.getElem?_take, h]

theorem decrypted_full (key : Nat) (file : List Nat) (p n : Nat) (h : p + n ≤ file.length) :
    (decrypted key file p n).length = n := by
  rw [decrypted_length]; omega

theorem qFromLittleEndian_eq_sum (l : List Nat) :
    qFromLittleEndian l = ∑ i in Finset.range l.length, l.getD i 0 * 256 ^ i := by
  induction l with
  | nil => simp [qFromLittleEndian]
  | cons b bs ih =>
    rw [qFromLittleEndian, ih, List.length_cons, Finset.sum_range_succ', Finset.mul_sum]
    simp only [List.getD_cons_succ, List.getD_cons_zero, pow_zero, mul_one]
    rw [Nat.add_comm]
    congr 1
    apply Finset.sum_congr rfl
    intro i _
    ring

/-- Closed form of `IMG::readValue`. -/
theorem IMG.readValue_eq (key : Nat) (file : List Nat) (pos size val : Nat) :
    IMG.readValue key file pos size val
      = if size ≤ file.length - pos
        then (true, qFromLittleEndian (decrypted key file pos size), pos + size)
        else (false, val, pos + (file.length - pos)) := by
  unfold IMG.readValue
  rw [IMG.read_eq]
  by_cases h : size ≤ file.length - pos
  · have hm : min size (file.length - pos) = size := by omega
    have hl : (decrypted key file pos size).length = size := by rw [decrypted_length]; omega
    simp only [hm, lt_self_iff_false, if_false, h, if_true, List.length_replicate]
    rw [List.drop_of_length_le (by simp), List.append_nil]
  · have hm : min size (file.length - pos) = file.length - pos := by omega
    have : ((file.length - pos : Nat) : Int) < (size : Int) := by exact_mod_cast (by omega)
    simp only [hm, this, if_true, h, if_false]

theorem decrypted_getD (key : Nat) (file : List Nat) (p n i : Nat) (h : i < n)
    (hp : p + i < file.length) :
    (decrypted key file p n).getD i 0 = file.getD (p + i) 0 ^^^ key := by
  rw [List.getD_eq_getElem?_getD, List.getD_eq_getElem?_getD, decrypted_getElem? _ _ _ _ _ h,
    List.getElem?_eq_getElem hp]
  rfl

/-! ## C1, C2: the byte source -/

/-- C1. `IMG::read` returns the number of bytes the file delivered, which is the
requested size cut at the end of the file; each delivered byte is the file byte
XORed with a non-zero key, the file byte itself for the key 0; the buffer is
unchanged from the number of delivered bytes onwards.  The loop counter is an
`int` compared with the 64-bit count, so the statement is for requested sizes
below `2^31`, which covers every size this program asks for. -/
theorem IMG_read_contract (key : Nat) (file : List Nat) (pos : Nat) (buf : List Nat) (n : Nat)
    (_hn : n < 2 ^ 31) :
    (IMG.read key file pos buf n).1 = (QFile.read file pos buf n).1
    ∧ (IMG.read key file pos buf n).1 = ((min n (file.length - pos) : Nat) : Int)
    ∧ min n (file.length - pos) ≤ n
    ∧ (∀ i, i < min n (file.length - pos) →
        (IMG.read key file pos buf n).2.1[i]?
          = some (if key ≠ 0 then file.getD (pos + i) 0 ^^^ key else file.getD (pos + i) 0))
    ∧ (∀ i, min n (file.length - pos) ≤ i → (IMG.read key file pos buf n).2.1[i]? = buf[i]?) := by
  have hneg : ¬ ((n : Int) < 0) := by omega
  refine ⟨?_, ?_, Nat.min_le_left _ _, ?_, ?_⟩
  · simp [IMG.read]
  · rw [IMG.read_eq]
  · intro i hi
    have hin : i < n := lt_of_lt_of_le hi (Nat.min_le_left _ _)
    have hif : pos + i < file.length := by
      have := lt_of_lt_of_le hi (Nat.min_le_right _ _); omega
    rw [IMG.read_eq]
    simp only
    rw [List.getElem?_append_left (by rw [decrypted_length]; exact hi),
      decrypted_getElem? _ _ _ _ _ hin, List.getElem?_eq_getElem hif,
      List.getD_eq_getElem?_getD, List.getElem?_eq_getElem hif]
    by_cases hk : key = 0
    · subst hk; simp
    · simp [hk]
  · intro i hi
    rw [IMG.read_eq]
    simp only
    rw [List.getElem?_append_right (by rw [decrypted_length]; exact hi), decrypted_length,
      List.getElem?_drop]
    congr 1
    omega

/-- Witness of C1: three bytes are left at position 1 of a four-byte file, four
are requested with the key 0x5A. -/
theorem IMG_read_contract_witness :
    (4 : Nat) < 2 ^ 31
    ∧ (IMG.read 0x5A [1, 2, 3, 4] 1 [9, 9, 9, 9, 9] (4 : Nat)).1
        = (QFile.read [1, 2, 3, 4] 1 [9, 9, 9, 9, 9] (4 : Nat)).1
    ∧ (IMG.read 0x5A [1, 2, 3, 4] 1 [9, 9, 9, 9, 9] (4 : Nat)).1
        = ((min 4 (([1, 2, 3, 4] : List Nat).length - 1) : Nat) : Int)
    ∧ min 4 (([1, 2, 3, 4] : List Nat).length - 1) ≤ 4
    ∧ (∀ i, i < min 4 (([1, 2, 3, 4] : List Nat).length - 1) →
        (IMG.read 0x5A [1, 2, 3, 4] 1 [9, 9, 9, 9, 9] (4 : Nat)).2.1[i]?
          = some (if 0x5A ≠ 0 then ([1, 2, 3, 4] : List Nat).getD (1 + i) 0 ^^^ 0x5A
                  else ([1, 2, 3, 4] : List Nat).getD (1 + i) 0))
    ∧ (∀ i, min 4 (([1, 2, 3, 4] : List Nat).length - 1) ≤ i →
        (IMG.read 0x5A [1, 2, 3, 4] 1 [9, 9, 9, 9, 9] (4 : Nat)).2.1[i]?
          = ([9, 9, 9, 9, 9] : List Nat)[i]?) :=
  ⟨by decide, IMG_read_contract 0x5A [1, 2, 3, 4] 1 [9, 9, 9, 9, 9] 4 (by decide)⟩

/-- C2. `IMG::readValue<T>` with `size = sizeof(T)` (1, 2 or 4 for `quint8`,
`quint16`, `quint32`) returns false exactly when fewer than `size` bytes remain
at the position, and then leaves `val` as it was; otherwise it returns true and
`val` is the little-endian number of the `size` decrypted bytes. -/
theorem IMG_readValue_contract (key : Nat) (file : List Nat) (pos size val : Nat) :
    ((IMG.readValue key file pos size val).1 = false ↔ file.length - pos < size)
    ∧ ((IMG.readValue key file pos size val).1 = false →
        (IMG.readValue key file pos size val).2.1 = val)
    ∧ ((IMG.readValue key file pos size val).1 = true →
        (IMG.readValue key file pos size val).2.1
          = ∑ i in Finset.range size, (file.getD (pos + i) 0 ^^^ key) * 256 ^ i) := by
  rw [IMG.readValue_eq]
  by_cases h : size ≤ file.length - pos
  · simp only [h, if_true, Bool.true_eq_false, false_iff, not_lt, false_implies, true_and,
      forall_true_left]
    rw [qFromLittleEndian_eq_sum, decrypted_length, Nat.min_eq_left h]
    apply Finset.sum_congr rfl
    intro i hi
    rw [Finset.mem_range] at hi
    rw [decrypted_getD _ _ _ _ _ hi (by omega)]
  · simp only [h, if_false, true_iff, forall_true_left, Bool.false_eq_true, false_implies,
      and_true, true_and]
    omega

theorem QFile.seek_nat (pos offset : Nat) : QFile.seek pos (offset : Int) = (true, offset) := by
  simp [QFile.seek]

theorem QFile.seek_nat_add (pos offset k : Nat) :
    QFile.seek pos ((offset : Int) + (k : Int)) = (true, offset + k) := by
  have : ¬ ((offset : Int) + (k : Int) < 0) := by omega
  simp only [QFile.seek, this, if_false, Prod.mk.injEq, true_and]
  omega

theorem IMG.read_lit (key : Nat) (file : List Nat) (pos : Nat) (buf : List Nat) (m : Int)
    (n : Nat) (hm : m = (n : Int)) :
    IMG.read key file pos buf m
      = (((min n (file.length - pos) : Nat) : Int),
          decrypted key file pos n ++ buf.drop (min n (file.length - pos)),
          pos + min n (file.length - pos)) := by
  subst hm; exact IMG.read_eq key file pos buf n

theorem processRecord_eq (fromUtf8 : List Nat → QString) (key : Nat) (file : List Nat)
    (offset : Nat) (s : Scan) :
    processRecord fromUtf8 key file offset s
      = if offset + 18 ≤ file.length then
          recordBody fromUtf8 key file offset (decrypted key file (offset + 1) 8)
            (decrypted key file (offset + 9) 3)
            (qFromLittleEndian (decrypted key file (offset + 16) 2)) { s with pos := offset + 18 }
        else (false, { s with pos := max offset file.length }) := by
  unfold processRecord
  simp only [QFile.seek_nat, IMG.readValue_eq, fun pos buf => IMG.read_lit key file pos buf 8 8 rfl,
    fun pos buf => IMG.read_lit key file pos buf 3 3 rfl]
  by_cases h : offset + 18 ≤ file.length
  · have h1 : 1 ≤ file.length - offset := by omega
    have h2 : min 8 (file.length - (offset + 1)) = 8 := by omega
    have h3 : min 3 (file.length - (offset + 1 + 8)) = 3 := by omega
    have h4 : 4 ≤ file.length - (offset + 1 + 8 + 3) := by omega
    have h5 : 2 ≤ file.length - (offset + 1 + 8 + 3 + 4) := by omega
    have l8 : (decrypted key file (offset + 1) 8).length = 8 := by rw [decrypted_length]; omega
    have l3 : (decrypted key file (offset + 1 + 8) 3).length = 3 := by rw [decrypted_length]; omega
    simp [h, h1, h2, h3, h4, h5]
  · simp only [h, if_false]
    by_cases h1 : 1 ≤ file.length - offset
    · simp only [h1, if_true, Bool.not_true, Bool.false_eq_true, if_false]
      by_cases h2 : file.length - (offset + 1) = 0
      · simp [h2]; omega
      · have e2 : ¬ (((min 8 (file.length - (offset + 1)) : Nat) : Int) = 0) := by omega
        simp only [e2, if_false]
        rcases Nat.lt_or_ge (file.length - (offset + 1)) 8 with h8 | h8
        · have m8 : min 8 (file.length - (offset + 1)) = file.length - (offset + 1) :=
            Nat.min_eq_right (Nat.le_of_lt h8)
          have z : file.length - (offset + 1 + (file.length - (offset + 1))) = 0 := by omega
          simp [m8, z]; omega
        · have m8 : min 8 (file.length - (offset + 1)) = 8 := Nat.min_eq_left h8
          simp only [m8]
          rcases Nat.lt_or_ge (file.length - (offset + 1 + 8)) 3 with h3 | h3
          · have m3 : min 3 (file.length - (offset + 1 + 8)) = file.length - (offset + 1 + 8) :=
              Nat.min_eq_right (Nat.le_of_lt h3)
            have z : file.length - (offset + 1 + 8 + (file.length - (offset + 1 + 8))) = 0 := by
              omega
            by_cases h30 : file.length - (offset + 1 + 8) = 0
            · simp [m3, h30]; omega
            · simp [m3, z, h30]; omega
          · have m3 : min 3 (file.length - (offset + 1 + 8)) = 3 := Nat.min_eq_left h3
            simp only [m3]
            by_cases h4 : 4 ≤ file.length - (offset + 1 + 8 + 3)
            · have h5 : ¬ (2 ≤ file.length - (offset + 1 + 8 + 3 + 4)) := by omega
              simp [h4, h5]; omega
            · simp [h4]; omega
    · simp [h1]; omega

theorem le16At_readValue (key : Nat) (file : List Nat) (pos val : Nat) (h : 2 ≤ file.length - pos) :
    IMG.readValue key file pos 2 val = (true, le16At key file pos, pos + 2) := by
  rw [IMG.readValue_eq]; simp [h, le16At]

theorem range_succ_map {β : Type} (f : Nat → β) (n : Nat) :
    (List.range (n + 1)).map f = f 0 :: (List.range n).map (fun i => f (i + 1)) := by
  rw [List.range_succ_eq_map]; simp [Function.comp_def]

/-- A successful run of the block-number loop appends the values up to the
first `0xFFFF`. -/
theorem readBlocks_of_ok (key : Nat) (file : List Nat) (n : Nat) :
    ∀ (pos : Nat) (f : SubFile), (readBlocks key file n pos f).1 = true →
      (readBlocks key file n pos f).2.1
        = { _blocks := f._blocks
            ++ ((List.range n).map (fun i => le16At key file (pos + 2 * i))).takeWhile
                (· ≠ 0xFFFF) } := by
  induction n with
  | zero => intro pos f _; simp [readBlocks]
  | succ n ih =>
    intro pos f hok
    rw [range_succ_map]
    unfold readBlocks at hok ⊢
    rw [IMG.readValue_eq] at hok ⊢
    by_cases h : 2 ≤ file.length - pos
    · simp only [h, if_true, Bool.not_true, Bool.false_eq_true, if_false] at hok ⊢
      by_cases hv : qFromLittleEndian (decrypted key file pos 2) = 0xFFFF
      · simp [hv, le16At]
      · simp only [hv, if_false] at hok ⊢
        rw [ih _ _ hok]
        simp only [SubFile.addBlock, le16At, Nat.mul_zero, Nat.add_zero, List.takeWhile_cons,
          ne_eq, hv, not_false_eq_true, decide_True, if_true, List.append_assoc,
          List.singleton_append]
        congr 4
        apply List.map_congr_left
        intro i _
        congr 2
        omega
    · simp [h] at hok

/-- The block-number loop succeeds when the bytes of all its iterations are in
the file, and ends within them. -/
theorem readBlocks_full (key : Nat) (file : List Nat) (n : Nat) :
    ∀ (pos : Nat) (f : SubFile), pos + 2 * n ≤ file.length →
      (readBlocks key file n pos f).1 = true
      ∧ pos ≤ (readBlocks key file n pos f).2.2
      ∧ (readBlocks key file n pos f).2.2 ≤ pos + 2 * n := by
  induction n with
  | zero => intro pos f _; simp [readBlocks]
  | succ n ih =>
    intro pos f hlen
    unfold readBlocks
    rw [le16At_readValue _ _ _ _ (by omega)]
    simp only [Bool.not_true, Bool.false_eq_true, if_false]
    by_cases hv : le16At key file pos = 0xFFFF
    · simp only [hv, if_true, true_and]; omega
    · simp only [hv, if_false]
      have := ih (pos + 2) (f.addBlock (le16At key file pos)) (by omega)
      refine ⟨this.1, ?_, ?_⟩ <;> omega

/-! ## Lemmas on tiles and the tile map -/

theorem TileMap.find_insert_self (m : TileMap) (fn : QString) (t : VectorTile) :
    TileMap.find (TileMap.insert m fn t) fn = some t := by
  induction m with
  | nil => simp [TileMap.insert, TileMap.find]
  | cons e m ih =>
    obtain ⟨k, t0⟩ := e
    by_cases h : k = fn
    · simp [TileMap.insert, TileMap.find, h]
    · simp [TileMap.insert, TileMap.find, h, ih]

theorem TileMap.find_insert_ne (m : TileMap) (fn fn' : QString) (t : VectorTile) (h : fn' ≠ fn) :
    TileMap.find (TileMap.insert m fn t) fn' = TileMap.find m fn' := by
  induction m with
  | nil => simp [TileMap.insert, TileMap.find, Ne.symm h]
  | cons e m ih =>
    obtain ⟨k, t0⟩ := e
    by_cases hk : k = fn
    · subst hk
      simp [TileMap.insert, TileMap.find, Ne.symm h]
    · by_cases hk' : k = fn'
      · subst hk'
        simp [TileMap.insert, TileMap.find, hk]
      · simp [TileMap.insert, TileMap.find, hk, hk', ih]

theorem VectorTile.file_setFile_self (t : VectorTile) (tt : SubFileType) (f : SubFile)
    (h : VectorTile.isTileFile tt = true) : (t.setFile tt f).file tt = some f := by
  cases tt <;> simp_all [VectorTile.setFile, VectorTile.file, VectorTile.isTileFile]

theorem VectorTile.file_setFile_ne (t : VectorTile) (tt tt' : SubFileType) (f : SubFile)
    (h : tt' ≠ tt) : (t.setFile tt f).file tt' = t.file tt' := by
  cases tt <;> cases tt' <;> simp_all [VectorTile.setFile, VectorTile.file]

theorem decrypted_take_self (key : Nat) (file : List Nat) (p n : Nat) :
    (decrypted key file p n).take n = decrypted key file p n := by
  apply List.take_of_length_le
  rw [decrypted_length]; exact Nat.min_le_left _ _

/-- The body of the record loop in terms of the record at `offset`. -/
theorem recordBody_recordAt (fromUtf8 : List Nat → QString) (key : Nat) (file : List Nat)
    (offset : Nat) (s : Scan) (f : SubFile)
    (hown : owningFile fromUtf8 (recordAt key file offset) s = some f) :
    (recordBody fromUtf8 key file offset (decrypted key file (offset + 1) 8)
        (decrypted key file (offset + 9) 3)
        (qFromLittleEndian (decrypted key file (offset + 16) 2)) s).1
      = (readBlocks key file 240 (offset + 0x20) f).1
    ∧ (recordBody fromUtf8 key file offset (decrypted key file (offset + 1) 8)
        (decrypted key file (offset + 9) 3)
        (qFromLittleEndian (decrypted key file (offset + 16) 2)) s).2.pos
      = (readBlocks key file 240 (offset + 0x20) f).2.2
    ∧ owningFileAfter fromUtf8 (recordAt key file offset)
        (recordBody fromUtf8 key file offset (decrypted key file (offset + 1) 8)
          (decrypted key file (offset + 9) 3)
          (qFromLittleEndian (decrypted key file (offset + 16) 2)) s).2
      = some (readBlocks key file 240 (offset + 0x20) f).2.1 := by
  have hseek : ∀ p, QFile.seek p ((offset : Int) + 0x20) = (true, offset + 0x20) := by
    intro p; exact QFile.seek_nat_add p offset 0x20
  unfold owningFile at hown
  unfold recordBody owningFileAfter
  simp only [decrypted_take_self, hseek]
  simp only [recordAt, DirRecord.fn, le16At] at hown ⊢
  by_cases ht : VectorTile.isTileFile (tileType (decrypted key file (offset + 9) 3)) = true
  · simp only [ht, if_true] at hown ⊢
    simp only [hown, TileMap.find_insert_self, Option.bind_some, Option.some_bind,
      VectorTile.file_setFile_self _ _ _ ht, and_self]
  · simp only [ht, Bool.false_eq_true, if_false] at hown ⊢
    by_cases hy : tileType (decrypted key file (offset + 9) 3) = SubFileType.TYP
    · simp only [hy, if_true] at hown ⊢
      cases htf : s.typFile with
      | none =>
        simp only [htf, Option.some.injEq] at hown ⊢
        subst hown
        simp
      | some tf =>
        simp only [htf] at hown ⊢
        by_cases hfn : QString.ofByteArray fromUtf8 (decrypted key file (offset + 1) 8) = tf
        · simp only [hfn, if_true] at hown ⊢
          simp [hown]
        · simp [hfn] at hown
    · simp [hy] at hown

theorem decrypted_drop_take (key : Nat) (file : List Nat) (p n d m : Nat) (h : d + m ≤ n) :
    ((decrypted key file p n).drop d).take m = decrypted key file (p + d) m := by
  simp only [decrypted, ← List.map_drop, ← List.map_take, List.drop_take, List.take_take,
    List.drop_drop]
  rw [Nat.min_eq_left (by omega)]

theorem takeWhile_longest {α : Type} (p : α → Bool) (xs : List α) :
    ∀ l : List α, l <+: xs → (∀ x ∈ l, p x = true) → l.length ≤ (xs.takeWhile p).length := by
  induction xs with
  | nil => intro l hl _; simp [List.prefix_nil.mp hl]
  | cons x xs ih =>
    intro l hl hp
    cases l with
    | nil => simp
    | cons y l =>
      rw [List.cons_prefix_cons] at hl
      obtain ⟨rfl, hl⟩ := hl
      have hy : p y = true := hp y (List.mem_cons_self _ _)
      simp only [List.takeWhile_cons, hy, if_true, List.length_cons, Nat.add_le_add_iff_right]
      exact ih l hl (fun z hz => hp z (List.mem_cons_of_mem _ hz))

theorem le16At_eq (key : Nat) (file : List Nat) (p : Nat) (h : p + 2 ≤ file.length) :
    le16At key file p = (file.getD p 0 ^^^ key) + 256 * (file.getD (p + 1) 0 ^^^ key) := by
  have := qFromLittleEndian_eq_sum (decrypted key file p 2)
  rw [decrypted_full _ _ _ _ h] at this
  rw [le16At, this, Finset.sum_range_succ, Finset.sum_range_one,
    decrypted_getD _ _ _ _ _ (by omega) (by omega), decrypted_getD _ _ _ _ _ (by omega) (by omega)]
  simp [Nat.mul_comm]

theorem blockValues_length (key : Nat) (file : List Nat) (o : Nat) :
    (blockValues key file o).length = 240 := by
  simp [blockValues]

theorem blockValues_congr (key : Nat) (file file' : List Nat) (o : Nat)
    (h : decrypted key file' (o + 0x20) 480 = decrypted key file (o + 0x20) 480) :
    blockValues key file' o = blockValues key file o := by
  unfold blockValues
  apply List.map_congr_left
  intro i hi
  rw [List.mem_range] at hi
  unfold le16At
  have e : ∀ g : List Nat, decrypted key g (o + 0x20 + 2 * i) 2
      = ((decrypted key g (o + 0x20) 480).drop (2 * i)).take 2 := by
    intro g; rw [decrypted_drop_take _ _ _ _ _ _ (by omega)]
  rw [e file, e file', h]

/-! ## C4: the block-number list of a directory record -/

/-- C4. For a record at offset `o` that lies in the file with all its 512
bytes and has a sub-file to receive its blocks (a tile-family record, or a
styling record that is accepted), the pass of the record loop succeeds and
appends to that sub-file exactly the longest prefix without `0xFFFF` of the 240
little-endian 16-bit values at `o + 0x20 .. o + 0x1FF` (as decrypted by the
key), in stored order: at most 240 values, never `0xFFFF`.  The reads for the
list start at `o + 0x20` and end at `o + 0x200` at the latest, and the list is
a function of the 480 bytes in between. -/
theorem record_block_list (fromUtf8 : List Nat → QString) (key : Nat) (file : List Nat)
    (o : Nat) (s : Scan) (f : SubFile)
    (hfull : o + 512 ≤ file.length)
    (hown : owningFile fromUtf8 (recordAt key file o) s = some f) :
    (processRecord fromUtf8 key file o s).1 = true
    ∧ owningFileAfter fromUtf8 (recordAt key file o) (processRecord fromUtf8 key file o s).2
        = some { _blocks := f._blocks ++ (recordAt key file o).blocks }
    ∧ (recordAt key file o).blocks = (blockValues key file o).takeWhile (· ≠ 0xFFFF)
    ∧ (∀ i, i < 240 → (blockValues key file o)[i]?
        = some ((file.getD (o + 0x20 + 2 * i) 0 ^^^ key)
            + 256 * (file.getD (o + 0x20 + 2 * i + 1) 0 ^^^ key)))
    ∧ (recordAt key file o).blocks <+: blockValues key file o
    ∧ 0xFFFF ∉ (recordAt key file o).blocks
    ∧ (∀ l, l <+: blockValues key file o → 0xFFFF ∉ l →
        l.length ≤ (recordAt key file o).blocks.length)
    ∧ (recordAt key file o).blocks.length ≤ 240
    ∧ o + 0x20 ≤ (processRecord fromUtf8 key file o s).2.pos
    ∧ (processRecord fromUtf8 key file o s).2.pos ≤ o + 0x200
    ∧ (∀ file', decrypted key file' (o + 0x20) 480 = decrypted key file (o + 0x20) 480 →
        (recordAt key file' o).blocks = (recordAt key file o).blocks) := by
  have hb := recordBody_recordAt fromUtf8 key file o { s with pos := o + 18 } f hown
  have hfullb := readBlocks_full key file 240 (o + 0x20) f (by omega)
  have hok := readBlocks_of_ok key file 240 (o + 0x20) f hfullb.1
  have hpre : (recordAt key file o).blocks <+: blockValues key file o :=
    List.takeWhile_prefix _
  rw [processRecord_eq, if_pos (by omega)]
  refine ⟨by rw [hb.1]; exact hfullb.1, ?_, rfl, ?_, hpre, ?_, ?_, ?_, ?_, ?_, ?_⟩
  · rw [hb.2.2, hok]; rfl
  · intro i hi
    simp only [blockValues, List.getElem?_map, List.getElem?_range hi, Option.map_some']
    rw [le16At_eq _ _ _ (by omega)]
  · intro hmem
    have := List.mem_takeWhile_imp hmem
    simp at this
  · intro l hl hnot
    show l.length ≤ ((blockValues key file o).takeWhile (· ≠ 0xFFFF)).length
    apply takeWhile_longest _ _ l hl
    intro x hx
    simp only [ne_eq, decide_eq_true_eq]
    rintro rfl
    exact hnot hx
  · have := hpre.length_le
    rw [blockValues_length] at this
    exact this
  · rw [hb.2.1]; exact hfullb.2.1
  · rw [hb.2.1]; have := hfullb.2.2; omega
  · intro file' h
    simp only [recordAt, blockValues_congr key file file' o h]

/-! ## C9: classification of the sub-file type -/

theorem tileType_eq (str : List Nat) :
    tileType str =
      if str.take 3 = [0x54, 0x52, 0x45] then SubFileType.TRE
      else if str.take 3 = [0x52, 0x47, 0x4E] then SubFileType.RGN
      else if str.take 3 = [0x4C, 0x42, 0x4C] then SubFileType.LBL
      else if str.take 3 = [0x54, 0x59, 0x50] then SubFileType.TYP
      else if str.take 3 = [0x47, 0x4D, 0x50] then SubFileType.GMP
      else if str.take 3 = [0x4E, 0x45, 0x54] then SubFileType.NET
      else SubFileType.Unknown := by
  have c1 : (cstr "TRE").take 3 = [0x54, 0x52, 0x45] := by decide
  have c2 : (cstr "RGN").take 3 = [0x52, 0x47, 0x4E] := by decide
  have c3 : (cstr "LBL").take 3 = [0x4C, 0x42, 0x4C] := by decide
  have c4 : (cstr "TYP").take 3 = [0x54, 0x59, 0x50] := by decide
  have c5 : (cstr "GMP").take 3 = [0x47, 0x4D, 0x50] := by decide
  have c6 : (cstr "NET").take 3 = [0x4E, 0x45, 0x54] := by decide
  simp only [tileType, memcmp, c1, c2, c3, c4, c5, c6, bne, Bool.not_not, beq_iff_eq]

/-- A record that fails the first `CHECK` or is classified `Unknown` leaves the
tile map, the styling name and the styling sub-file as they are. -/
theorem processRecord_unknown (fromUtf8 : List Nat → QString) (key : Nat) (file : List Nat)
    (o : Nat) (s : Scan) (h : (recordAt key file o).type = SubFileType.Unknown) :
    (processRecord fromUtf8 key file o s).2.tileMap = s.tileMap
    ∧ (processRecord fromUtf8 key file o s).2.typFile = s.typFile
    ∧ (processRecord fromUtf8 key file o s).2._typ = s._typ := by
  rw [processRecord_eq]
  by_cases hl : o + 18 ≤ file.length
  · simp only [recordAt] at h
    simp [hl, recordBody, h, VectorTile.isTileFile]
  · simp [hl]

/-- C9. `tileType` is a function of the first three bytes of its argument: it
yields TRE, RGN, LBL, TYP, GMP or NET exactly for the upper-case ASCII codes of
these names and `Unknown` for every other value; `isTileFile` holds of the
result exactly for "TRE", "RGN", "LBL", "NET" and "GMP"; and a directory record
classified `Unknown` changes neither the tile map nor the styling sub-file. -/
theorem tileType_classification (str : List Nat) :
    (tileType str = SubFileType.TRE ↔ str.take 3 = [0x54, 0x52, 0x45])
    ∧ (tileType str = SubFileType.RGN ↔ str.take 3 = [0x52, 0x47, 0x4E])
    ∧ (tileType str = SubFileType.LBL ↔ str.take 3 = [0x4C, 0x42, 0x4C])
    ∧ (tileType str = SubFileType.TYP ↔ str.take 3 = [0x54, 0x59, 0x50])
    ∧ (tileType str = SubFileType.GMP ↔ str.take 3 = [0x47, 0x4D, 0x50])
    ∧ (tileType str = SubFileType.NET ↔ str.take 3 = [0x4E, 0x45, 0x54])
    ∧ (tileType str = SubFileType.Unknown ↔
        str.take 3 ∉ [[0x54, 0x52, 0x45], [0x52, 0x47, 0x4E], [0x4C, 0x42, 0x4C],
          [0x54, 0x59, 0x50], [0x47, 0x4D, 0x50], [0x4E, 0x45, 0x54]])
    ∧ (VectorTile.isTileFile (tileType str) = true ↔
        str.take 3 ∈ [[0x54, 0x52, 0x45], [0x52, 0x47, 0x4E], [0x4C, 0x42, 0x4C],
          [0x4E, 0x45, 0x54], [0x47, 0x4D, 0x50]])
    ∧ (∀ (fromUtf8 : List Nat → QString) (key : Nat) (file : List Nat) (o : Nat) (s : Scan),
        tileType (decrypted key file (o + 9) 3) = SubFileType.Unknown →
          (processRecord fromUtf8 key file o s).2.tileMap = s.tileMap
          ∧ (processRecord fromUtf8 key file o s).2.typFile = s.typFile
          ∧ (processRecord fromUtf8 key file o s).2._typ = s._typ) := by
  refine ⟨?_, ?_, ?_, ?_, ?_, ?_, ?_, ?_, ?_⟩
  case refine_9 =>
    intro fromUtf8 key file o s h
    exact processRecord_unknown fromUtf8 key file o s h
  all_goals
    rw [tileType_eq]
    generalize str.take 3 = t
    by_cases h1 : t = [0x54, 0x52, 0x45]
    · subst h1; simp [VectorTile.isTileFile]
    by_cases h2 : t = [0x52, 0x47, 0x4E]
    · subst h2; simp [VectorTile.isTileFile]
    by_cases h3 : t = [0x4C, 0x42, 0x4C]
    · subst h3; simp [VectorTile.isTileFile]
    by_cases h4 : t = [0x54, 0x59, 0x50]
    · subst h4; simp [VectorTile.isTileFile]
    by_cases h5 : t = [0x47, 0x4D, 0x50]
    · subst h5; simp [VectorTile.isTileFile]
    by_cases h6 : t = [0x4E, 0x45, 0x54]
    · subst h6; simp [VectorTile.isTileFile]
    simp [h1, h2, h3, h4, h5, h6, VectorTile.isTileFile]

/-! ## Lemmas on the skip loop and the record loop -/

theorem byteAt_readValue (key : Nat) (file : List Nat) (pos val : Nat) (h : pos < file.length) :
    IMG.readValue key file pos 1 val = (true, byteAt key file pos, pos + 1) := by
  rw [IMG.readValue_eq]
  have : 1 ≤ file.length - pos := by omega
  simp [this, byteAt]

theorem readValue_one_fail (key : Nat) (file : List Nat) (pos val : Nat) (h : file.length ≤ pos) :
    IMG.readValue key file pos 1 val = (false, val, pos) := by
  rw [IMG.readValue_eq]
  have : ¬ 1 ≤ file.length - pos := by omega
  simp only [this, if_false, Prod.mk.injEq, true_and]
  omega

theorem byteAt_eq (key : Nat) (file : List Nat) (p : Nat) (h : p < file.length) :
    byteAt key file p = file.getD p 0 ^^^ key := by
  have := qFromLittleEndian_eq_sum (decrypted key file p 1)
  rw [decrypted_full _ _ _ _ (by omega)] at this
  rw [byteAt, this, Finset.sum_range_one, decrypted_getD _ _ _ _ _ (by omega) (by omega)]
  simp

/-- One pass of the skip loop. -/
theorem skipLoop_cons (key : Nat) (file : List Nat) (x : Nat) (fuel : List Nat)
    (offset pos : Nat) :
    skipLoop key file (x :: fuel) offset pos
      = if offset < file.length then
          if byteAt key file offset ≠ 0 then some (true, offset, offset + 1)
          else skipLoop key file fuel (offset + 512) (offset + 1)
        else some (false, offset, offset) := by
  rw [skipLoop]
  simp only [QFile.seek_nat, Bool.not_true, Bool.false_eq_true, if_false]
  by_cases h : offset < file.length
  · simp [byteAt_readValue _ _ _ _ h, h]
  · simp [readValue_one_fail _ _ _ _ (Nat.le_of_not_lt h), h]

/-- The skip loop ends: it never needs more passes than the file has bytes
beyond its offset, and one. -/
theorem skipLoop_isSome (key : Nat) (file : List Nat) (fuel : List Nat) :
    ∀ (offset pos : Nat), 0 < fuel.length → file.length < offset + fuel.length →
      (skipLoop key file fuel offset pos).isSome = true := by
  induction fuel with
  | nil => intro offset pos h0 _; simp at h0
  | cons x fuel ih =>
    intro offset pos _ h
    rw [skipLoop_cons]
    rw [List.length_cons] at h
    by_cases hl : offset < file.length
    · by_cases hf : byteAt key file offset ≠ 0
      · simp [hl, hf]
      · simp only [hl, if_true, hf, if_false]
        exact ih _ _ (by omega) (by omega)
    · simp [hl]

/-- More fuel does not change the outcome of a skip loop that ended. -/
theorem skipLoop_fuel (key : Nat) (file : List Nat) (fuel : List Nat) :
    ∀ (offset pos : Nat) (r : Bool × Nat × Nat), skipLoop key file fuel offset pos = some r →
      ∀ more, skipLoop key file (fuel ++ more) offset pos = some r := by
  induction fuel with
  | nil => intro offset pos r h; simp [skipLoop] at h
  | cons x fuel ih =>
    intro offset pos r h more
    rw [List.cons_append, skipLoop_cons]
    rw [skipLoop_cons] at h
    by_cases hl : offset < file.length
    · by_cases hf : byteAt key file offset ≠ 0
      · simpa [hl, hf] using h
      · simp only [hl, if_true, hf, if_false] at h ⊢
        exact ih _ _ r h more
    · simpa [hl] using h

/-- The skip loop of the constructor ends. -/
theorem skipUnused_eq (key : Nat) (file : List Nat) (offset pos : Nat) :
    skipLoop key file (0 :: file) offset pos = some (skipUnused key file offset pos) := by
  have h := skipLoop_isSome key file (0 :: file) offset pos (by simp)
    (by rw [List.length_cons]; omega)
  unfold skipUnused
  cases hs : skipLoop key file (0 :: file) offset pos with
  | none => rw [hs] at h; simp at h
  | some r => simp

/-- The skip loop passes over as many blocks whose first byte decrypts to zero
as the list `skipped` has entries. -/
theorem skipLoop_zero_blocks (key : Nat) (file : List Nat) (skipped : List Nat) :
    ∀ (fuel : List Nat) (offset pos : Nat),
      (∀ j, j < skipped.length →
        offset + 512 * j < file.length ∧ byteAt key file (offset + 512 * j) = 0) →
      skipLoop key file (skipped ++ fuel) offset pos
        = skipLoop key file fuel (offset + 512 * skipped.length)
            (if skipped.length = 0 then pos else offset + 512 * skipped.length - 511) := by
  induction skipped with
  | nil => intro fuel offset pos _; simp
  | cons x skipped ih =>
    intro fuel offset pos h
    have h0 := h 0 (by simp)
    simp only [Nat.mul_zero, Nat.add_zero] at h0
    rw [List.cons_append, skipLoop_cons]
    simp only [h0.1, if_true, h0.2, ne_eq, not_true_eq_false, if_false]
    rw [ih fuel (offset + 512) (offset + 1)]
    · have e : offset + 512 + 512 * skipped.length
          = offset + 512 * (x :: skipped).length := by
        rw [List.length_cons]; omega
      have e2 : (if skipped.length = 0 then offset + 1
            else offset + 512 * (x :: skipped).length - 511)
          = (if (x :: skipped).length = 0 then pos
            else offset + 512 * (x :: skipped).length - 511) := by
        rw [List.length_cons]
        by_cases hn : skipped.length = 0
        · rw [hn]; simp
        · simp only [hn, if_false, Nat.add_one_ne_zero]
      rw [e, e2]
    · intro j hj
      have := h (j + 1) (by rw [List.length_cons]; omega)
      have e : offset + 512 + 512 * j = offset + 512 * (j + 1) := by omega
      rw [e]; exact this

/-- The skip loop of the constructor stops at the first block whose first byte
does not decrypt to zero. -/
theorem skipUnused_first_nonzero (key : Nat) (file : List Nat) (n offset pos : Nat)
    (hzero : ∀ j, j < n → offset + 512 * j < file.length
      ∧ byteAt key file (offset + 512 * j) = 0)
    (hlen : offset + 512 * n < file.length) (hflag : byteAt key file (offset + 512 * n) ≠ 0) :
    skipUnused key file offset pos = (true, offset + 512 * n, offset + 512 * n + 1) := by
  have hn : n ≤ file.length := by omega
  have hl : (file.take n).length = n := by rw [List.length_take]; omega
  have h1 := skipLoop_zero_blocks key file (file.take n) [0] offset pos (by rw [hl]; exact hzero)
  rw [hl, skipLoop_cons, if_pos hlen, if_pos hflag] at h1
  have h2 := skipLoop_fuel key file (file.take n ++ [0]) offset pos _ h1 (file.drop n)
  have h4 := skipUnused_eq key file offset pos
  -- the outcome does not depend on what the fuel holds, only on its length
  have hfuel : ∀ (f g : List Nat), f.length = g.length → ∀ o p,
      skipLoop key file f o p = skipLoop key file g o p := by
    intro f
    induction f with
    | nil => intro g hg o p; cases g with
      | nil => rfl
      | cons y g => simp at hg
    | cons x f ihf =>
      intro g hg o p
      cases g with
      | nil => simp at hg
      | cons y g =>
        rw [skipLoop_cons, skipLoop_cons, ihf g (by simpa using hg)]
  rw [hfuel (0 :: file) (file.take n ++ [0] ++ file.drop n) (by simp; omega)] at h4
  rw [h4] at h2
  exact Option.some.inj h2

theorem le32At_readValue (key : Nat) (file : List Nat) (pos val : Nat) (h : 4 ≤ file.length - pos) :
    IMG.readValue key file pos 4 val = (true, le32At key file pos, pos + 4) := by
  rw [IMG.readValue_eq]; simp [h, le32At]

/-- The part of the constructor behind a skip loop that stopped at block `b`. -/
theorem readFAT_eq (fromUtf8 : List Nat → QString) (key : Nat) (file : List Nat) (pos b : Nat)
    (hskip : skipUnused key file 0x200 pos = (true, b, b + 1)) (hsize : b + 16 ≤ file.length) :
    readFAT fromUtf8 key file pos
      = fatLoop fromUtf8 key file (fatCount (le32At key file (b + 12)) (b + 512)).toNat (b + 512)
          { pos := b + 16, tileMap := [], typFile := none, _typ := none }
    ∧ readFATTrace fromUtf8 key file pos
      = fatTrace fromUtf8 key file (fatCount (le32At key file (b + 12)) (b + 512)).toNat (b + 512)
          { pos := b + 16, tileMap := [], typFile := none, _typ := none } := by
  have hs : ∀ p, QFile.seek p ((b : Int) + 12) = (true, b + 12) := fun p =>
    QFile.seek_nat_add p b 12
  unfold readFAT readFATTrace
  simp only [hskip, hs, Bool.not_true, Bool.false_eq_true, if_false,
    le32At_readValue key file (b + 12) 0 (by omega), and_self]

/-- The record count when the size field is not below the offset of the first
record. -/
theorem fatCount_of_le (size o : Nat) (h32 : size < 2 ^ 32) (hle : o ≤ size) :
    fatCount size o = (((size - o) / 512 : Nat) : Int) := by
  unfold fatCount toInt32
  have h1 : ((size : Int) - (o : Int)) % 2 ^ 64 = ((size - o : Nat) : Int) := by
    rw [← Int.ofNat_sub hle]
    apply Int.emod_eq_of_lt (by omega)
    have : size - o < 2 ^ 64 := by omega
    exact_mod_cast this
  rw [h1]
  have h2 : (((size - o : Nat) : Int) / 512) = (((size - o) / 512 : Nat) : Int) := by
    norm_cast
  rw [h2]
  have h3 : (size - o) / 512 < 2 ^ 31 := by omega
  have h4 : ((((size - o) / 512 : Nat) : Int)) % 2 ^ 32 = (((size - o) / 512 : Nat) : Int) := by
    apply Int.emod_eq_of_lt (by omega)
    have : (size - o) / 512 < 2 ^ 32 := by omega
    exact_mod_cast this
  simp only [h4]
  have h5 : ((((size - o) / 512 : Nat) : Int)) < 2 ^ 31 := by exact_mod_cast h3
  rw [if_pos h5]

/-- The record loop passes through records 512 bytes apart, from the first on,
and through no more than its count. -/
theorem fatTrace_prefix_range (fromUtf8 : List Nat → QString) (key : Nat) (file : List Nat) (n : Nat) :
    ∀ (o : Nat) (s : Scan),
      fatTrace fromUtf8 key file n o s <+: (List.range n).map (fun i => o + 512 * i) := by
  induction n with
  | zero => intro o s; simp [fatTrace]
  | succ n ih =>
    intro o s
    rw [range_succ_map, fatTrace]
    simp only [Nat.mul_zero, Nat.add_zero]
    rw [List.cons_prefix_cons]
    refine ⟨rfl, ?_⟩
    by_cases h : (processRecord fromUtf8 key file o s).1 = true
    · simp only [h, Bool.not_true, Bool.false_eq_true, if_false]
      have := ih (o + 512) (processRecord fromUtf8 key file o s).2
      have e : (fun i => o + 512 + 512 * i) = (fun i => o + 512 * (i + 1)) := by
        funext i; omega
      rw [e] at this
      exact this
    · simp [h]

/-- A record loop that fails no `CHECK` passes through exactly its count of
records. -/
theorem fatTrace_of_ok (fromUtf8 : List Nat → QString) (key : Nat) (file : List Nat) (n : Nat) :
    ∀ (o : Nat) (s : Scan), (fatLoop fromUtf8 key file n o s).1 = true →
      fatTrace fromUtf8 key file n o s = (List.range n).map (fun i => o + 512 * i) := by
  induction n with
  | zero => intro o s _; simp [fatTrace]
  | succ n ih =>
    intro o s hok
    rw [range_succ_map, fatTrace]
    rw [fatLoop] at hok
    simp only [Nat.mul_zero, Nat.add_zero]
    by_cases h : (processRecord fromUtf8 key file o s).1 = true
    · simp only [h, Bool.not_true, Bool.false_eq_true, if_false] at hok ⊢
      rw [ih _ _ hok]
      congr 1
      apply List.map_congr_left
      intro i _
      omega
    · simp only [Bool.not_eq_true] at h
      simp [h] at hok

/-! ## The directory only depends on the bytes from its first record on -/

theorem drop_add_of_drop_eq (A B : List Nat) (oA oB k : Nat) (h : B.drop oB = A.drop oA) :
    B.drop (oB + k) = A.drop (oA + k) := by
  rw [← List.drop_drop, ← List.drop_drop, h]

theorem length_sub_of_drop_eq (A B : List Nat) (oA oB : Nat) (h : B.drop oB = A.drop oA) :
    B.length - oB = A.length - oA := by
  have := congrArg List.length h
  simpa using this

theorem decrypted_shift (key : Nat) (A B : List Nat) (oA oB k n : Nat)
    (h : B.drop oB = A.drop oA) :
    decrypted key B (oB + k) n = decrypted key A (oA + k) n := by
  unfold decrypted
  rw [drop_add_of_drop_eq A B oA oB k h]

theorem readBlocks_shift (key : Nat) (A B : List Nat) (n : Nat) :
    ∀ (pA pB : Nat) (f : SubFile), B.drop pB = A.drop pA →
      (readBlocks key B n pB f).1 = (readBlocks key A n pA f).1
      ∧ (readBlocks key B n pB f).2.1 = (readBlocks key A n pA f).2.1 := by
  induction n with
  | zero => intro pA pB f _; simp [readBlocks]
  | succ n ih =>
    intro pA pB f h
    have hl := length_sub_of_drop_eq A B pA pB h
    have hd := decrypted_shift key A B pA pB 0 2 h
    simp only [Nat.add_zero] at hd
    unfold readBlocks
    simp only [IMG.readValue_eq, hl, hd]
    by_cases h2 : 2 ≤ A.length - pA
    · simp only [h2, if_true, Bool.not_true, Bool.false_eq_true, if_false]
      by_cases hv : qFromLittleEndian (decrypted key A pA 2) = 0xFFFF
      · simp [hv]
      · simp only [hv, if_false]
        exact ih _ _ _ (drop_add_of_drop_eq A B pA pB 2 h)
    · simp [h2]

/-- The pass of a record does not depend on the position the file has before
it. -/
theorem processRecord_pos (fromUtf8 : List Nat → QString) (key : Nat) (file : List Nat)
    (o p : Nat) (s : Scan) :
    processRecord fromUtf8 key file o { s with pos := p } = processRecord fromUtf8 key file o s := by
  rw [processRecord_eq, processRecord_eq]

theorem recordBody_shift (fromUtf8 : List Nat → QString) (key : Nat) (A B : List Nat)
    (oA oB : Nat) (name type : List Nat) (part pA pB : Nat) (tm : TileMap)
    (tf : Option QString) (ty : Option SubFile) (h : B.drop oB = A.drop oA) :
    (recordBody fromUtf8 key B oB name type part ⟨pB, tm, tf, ty⟩).1
      = (recordBody fromUtf8 key A oA name type part ⟨pA, tm, tf, ty⟩).1
    ∧ (recordBody fromUtf8 key B oB name type part ⟨pB, tm, tf, ty⟩).2.tileMap
      = (recordBody fromUtf8 key A oA name type part ⟨pA, tm, tf, ty⟩).2.tileMap
    ∧ (recordBody fromUtf8 key B oB name type part ⟨pB, tm, tf, ty⟩).2.typFile
      = (recordBody fromUtf8 key A oA name type part ⟨pA, tm, tf, ty⟩).2.typFile
    ∧ (recordBody fromUtf8 key B oB name type part ⟨pB, tm, tf, ty⟩).2._typ
      = (recordBody fromUtf8 key A oA name type part ⟨pA, tm, tf, ty⟩).2._typ := by
  have hsA : ∀ p, QFile.seek p ((oA : Int) + 0x20) = (true, oA + 0x20) := fun p =>
    QFile.seek_nat_add p oA 0x20
  have hsB : ∀ p, QFile.seek p ((oB : Int) + 0x20) = (true, oB + 0x20) := fun p =>
    QFile.seek_nat_add p oB 0x20
  have hrb := fun (f : SubFile) =>
    readBlocks_shift key A B 240 (oA + 0x20) (oB + 0x20) f (drop_add_of_drop_eq A B oA oB 0x20 h)
  unfold recordBody
  simp only [hsA, hsB]
  by_cases ht : VectorTile.isTileFile (tileType type) = true
  · simp only [ht, if_true]
    split
    · simp
    · simp only [(hrb _).1, (hrb _).2, and_self]
  · simp only [ht, Bool.false_eq_true, if_false]
    by_cases hy : tileType type = SubFileType.TYP
    · simp only [hy, if_true]
      split
      · simp only [(hrb _).1, (hrb _).2, and_self]
      · simp
    · simp [hy]

theorem processRecord_shift (fromUtf8 : List Nat → QString) (key : Nat) (A B : List Nat)
    (oA oB pA pB : Nat) (tm : TileMap) (tf : Option QString) (ty : Option SubFile)
    (h : B.drop oB = A.drop oA) :
    (processRecord fromUtf8 key B oB ⟨pB, tm, tf, ty⟩).1
      = (processRecord fromUtf8 key A oA ⟨pA, tm, tf, ty⟩).1
    ∧ (processRecord fromUtf8 key B oB ⟨pB, tm, tf, ty⟩).2.tileMap
      = (processRecord fromUtf8 key A oA ⟨pA, tm, tf, ty⟩).2.tileMap
    ∧ (processRecord fromUtf8 key B oB ⟨pB, tm, tf, ty⟩).2.typFile
      = (processRecord fromUtf8 key A oA ⟨pA, tm, tf, ty⟩).2.typFile
    ∧ (processRecord fromUtf8 key B oB ⟨pB, tm, tf, ty⟩).2._typ
      = (processRecord fromUtf8 key A oA ⟨pA, tm, tf, ty⟩).2._typ := by
  have hl := length_sub_of_drop_eq A B oA oB h
  rw [processRecord_eq, processRecord_eq]
  have hc : (oB + 18 ≤ B.length) ↔ (oA + 18 ≤ A.length) := by
    have hB := congrArg List.length h
    simp only [List.length_drop] at hB
    omega
  by_cases hA : oA + 18 ≤ A.length
  · rw [if_pos hA, if_pos (hc.mpr hA)]
    rw [decrypted_shift key A B oA oB 1 8 h, decrypted_shift key A B oA oB 9 3 h,
      decrypted_shift key A B oA oB 16 2 h]
    exact recordBody_shift fromUtf8 key A B oA oB _ _ _ _ _ tm tf ty h
  · rw [if_neg hA, if_neg (fun hB => hA (hc.mp hB))]
    simp

/-- Two record loops over files that agree from the respective first record on
end alike, with the same tile map and styling sub-file. -/
theorem fatLoop_shift (fromUtf8 : List Nat → QString) (key : Nat) (A B : List Nat) (n : Nat) :
    ∀ (oA oB pA pB : Nat) (tm : TileMap) (tf : Option QString) (ty : Option SubFile),
      B.drop oB = A.drop oA →
      (fatLoop fromUtf8 key B n oB ⟨pB, tm, tf, ty⟩).1
        = (fatLoop fromUtf8 key A n oA ⟨pA, tm, tf, ty⟩).1
      ∧ (fatLoop fromUtf8 key B n oB ⟨pB, tm, tf, ty⟩).2.tileMap
        = (fatLoop fromUtf8 key A n oA ⟨pA, tm, tf, ty⟩).2.tileMap
      ∧ (fatLoop fromUtf8 key B n oB ⟨pB, tm, tf, ty⟩).2.typFile
        = (fatLoop fromUtf8 key A n oA ⟨pA, tm, tf, ty⟩).2.typFile
      ∧ (fatLoop fromUtf8 key B n oB ⟨pB, tm, tf, ty⟩).2._typ
        = (fatLoop fromUtf8 key A n oA ⟨pA, tm, tf, ty⟩).2._typ := by
  induction n with
  | zero => intro oA oB pA pB tm tf ty _; simp [fatLoop]
  | succ n ih =>
    intro oA oB pA pB tm tf ty h
    have hp := processRecord_shift fromUtf8 key A B oA oB pA pB tm tf ty h
    rw [fatLoop, fatLoop]
    generalize processRecord fromUtf8 key B oB ⟨pB, tm, tf, ty⟩ = rB at hp
    generalize processRecord fromUtf8 key A oA ⟨pA, tm, tf, ty⟩ = rA at hp
    obtain ⟨okB, ⟨pB', tmB, tfB, tyB⟩⟩ := rB
    obtain ⟨okA, ⟨pA', tmA, tfA, tyA⟩⟩ := rA
    simp only at hp
    obtain ⟨rfl, rfl, rfl, rfl⟩ := hp
    cases okB with
    | false => simp
    | true =>
      simp only [Bool.not_true, Bool.false_eq_true, if_false]
      exact ih _ _ _ _ _ _ _ (drop_add_of_drop_eq A B oA oB 512 h)

/-- Under the same condition the two loops pass through the same records, each
at its offset in its file. -/
theorem fatTrace_shift (fromUtf8 : List Nat → QString) (key : Nat) (A B : List Nat) (n d : Nat) :
    ∀ (oA pA pB : Nat) (tm : TileMap) (tf : Option QString) (ty : Option SubFile),
      B.drop (oA + d) = A.drop oA →
      fatTrace fromUtf8 key B n (oA + d) ⟨pB, tm, tf, ty⟩
        = (fatTrace fromUtf8 key A n oA ⟨pA, tm, tf, ty⟩).map (· + d) := by
  induction n with
  | zero => intro oA pA pB tm tf ty _; simp [fatTrace]
  | succ n ih =>
    intro oA pA pB tm tf ty h
    have hp := processRecord_shift fromUtf8 key A B oA (oA + d) pA pB tm tf ty h
    rw [fatTrace, fatTrace]
    generalize processRecord fromUtf8 key B (oA + d) ⟨pB, tm, tf, ty⟩ = rB at hp
    generalize processRecord fromUtf8 key A oA ⟨pA, tm, tf, ty⟩ = rA at hp
    obtain ⟨okB, ⟨pB', tmB, tfB, tyB⟩⟩ := rB
    obtain ⟨okA, ⟨pA', tmA, tfA, tyA⟩⟩ := rA
    simp only at hp
    obtain ⟨rfl, rfl, rfl, rfl⟩ := hp
    cases okB with
    | false => simp
    | true =>
      simp only [Bool.not_true, Bool.false_eq_true, if_false, List.map_cons, List.cons.injEq,
        true_and]
      have e : oA + d + 512 = oA + 512 + d := by omega
      rw [e]
      exact ih _ _ _ _ _ _ (by rw [← e]; exact drop_add_of_drop_eq A B oA (oA + d) 512 h)

/-! ## C7: the number of directory records -/

/-- C7, as the claim states it, fails: in `exCount` the header parses, the
first directory block (at `0x200`, flag 1) declares the size `0x600`, and the
open passes through one record, the one at `0x400`, while
`(0x600 - 0x200) / 512 = 2`. -/
theorem record_count_counterexample :
    (IMG.open id (fun _ => true) exIndeterminate (Except.ok exCount))._valid = true
    ∧ byteAt 0 exCount 0x200 ≠ 0
    ∧ le32At 0 exCount (0x200 + 12) = 0x600
    ∧ readFATTrace id 0 exCount 0x84 = [0x400]
    ∧ (readFATTrace id 0 exCount 0x84).length
        ≠ (le32At 0 exCount (0x200 + 12) - 0x200) / 512 := by
  set_option maxRecDepth 1000000 in decide

/-- C7, amended.  Let the first directory block whose flag byte is non-zero be
the one at `0x200 + 512 * N`, let `end` be the 32-bit size field at its byte 12
and `o = 0x200 + 512 * N + 512` the offset of the first record behind it.  If
`o ≤ end`, the record loop is set up for `(end - o) / 512` records; it passes
through records at `o`, `o + 512`, ... only, through exactly `(end - o) / 512`
of them when no read fails. -/
theorem record_count (fromUtf8 : List Nat → QString) (key : Nat) (file : List Nat)
    (pos N : Nat)
    (hzero : ∀ j, j < N → 0x200 + 512 * j < file.length
      ∧ byteAt key file (0x200 + 512 * j) = 0)
    (hflag : byteAt key file (0x200 + 512 * N) ≠ 0)
    (hsize : 0x200 + 512 * N + 16 ≤ file.length)
    (h32 : le32At key file (0x200 + 512 * N + 12) < 2 ^ 32)
    (hle : 0x200 + 512 * N + 512 ≤ le32At key file (0x200 + 512 * N + 12)) :
    fatCount (le32At key file (0x200 + 512 * N + 12)) (0x200 + 512 * N + 512)
      = (((le32At key file (0x200 + 512 * N + 12) - (0x200 + 512 * N + 512)) / 512 : Nat) : Int)
    ∧ readFAT fromUtf8 key file pos
      = fatLoop fromUtf8 key file
          ((le32At key file (0x200 + 512 * N + 12) - (0x200 + 512 * N + 512)) / 512)
          (0x200 + 512 * N + 512)
          { pos := 0x200 + 512 * N + 16, tileMap := [], typFile := none, _typ := none }
    ∧ readFATTrace fromUtf8 key file pos
      <+: (List.range ((le32At key file (0x200 + 512 * N + 12) - (0x200 + 512 * N + 512)) / 512)).map
            (fun i => 0x200 + 512 * N + 512 + 512 * i)
    ∧ ((readFAT fromUtf8 key file pos).1 = true →
        readFATTrace fromUtf8 key file pos
          = (List.range
              ((le32At key file (0x200 + 512 * N + 12) - (0x200 + 512 * N + 512)) / 512)).map
              (fun i => 0x200 + 512 * N + 512 + 512 * i)
        ∧ (readFATTrace fromUtf8 key file pos).length
          = (le32At key file (0x200 + 512 * N + 12) - (0x200 + 512 * N + 512)) / 512) := by
  have hskip := skipUnused_first_nonzero key file N 0x200 pos hzero (by omega) hflag
  have hfat := readFAT_eq fromUtf8 key file pos (0x200 + 512 * N) hskip hsize
  have hcnt := fatCount_of_le _ _ h32 hle
  rw [hcnt, Int.toNat_ofNat] at hfat
  refine ⟨hcnt, hfat.1, ?_, ?_⟩
  · rw [hfat.2]; exact fatTrace_prefix_range _ _ _ _ _ _
  · intro hok
    rw [hfat.1] at hok
    have := fatTrace_of_ok _ _ _ _ _ _ hok
    rw [hfat.2, this]
    simp

/-- Witness of C7 amended: the container `exCount`, no block skipped. -/
theorem record_count_witness :
    (∀ j, j < 0 → 0x200 + 512 * j < exCount.length ∧ byteAt 0 exCount (0x200 + 512 * j) = 0)
    ∧ byteAt 0 exCount (0x200 + 512 * 0) ≠ 0
    ∧ 0x200 + 512 * 0 + 16 ≤ exCount.length
    ∧ le32At 0 exCount (0x200 + 512 * 0 + 12) < 2 ^ 32
    ∧ 0x200 + 512 * 0 + 512 ≤ le32At 0 exCount (0x200 + 512 * 0 + 12)
    ∧ fatCount (le32At 0 exCount (0x200 + 512 * 0 + 12)) (0x200 + 512 * 0 + 512)
      = (((le32At 0 exCount (0x200 + 512 * 0 + 12) - (0x200 + 512 * 0 + 512)) / 512 : Nat) : Int) :=
  have h1 : ∀ j, j < 0 → 0x200 + 512 * j < exCount.length
      ∧ byteAt 0 exCount (0x200 + 512 * j) = 0 := fun j hj => absurd hj (Nat.not_lt_zero j)
  have h2 : byteAt 0 exCount (0x200 + 512 * 0) ≠ 0 := by
    set_option maxRecDepth 1000000 in decide
  have h3 : 0x200 + 512 * 0 + 16 ≤ exCount.length := by
    have := exCount_length; omega
  have h4 : le32At 0 exCount (0x200 + 512 * 0 + 12) < 2 ^ 32 := by
    set_option maxRecDepth 1000000 in decide
  have h5 : 0x200 + 512 * 0 + 512 ≤ le32At 0 exCount (0x200 + 512 * 0 + 12) := by
    set_option maxRecDepth 1000000 in decide
  ⟨h1, h2, h3, h4, h5, (record_count id 0 exCount 0x84 0 h1 h2 h3 h4 h5).1⟩

/-! ## C8: leading unused directory blocks -/

/-- C8. Let `A` have no leading zero-flag block and the size field `s`, and let
`B` have `N` leading 512-byte blocks at `0x200` whose flag byte is zero,
followed by a block with a non-zero flag and the size field `s + 512 * N`.
Then both opens compute the same record count and are set up for the same
sequence of records, those of `B` lying `512 * N` further; and when `B` holds
from its first record on what `A` holds from its first record on, the two
scans pass through the same records (at offsets shifted by `512 * N`) and end
alike, with the same tile map and styling sub-file. -/
theorem leading_zero_blocks (fromUtf8 : List Nat → QString) (key : Nat) (A B : List Nat)
    (N s posA posB : Nat)
    (hAflag : byteAt key A 0x200 ≠ 0)
    (hAsize : 0x200 + 16 ≤ A.length)
    (hAval : le32At key A (0x200 + 12) = s)
    (hBzero : ∀ j, j < N → 0x200 + 512 * j < B.length ∧ byteAt key B (0x200 + 512 * j) = 0)
    (hBflag : byteAt key B (0x200 + 512 * N) ≠ 0)
    (hBsize : 0x200 + 512 * N + 16 ≤ B.length)
    (hBval : le32At key B (0x200 + 512 * N + 12) = s + 512 * N)
    (_hs : s + 512 * N < 2 ^ 32) :
    fatCount (s + 512 * N) (0x400 + 512 * N) = fatCount s 0x400
    ∧ readFAT fromUtf8 key A posA
      = fatLoop fromUtf8 key A (fatCount s 0x400).toNat 0x400
          { pos := 0x200 + 16, tileMap := [], typFile := none, _typ := none }
    ∧ readFAT fromUtf8 key B posB
      = fatLoop fromUtf8 key B (fatCount s 0x400).toNat (0x400 + 512 * N)
          { pos := 0x200 + 512 * N + 16, tileMap := [], typFile := none, _typ := none }
    ∧ (B.drop (0x400 + 512 * N) = A.drop 0x400 →
        readFATTrace fromUtf8 key B posB
          = (readFATTrace fromUtf8 key A posA).map (· + 512 * N)
        ∧ (readFAT fromUtf8 key B posB).1 = (readFAT fromUtf8 key A posA).1
        ∧ (readFAT fromUtf8 key B posB).2.tileMap = (readFAT fromUtf8 key A posA).2.tileMap
        ∧ (readFAT fromUtf8 key B posB).2.typFile = (readFAT fromUtf8 key A posA).2.typFile
        ∧ (readFAT fromUtf8 key B posB).2._typ = (readFAT fromUtf8 key A posA).2._typ) := by
  have hcnt : fatCount (s + 512 * N) (0x400 + 512 * N) = fatCount s 0x400 := by
    unfold fatCount
    congr 3
    push_cast
    ring
  have hskipA := skipUnused_first_nonzero key A 0 0x200 posA
    (fun j hj => absurd hj (Nat.not_lt_zero j)) (by omega) hAflag
  have hskipB := skipUnused_first_nonzero key B N 0x200 posB hBzero (by omega) hBflag
  have hfatA := readFAT_eq fromUtf8 key A posA _ hskipA hAsize
  have hfatB := readFAT_eq fromUtf8 key B posB _ hskipB hBsize
  simp only [Nat.mul_zero, Nat.add_zero] at hfatA
  rw [hAval] at hfatA
  rw [hBval] at hfatB
  have e1 : 0x200 + 512 * N + 512 = 0x400 + 512 * N := by omega
  rw [e1, hcnt] at hfatB
  refine ⟨hcnt, hfatA.1, hfatB.1, ?_⟩
  intro hdrop
  rw [hfatA.1, hfatA.2, hfatB.1, hfatB.2]
  exact ⟨fatTrace_shift fromUtf8 key A B _ (512 * N) 0x400 _ _ [] none none hdrop,
    fatLoop_shift fromUtf8 key A B _ 0x400 (0x400 + 512 * N) _ _ [] none none hdrop⟩

/-- Witness of C8: `exCount` and the same directory behind two unused blocks. -/
theorem leading_zero_blocks_witness :
    byteAt 0 exCount 0x200 ≠ 0
    ∧ 0x200 + 16 ≤ exCount.length
    ∧ le32At 0 exCount (0x200 + 12) = 0x600
    ∧ (∀ j, j < 2 → 0x200 + 512 * j < exCountShifted.length
        ∧ byteAt 0 exCountShifted (0x200 + 512 * j) = 0)
    ∧ byteAt 0 exCountShifted (0x200 + 512 * 2) ≠ 0
    ∧ 0x200 + 512 * 2 + 16 ≤ exCountShifted.length
    ∧ le32At 0 exCountShifted (0x200 + 512 * 2 + 12) = 0x600 + 512 * 2
    ∧ 0x600 + 512 * 2 < 2 ^ 32
    ∧ fatCount (0x600 + 512 * 2) (0x400 + 512 * 2) = fatCount 0x600 0x400 :=
  have h1 : byteAt 0 exCount 0x200 ≠ 0 := by
    set_option maxRecDepth 1000000 in decide
  have h2 : 0x200 + 16 ≤ exCount.length := by
    have := exCount_length; omega
  have h3 : le32At 0 exCount (0x200 + 12) = 0x600 := by
    set_option maxRecDepth 1000000 in decide
  have h4 : ∀ j, j < 2 → 0x200 + 512 * j < exCountShifted.length
      ∧ byteAt 0 exCountShifted (0x200 + 512 * j) = 0 := by
    intro j hj
    have hlen := exCountShifted_length
    have hj2 : j = 0 ∨ j = 1 := by omega
    rcases hj2 with rfl | rfl
    · exact ⟨by omega, by set_option maxRecDepth 1000000 in decide⟩
    · exact ⟨by omega, by set_option maxRecDepth 1000000 in decide⟩
  have h5 : byteAt 0 exCountShifted (0x200 + 512 * 2) ≠ 0 := by
    set_option maxRecDepth 1000000 in decide
  have h6 : 0x200 + 512 * 2 + 16 ≤ exCountShifted.length := by
    have := exCountShifted_length; omega
  have h7 : le32At 0 exCountShifted (0x200 + 512 * 2 + 12) = 0x600 + 512 * 2 := by
    set_option maxRecDepth 1000000 in decide
  have h8 : 0x600 + 512 * 2 < 2 ^ 32 := by decide
  ⟨h1, h2, h3, h4, h5, h6, h7, h8,
    (leading_zero_blocks id 0 exCount exCountShifted 2 0x600 0x84 0x84 h1 h2 h3 h4 h5 h6 h7 h8).1⟩

/-! ## Lemmas on the constructor -/

theorem QFile.read_key (file : List Nat) (k : Nat) (h : 0 < file.length) :
    QFile.read file 0 [k] 1 = (1, [file.getD 0 0], 1) := by
  cases file with
  | nil => simp at h
  | cons b tl => simp [QFile.read]

theorem readSignature_eq (u : Indeterminate) (file : List Nat) (hlen : 0x48 ≤ file.length) :
    readSignature u file
      = (file.getD 0 0, decrypted (file.getD 0 0) file 0x10 7 ++ u.signature.drop 7,
          decrypted (file.getD 0 0) file 0x41 7 ++ u.identifier.drop 7, 0x48) := by
  have h1 : min 7 (file.length - 0x10) = 7 := by omega
  have h2 : min 7 (file.length - 0x41) = 7 := by omega
  have hs1 : ∀ p, QFile.seek p 0x10 = (true, 0x10) := fun p => by simp [QFile.seek]
  have hs2 : ∀ p, QFile.seek p 0x41 = (true, 0x41) := fun p => by simp [QFile.seek]
  unfold readSignature
  simp only [QFile.read_key file u._key (by omega), hs1, hs2,
    fun key pos buf => IMG.read_lit key file pos buf 7 7 rfl, h1, h2]
  simp

theorem memcmp_append_seven (a b tail : List Nat) (h : a.length = 7) :
    memcmp (a ++ tail) b 7 = (a != b.take 7) := by
  unfold memcmp
  rw [List.take_append_of_le_length (by omega), List.take_of_length_le (by omega)]

theorem signatureOk_eq (u : Indeterminate) (file : List Nat) (hlen : 0x48 ≤ file.length) :
    signatureOk u file
      = (decide (decrypted (file.getD 0 0) file 0x10 7 = cstr "DSKIMG")
          && decide (decrypted (file.getD 0 0) file 0x41 7 = cstr "GARMIN")) := by
  have c1 : (cstr "DSKIMG").take 7 = cstr "DSKIMG" := by decide
  have c2 : (cstr "GARMIN").take 7 = cstr "GARMIN" := by decide
  unfold signatureOk
  rw [readSignature_eq u file hlen]
  generalize file.getD 0 0 = k
  simp only [memcmp_append_seven _ _ _ (decrypted_full _ _ _ _ (show 0x10 + 7 ≤ file.length by omega)),
    memcmp_append_seven _ _ _ (decrypted_full _ _ _ _ (show 0x41 + 7 ≤ file.length by omega)), c1, c2]
  by_cases h1 : decrypted k file 0x10 7 = cstr "DSKIMG" <;>
  by_cases h2 : decrypted k file 0x41 7 = cstr "GARMIN" <;>
  simp [h1, h2, bne]

theorem createTileTree_eq (init : VectorTile → Bool) (m : TileMap) :
    ∀ tree, createTileTree init m tree = tree ++ (m.map Prod.snd).filter init := by
  induction m with
  | nil => intro tree; simp [createTileTree]
  | cons e m ih =>
    intro tree
    obtain ⟨k, t⟩ := e
    by_cases h : init t = true
    · simp [createTileTree, h, ih]
    · simp only [Bool.not_eq_true] at h
      simp [createTileTree, h, ih]

/-- The constructor on a file that exists, in terms of the views. -/
theorem IMG.open_ok (fromUtf8 : List Nat → QString) (init : VectorTile → Bool)
    (u : Indeterminate) (file : List Nat) :
    IMG.open fromUtf8 init u (Except.ok file)
      = if signatureOk u file = false then
          { _key := (readSignature u file).1, _blockSize := u._blockSize, _name := [],
            _typ := none, _tileTree := [], _valid := false,
            _errorString := "Not a Garmin IMG file" }
        else if headerOk u file = false then
          { _key := (readSignature u file).1, _blockSize := u._blockSize, _name := [],
            _typ := none, _tileTree := [], _valid := false, _errorString := unsupportedError }
        else
          let d := readDescription u (readSignature u file).1 file (readSignature u file).2.2.2
          if (openScan fromUtf8 u file).1 = false then
            { _key := (readSignature u file).1, _blockSize := blockSizeOf d.2.2.1 d.2.2.2.1,
              _name := displayName d.2.1 d.2.2.2.2.1, _typ := (openScan fromUtf8 u file).2._typ,
              _tileTree := [], _valid := false, _errorString := unsupportedError }
          else if ((openScan fromUtf8 u file).2.tileMap.map Prod.snd).filter init = [] then
            { _key := (readSignature u file).1, _blockSize := blockSizeOf d.2.2.1 d.2.2.2.1,
              _name := displayName d.2.1 d.2.2.2.2.1, _typ := (openScan fromUtf8 u file).2._typ,
              _tileTree := [], _valid := false, _errorString := "No usable map tile found" }
          else
            { _key := (readSignature u file).1, _blockSize := blockSizeOf d.2.2.1 d.2.2.2.1,
              _name := displayName d.2.1 d.2.2.2.2.1, _typ := (openScan fromUtf8 u file).2._typ,
              _tileTree := ((openScan fromUtf8 u file).2.tileMap.map Prod.snd).filter init,
              _valid := true, _errorString := "" } := by
  unfold IMG.open headerOk signatureOk openScan
  simp only [createTileTree_eq, List.nil_append, List.length_eq_zero]
  by_cases h1 : (memcmp (readSignature u file).2.1 (cstr "DSKIMG") 7
      || memcmp (readSignature u file).2.2.1 (cstr "GARMIN") 7) = true
  · simp [h1]
  · simp only [h1, Bool.false_eq_true, if_false]
    simp only [Bool.not_eq_true] at h1
    simp only [h1, Bool.not_false, Bool.true_and, Bool.true_eq_false, if_false]
    by_cases h2 : (readDescription u (readSignature u file).1 file (readSignature u file).2.2.2).1 = true
    · simp only [h2, Bool.not_true, Bool.false_eq_true, if_false, Bool.true_eq_false]
      by_cases h3 : (readFAT fromUtf8 (readSignature u file).1 file
          (readDescription u (readSignature u file).1 file (readSignature u file).2.2.2).2.2.2.2.2).1 = true
      · simp only [h3, Bool.not_true, Bool.false_eq_true, if_false, Bool.true_eq_false]
        by_cases h4 : List.filter init (List.map Prod.snd (readFAT fromUtf8 (readSignature u file).1 file
            (readDescription u (readSignature u file).1 file
              (readSignature u file).2.2.2).2.2.2.2.2).2.tileMap) = []
        · simp [h4]
        · simp [h4]
      · simp only [Bool.not_eq_true] at h3
        simp [h3]
    · simp only [Bool.not_eq_true] at h2
      simp [h2]

/-! ## C3: the signature check -/

/-- C3, as the claim states it, fails: `exBadTerminator` holds "DSKIMG" in the
6 bytes at `0x10` and "GARMIN" in the 6 bytes at `0x41`, and the open ends with
the signature error; it differs from `exHeader`, on which the open gets past
the signatures, in the byte at `0x16` only, which is outside the two 6-byte
fields. -/
theorem signature_six_bytes_counterexample :
    0x200 ≤ exBadTerminator.length
    ∧ decrypted (exBadTerminator.getD 0 0) exBadTerminator 0x10 6 = ascii "DSKIMG"
    ∧ decrypted (exBadTerminator.getD 0 0) exBadTerminator 0x41 6 = ascii "GARMIN"
    ∧ (IMG.open id (fun _ => true) exIndeterminate (Except.ok exBadTerminator))._errorString
        = "Not a Garmin IMG file"
    ∧ exBadTerminator = put exHeader 0x16 [1]
    ∧ (IMG.open id (fun _ => true) exIndeterminate (Except.ok exHeader))._errorString
        ≠ "Not a Garmin IMG file" := by
  refine ⟨by have := exBadTerminator_length; omega, ?_⟩
  set_option maxRecDepth 1000000 in decide

/-- C3, amended.  On a file that holds the bytes up to `0x47`, the open ends
with the signature error "Not a Garmin IMG file" exactly when the 7 decrypted
bytes at `0x10` differ from "DSKIMG" followed by a zero byte or the 7 decrypted
bytes at `0x41` differ from "GARMIN" followed by a zero byte; every later
failure of the header or the directory stores the other message,
"Unsupported or invalid IMG file"; and the decision is the same for two files
that agree in the key byte at offset 0 and in the two 7-byte fields. -/
theorem signature_check (fromUtf8 : List Nat → QString) (init : VectorTile → Bool)
    (u : Indeterminate) (file : List Nat) (hlen : 0x48 ≤ file.length) :
    ((IMG.open fromUtf8 init u (Except.ok file))._errorString = "Not a Garmin IMG file"
      ↔ (decrypted (file.getD 0 0) file 0x10 7 ≠ [0x44, 0x53, 0x4B, 0x49, 0x4D, 0x47, 0]
          ∨ decrypted (file.getD 0 0) file 0x41 7 ≠ [0x47, 0x41, 0x52, 0x4D, 0x49, 0x4E, 0]))
    ∧ ((IMG.open fromUtf8 init u (Except.ok file))._errorString ≠ "Not a Garmin IMG file" →
        (headerOk u file = false ∨ (openScan fromUtf8 u file).1 = false) →
        (IMG.open fromUtf8 init u (Except.ok file))._errorString
          = "Unsupported or invalid IMG file")
    ∧ (∀ (init' : VectorTile → Bool) (u' : Indeterminate) (file' : List Nat),
        0x48 ≤ file'.length → file'.getD 0 0 = file.getD 0 0 →
        (file'.drop 0x10).take 7 = (file.drop 0x10).take 7 →
        (file'.drop 0x41).take 7 = (file.drop 0x41).take 7 →
        ((IMG.open fromUtf8 init' u' (Except.ok file'))._errorString = "Not a Garmin IMG file"
          ↔ (IMG.open fromUtf8 init u (Except.ok file))._errorString
              = "Not a Garmin IMG file")) := by
  have c1 : cstr "DSKIMG" = [0x44, 0x53, 0x4B, 0x49, 0x4D, 0x47, 0] := by decide
  have c2 : cstr "GARMIN" = [0x47, 0x41, 0x52, 0x4D, 0x49, 0x4E, 0] := by decide
  have e1 : unsupportedError ≠ "Not a Garmin IMG file" := by decide
  have e2 : ("No usable map tile found" : String) ≠ "Not a Garmin IMG file" := by decide
  have e3 : ("" : String) ≠ "Not a Garmin IMG file" := by decide
  have key : ∀ (init : VectorTile → Bool) (u : Indeterminate) (file : List Nat),
      0x48 ≤ file.length →
      ((IMG.open fromUtf8 init u (Except.ok file))._errorString = "Not a Garmin IMG file"
        ↔ (decrypted (file.getD 0 0) file 0x10 7 ≠ [0x44, 0x53, 0x4B, 0x49, 0x4D, 0x47, 0]
            ∨ decrypted (file.getD 0 0) file 0x41 7 ≠ [0x47, 0x41, 0x52, 0x4D, 0x49, 0x4E, 0])) := by
    intro init u file hlen
    have hs := signatureOk_eq u file hlen
    rw [c1, c2] at hs
    rw [IMG.open_ok]
    generalize file.getD 0 0 = k at hs ⊢
    by_cases h1 : decrypted k file 0x10 7 = [0x44, 0x53, 0x4B, 0x49, 0x4D, 0x47, 0]
    · by_cases h2 : decrypted k file 0x41 7 = [0x47, 0x41, 0x52, 0x4D, 0x49, 0x4E, 0]
      · have hs' : signatureOk u file = true := by rw [hs]; simp [h1, h2]
        simp only [hs', Bool.true_eq_false, if_false, h1, h2, ne_eq, not_true_eq_false, or_self,
          iff_false]
        split_ifs <;> simp [e1, e2, e3]
      · have hs' : signatureOk u file = false := by rw [hs]; simp [h2]
        simp [hs', h2]
    · have hs' : signatureOk u file = false := by rw [hs]; simp [h1]
      simp [hs', h1]
  refine ⟨key init u file hlen, ?_, ?_⟩
  · intro hne hfail
    rw [IMG.open_ok] at hne ⊢
    by_cases hs : signatureOk u file = false
    · simp [hs] at hne
    · simp only [hs, if_false]
      by_cases hh : headerOk u file = false
      · simp [hh, unsupportedError]
      · simp only [hh, if_false]
        rcases hfail with hf | hf
        · exact absurd hf hh
        · simp [hf, unsupportedError]
  · intro init' u' file' hlen' hk h10 h41
    rw [key init' u' file' hlen', key init u file hlen]
    simp only [decrypted, hk, h10, h41]

/-- Witness of C3 amended: the header `exHeader`. -/
theorem signature_check_witness :
    0x48 ≤ exHeader.length
    ∧ ((IMG.open id (fun _ => true) exIndeterminate (Except.ok exHeader))._errorString
        = "Not a Garmin IMG file"
      ↔ (decrypted (exHeader.getD 0 0) exHeader 0x10 7 ≠ [0x44, 0x53, 0x4B, 0x49, 0x4D, 0x47, 0]
          ∨ decrypted (exHeader.getD 0 0) exHeader 0x41 7
              ≠ [0x47, 0x41, 0x52, 0x4D, 0x49, 0x4E, 0])) :=
  have h : 0x48 ≤ exHeader.length := by
    have := exHeader_length; omega
  ⟨h, (signature_check id (fun _ => true) exIndeterminate exHeader h).1⟩

/-! ## C10: the outcome of the open -/

/-- C10. On every path of the open that leaves the container invalid the error
message is not empty.  When the header and the directory scan complete without
failure, the tile tree holds exactly the accumulated tiles whose `init()`
succeeds, the container is valid exactly when there is such a tile, and
otherwise it is invalid with the message "No usable map tile found". -/
theorem open_outcome (fromUtf8 : List Nat → QString) (init : VectorTile → Bool)
    (u : Indeterminate) (disk : Except String (List Nat)) :
    ((IMG.open fromUtf8 init u disk)._valid = false →
        (IMG.open fromUtf8 init u disk)._errorString ≠ "")
    ∧ (∀ file, disk = Except.ok file → headerOk u file = true →
        (openScan fromUtf8 u file).1 = true →
        ((IMG.open fromUtf8 init u disk)._valid = true
          ↔ ∃ e ∈ (openScan fromUtf8 u file).2.tileMap, init e.2 = true)
        ∧ (IMG.open fromUtf8 init u disk)._tileTree
            = ((openScan fromUtf8 u file).2.tileMap.map Prod.snd).filter init
        ∧ (∀ t, t ∈ (IMG.open fromUtf8 init u disk)._tileTree → init t = true)
        ∧ ((∀ e ∈ (openScan fromUtf8 u file).2.tileMap, init e.2 = false) →
            (IMG.open fromUtf8 init u disk)._valid = false
            ∧ (IMG.open fromUtf8 init u disk)._errorString = "No usable map tile found")) := by
  have e1 : unsupportedError ≠ "" := by decide
  have e2 : ("No usable map tile found" : String) ≠ "" := by decide
  have e3 : ("Not a Garmin IMG file" : String) ≠ "" := by decide
  have e4 : ∀ e : String, QFile.errorString e ≠ "" := by
    intro e
    unfold QFile.errorString
    by_cases h : e = ""
    · rw [if_pos h]; decide
    · rw [if_neg h]; exact h
  constructor
  · cases disk with
    | error e => intro _; exact e4 e
    | ok file =>
      rw [IMG.open_ok]
      split_ifs <;> simp [e1, e2, e3]
  · intro file hdisk hh hscan
    subst hdisk
    have hsig : signatureOk u file = true := by
      unfold headerOk at hh
      simp only [Bool.and_eq_true] at hh
      exact hh.1
    rw [IMG.open_ok]
    simp only [hsig, hh, hscan, Bool.true_eq_false, if_false]
    by_cases hf : ((openScan fromUtf8 u file).2.tileMap.map Prod.snd).filter init = []
    · simp only [hf, if_true, Bool.false_eq_true, false_iff, not_exists, not_and,
        Bool.not_eq_true, true_and, List.not_mem_nil, false_implies, implies_true, and_true]
      have hall : ∀ e ∈ (openScan fromUtf8 u file).2.tileMap, init e.2 = false := by
        intro e he
        by_contra hne
        simp only [Bool.not_eq_false] at hne
        have : e.2 ∈ ((openScan fromUtf8 u file).2.tileMap.map Prod.snd).filter init :=
          List.mem_filter.mpr ⟨List.mem_map.mpr ⟨e, he, rfl⟩, hne⟩
        rw [hf] at this
        simp at this
      exact hall
    · simp only [hf, if_false, true_iff, true_and]
      obtain ⟨t, ht⟩ := List.exists_mem_of_ne_nil _ hf
      rw [List.mem_filter, List.mem_map] at ht
      obtain ⟨⟨e, he, rfl⟩, hinit⟩ := ht
      refine ⟨⟨e, he, hinit⟩, ?_, ?_⟩
      · intro t ht; exact (List.mem_filter.mp ht).2
      · intro hall
        rw [hall e he] at hinit
        simp at hinit

/-- Witness of C10: the container `exCount`, whose single tile passes `init`. -/
theorem open_outcome_witness :
    (Except.ok exCount : Except String (List Nat)) = Except.ok exCount
    ∧ headerOk exIndeterminate exCount = true
    ∧ (openScan id exIndeterminate exCount).1 = true
    ∧ ((IMG.open id (fun _ => true) exIndeterminate (Except.ok exCount))._valid = true
        ↔ ∃ e ∈ (openScan id exIndeterminate exCount).2.tileMap, (fun _ => true) e.2 = true) :=
  have h1 : headerOk exIndeterminate exCount = true := by
    set_option maxRecDepth 1000000 in decide
  have h2 : (openScan id exIndeterminate exCount).1 = true := by
    set_option maxRecDepth 1000000 in decide
  ⟨rfl, h1, h2,
    ((open_outcome id (fun _ => true) exIndeterminate (Except.ok exCount)).2 exCount rfl h1 h2).1⟩

/-- Witness of C4: the record at `0x400` of `exCount`, reached with an empty
tile map; its sub-file is created empty on the spot. -/
theorem record_block_list_witness :
    0x400 + 512 ≤ exCount.length
    ∧ owningFile id (recordAt 0 exCount 0x400)
        { pos := 0, tileMap := [], typFile := none, _typ := none } = some { _blocks := [] }
    ∧ (processRecord id 0 exCount 0x400
        { pos := 0, tileMap := [], typFile := none, _typ := none }).1 = true
    ∧ owningFileAfter id (recordAt 0 exCount 0x400)
        (processRecord id 0 exCount 0x400
          { pos := 0, tileMap := [], typFile := none, _typ := none }).2
        = some { _blocks := ([] : List Nat) ++ (recordAt 0 exCount 0x400).blocks } :=
  have h1 : 0x400 + 512 ≤ exCount.length := by
    have := exCount_length; omega
  have h2 : owningFile id (recordAt 0 exCount 0x400)
      { pos := 0, tileMap := [], typFile := none, _typ := none } = some { _blocks := [] } := by
    set_option maxRecDepth 1000000 in decide
  ⟨h1, h2,
    (record_block_list id 0 exCount 0x400 { pos := 0, tileMap := [], typFile := none, _typ := none }
      { _blocks := [] } h1 h2).1,
    (record_block_list id 0 exCount 0x400 { pos := 0, tileMap := [], typFile := none, _typ := none }
      { _blocks := [] } h1 h2).2.1⟩

/-- Witness of C9: the first directory block of `exCount`, whose type bytes are
zero, read as a record. -/
theorem tileType_classification_witness :
    tileType (decrypted 0 exCount (0x200 + 9) 3) = SubFileType.Unknown
    ∧ (processRecord id 0 exCount 0x200
        { pos := 0, tileMap := [], typFile := none, _typ := none }).2.tileMap = []
    ∧ (processRecord id 0 exCount 0x200
        { pos := 0, tileMap := [], typFile := none, _typ := none }).2.typFile = none
    ∧ (processRecord id 0 exCount 0x200
        { pos := 0, tileMap := [], typFile := none, _typ := none }).2._typ = none :=
  have h : tileType (decrypted 0 exCount (0x200 + 9) 3) = SubFileType.Unknown := by
    set_option maxRecDepth 1000000 in decide
  ⟨h, (tileType_classification []).2.2.2.2.2.2.2.2 id 0 exCount 0x200
    { pos := 0, tileMap := [], typFile := none, _typ := none } h⟩

/-! ## The scan as a fold over the records of the directory -/

theorem applyRecord_pos (fromUtf8 : List Nat → QString) (r : DirRecord) (s : Scan) (p : Nat) :
    applyRecord fromUtf8 r { s with pos := p }
      = (applyRecord fromUtf8 r s).map (fun s1 => { s1 with pos := p }) := by
  obtain ⟨p0, tm, tf, ty⟩ := s
  unfold applyRecord
  by_cases ht : VectorTile.isTileFile r.type = true
  · simp only [ht, if_true]
    split <;> simp
  · simp only [ht, Bool.false_eq_true, if_false]
    by_cases hy : r.type = SubFileType.TYP
    · simp only [hy, if_true]
      cases tf with
      | none => simp
      | some tf =>
        by_cases hf : r.fn fromUtf8 = tf
        · simp only [hf, if_true]
          cases ty <;> simp
        · simp [hf]
    · simp [hy]

theorem applyDirectory_pos (fromUtf8 : List Nat → QString) (rs : List DirRecord) :
    ∀ (s : Scan) (p : Nat), applyDirectory fromUtf8 rs { s with pos := p }
      = (applyDirectory fromUtf8 rs s).map (fun s1 => { s1 with pos := p }) := by
  induction rs with
  | nil => intro s p; simp [applyDirectory]
  | cons r rs ih =>
    intro s p
    rw [applyDirectory, applyDirectory, applyRecord_pos]
    cases h : applyRecord fromUtf8 r s with
    | none => rfl
    | some s1 =>
      rw [Option.map_some', Option.some_bind, Option.some_bind]
      exact ih s1 p

/-- A pass of the record loop that fails no `CHECK` does to the tile map and
the styling sub-file what `applyRecord` does with the record at its offset. -/
theorem processRecord_applyRecord (fromUtf8 : List Nat → QString) (key : Nat) (file : List Nat)
    (o : Nat) (s : Scan) (hok : (processRecord fromUtf8 key file o s).1 = true) :
    applyRecord fromUtf8 (recordAt key file o) s
      = some { (processRecord fromUtf8 key file o s).2 with pos := s.pos } := by
  have hseek : ∀ p, QFile.seek p ((o : Int) + 0x20) = (true, o + 0x20) := fun p =>
    QFile.seek_nat_add p o 0x20
  obtain ⟨p0, tm, tf0, ty0⟩ := s
  rw [processRecord_eq] at hok ⊢
  by_cases hl : o + 18 ≤ file.length
  · rw [if_pos hl] at hok ⊢
    unfold recordBody at hok ⊢
    unfold applyRecord
    simp only [recordAt, DirRecord.fn, le16At, decrypted_take_self, hseek] at hok ⊢
    by_cases ht : VectorTile.isTileFile (tileType (decrypted key file (o + 9) 3)) = true
    · simp only [ht, if_true] at hok ⊢
      generalize ((if qFromLittleEndian (decrypted key file (o + 16) 2) ≠ 0 then
          (TileMap.find tm (QString.ofByteArray fromUtf8 (decrypted key file (o + 1) 8))).getD
            VectorTile.new
        else ((TileMap.find tm (QString.ofByteArray fromUtf8 (decrypted key file (o + 1) 8))).getD
            VectorTile.new).addFile (tileType (decrypted key file (o + 9) 3)))) = tile1 at hok ⊢
      cases hfile : tile1.file (tileType (decrypted key file (o + 9) 3)) with
      | none =>
        rw [hfile] at hok
        simp at hok
      | some f =>
        rw [hfile] at hok
        simp only at hok ⊢
        have := readBlocks_of_ok key file 240 (o + 0x20) f hok
        simp only [this, blockValues]
    · simp only [ht, Bool.false_eq_true, if_false] at hok ⊢
      by_cases hy : tileType (decrypted key file (o + 9) 3) = SubFileType.TYP
      · simp only [hy, if_true] at hok ⊢
        cases tf0 with
        | none =>
          simp only at hok ⊢
          have := readBlocks_of_ok key file 240 (o + 0x20) { _blocks := [] } hok
          simp only [this, blockValues, List.nil_append]
        | some tf =>
          simp only at hok ⊢
          by_cases hf : QString.ofByteArray fromUtf8 (decrypted key file (o + 1) 8) = tf
          · simp only [hf, if_true] at hok ⊢
            cases ty0 with
            | none => simp
            | some typ =>
              simp only at hok ⊢
              have := readBlocks_of_ok key file 240 (o + 0x20) typ hok
              simp only [this, blockValues]
          · simp [hf]
      · simp [hy]
  · rw [if_neg hl] at hok
    simp at hok

theorem directory_succ (key : Nat) (file : List Nat) (o n : Nat) :
    directory key file o (n + 1) = recordAt key file o :: directory key file (o + 512) n := by
  unfold directory
  rw [range_succ_map]
  simp only [Nat.mul_zero, Nat.add_zero, List.cons.injEq, true_and]
  apply List.map_congr_left
  intro i _
  congr 1
  omega

/-- A record loop that fails no `CHECK` does to the tile map and the styling
sub-file what `applyDirectory` does with the records of the directory. -/
theorem fatLoop_applyDirectory (fromUtf8 : List Nat → QString) (key : Nat) (file : List Nat)
    (n : Nat) : ∀ (o : Nat) (s : Scan), (fatLoop fromUtf8 key file n o s).1 = true →
      applyDirectory fromUtf8 (directory key file o n) s
        = some { (fatLoop fromUtf8 key file n o s).2 with pos := s.pos } := by
  induction n with
  | zero => intro o s _; simp [fatLoop, directory, applyDirectory]
  | succ n ih =>
    intro o s hok
    rw [fatLoop] at hok ⊢
    rw [directory_succ, applyDirectory]
    by_cases h : (processRecord fromUtf8 key file o s).1 = true
    · simp only [h, Bool.not_true, Bool.false_eq_true, if_false] at hok ⊢
      rw [processRecord_applyRecord fromUtf8 key file o s h, Option.some_bind,
        applyDirectory_pos, ih _ _ hok]
      rfl
    · simp only [Bool.not_eq_true] at h
      simp [h] at hok

/-! ## Lemmas on the tile map, continued -/

theorem TileMap.insert_insert (m : TileMap) (fn : QString) (t t' : VectorTile) :
    TileMap.insert (TileMap.insert m fn t) fn t' = TileMap.insert m fn t' := by
  induction m with
  | nil => simp [TileMap.insert]
  | cons e m ih =>
    obtain ⟨k, t0⟩ := e
    by_cases h : k = fn
    · simp [TileMap.insert, h]
    · simp [TileMap.insert, h, ih]

theorem TileMap.find_isSome_iff (m : TileMap) (fn : QString) :
    (TileMap.find m fn).isSome = true ↔ fn ∈ m.map Prod.fst := by
  induction m with
  | nil => simp [TileMap.find]
  | cons e m ih =>
    obtain ⟨k, t0⟩ := e
    by_cases h : k = fn
    · simp [TileMap.find, h]
    · simp only [TileMap.find, h, if_false, ih, List.map_cons, List.mem_cons]
      constructor
      · intro hm; exact Or.inr hm
      · rintro (hm | hm)
        · exact absurd hm.symm h
        · exact hm

theorem TileMap.keys_insert (m : TileMap) (fn : QString) (t : VectorTile) :
    (TileMap.insert m fn t).map Prod.fst
      = if fn ∈ m.map Prod.fst then m.map Prod.fst else m.map Prod.fst ++ [fn] := by
  induction m with
  | nil => simp [TileMap.insert]
  | cons e m ih =>
    obtain ⟨k, t0⟩ := e
    by_cases h : k = fn
    · simp [TileMap.insert, h]
    · have h' : ¬ fn = k := fun e => h e.symm
      simp only [TileMap.insert, h, if_false, List.map_cons, ih, List.mem_cons, h', false_or]
      split <;> simp

theorem TileMap.nodup_insert (m : TileMap) (fn : QString) (t : VectorTile)
    (h : (m.map Prod.fst).Nodup) : ((TileMap.insert m fn t).map Prod.fst).Nodup := by
  rw [TileMap.keys_insert]
  split
  · exact h
  · rename_i hn
    rw [List.nodup_append]
    refine ⟨h, List.nodup_singleton _, ?_⟩
    intro a ha hb
    simp only [List.mem_singleton] at hb
    subst hb
    exact hn ha

theorem VectorTile.file_new (tt : SubFileType) : VectorTile.new.file tt = none := by
  cases tt <;> rfl

theorem TileMap.getD_file (m : TileMap) (fn : QString) (tt : SubFileType) :
    ((TileMap.find m fn).getD VectorTile.new).file tt
      = (TileMap.find m fn).bind (fun tile => tile.file tt) := by
  cases TileMap.find m fn with
  | none => simp [VectorTile.file_new]
  | some t => simp

theorem VectorTile.file_addFile_self (t : VectorTile) (tt : SubFileType)
    (h : VectorTile.isTileFile tt = true) :
    (t.addFile tt).file tt = some ((t.file tt).getD { _blocks := [] }) := by
  unfold VectorTile.addFile
  cases hf : t.file tt with
  | none => simp [VectorTile.file_setFile_self _ _ _ h]
  | some g => simp [hf]

theorem VectorTile.file_addFile_ne (t : VectorTile) (tt tt' : SubFileType) (h : tt' ≠ tt) :
    (t.addFile tt).file tt' = t.file tt' := by
  unfold VectorTile.addFile
  cases hf : t.file tt with
  | none => simp [VectorTile.file_setFile_ne _ _ _ _ h]
  | some g => simp

/-! ## Lemmas on the records of a directory -/

theorem recordsOf_snoc (fromUtf8 : List Nat → QString) (pre : List DirRecord) (r : DirRecord)
    (fn : QString) (tt : SubFileType) :
    recordsOf fromUtf8 (pre ++ [r]) fn tt
      = recordsOf fromUtf8 pre fn tt
          ++ (if r.fn fromUtf8 = fn ∧ r.type = tt then [r] else []) := by
  unfold recordsOf
  rw [List.filter_append]
  congr 1
  by_cases h1 : r.fn fromUtf8 = fn <;> by_cases h2 : r.type = tt <;> simp [h1, h2]

theorem chainOf_eq_none_iff (fromUtf8 : List Nat → QString) (pre : List DirRecord)
    (fn : QString) (tt : SubFileType) :
    chainOf fromUtf8 pre fn tt = none ↔ recordsOf fromUtf8 pre fn tt = [] := by
  unfold chainOf
  cases recordsOf fromUtf8 pre fn tt <;> simp

theorem chainOf_snoc_match (fromUtf8 : List Nat → QString) (pre : List DirRecord)
    (r : DirRecord) :
    chainOf fromUtf8 (pre ++ [r]) (r.fn fromUtf8) r.type
      = some ((chainOf fromUtf8 pre (r.fn fromUtf8) r.type).getD [] ++ r.blocks) := by
  unfold chainOf
  rw [recordsOf_snoc]
  simp only [and_self, if_true]
  cases recordsOf fromUtf8 pre (r.fn fromUtf8) r.type with
  | nil => simp
  | cons a l => simp

theorem chainOf_snoc_ne (fromUtf8 : List Nat → QString) (pre : List DirRecord)
    (r : DirRecord) (fn : QString) (tt : SubFileType) (h : ¬ (r.fn fromUtf8 = fn ∧ r.type = tt)) :
    chainOf fromUtf8 (pre ++ [r]) fn tt = chainOf fromUtf8 pre fn tt := by
  unfold chainOf
  rw [recordsOf_snoc, if_neg h, List.append_nil]

/-! ## Tile assembly, record by record -/

theorem applyRecord_tile (fromUtf8 : List Nat → QString) (r : DirRecord) (s : Scan)
    (ht : VectorTile.isTileFile r.type = true) (tile tile1 : VectorTile)
    (htile : (TileMap.find s.tileMap (r.fn fromUtf8)).getD VectorTile.new = tile)
    (htile1 : (if r.part ≠ 0 then tile else tile.addFile r.type) = tile1) :
    applyRecord fromUtf8 r s
      = (tile1.file r.type).map (fun f =>
          { s with tileMap := TileMap.insert s.tileMap (r.fn fromUtf8)
                                (tile1.setFile r.type { _blocks := f._blocks ++ r.blocks }) }) := by
  unfold applyRecord
  simp only [ht, if_true, htile, htile1]
  cases tile1.file r.type with
  | none => rfl
  | some f =>
    by_cases hn : (TileMap.find s.tileMap (r.fn fromUtf8)).isNone = true
    · simp only [hn, if_true, TileMap.insert_insert, Option.map_some']
    · simp only [hn, Bool.false_eq_true, if_false, Option.map_some']

theorem TileInv_snoc_other (fromUtf8 : List Nat → QString) (pre : List DirRecord)
    (r : DirRecord) (m : TileMap) (ht : ¬ VectorTile.isTileFile r.type = true)
    (hinv : TileInv fromUtf8 pre m) : TileInv fromUtf8 (pre ++ [r]) m := by
  obtain ⟨hnd, hkeys, hchain, hfirst⟩ := hinv
  have hne : ∀ fn tt, VectorTile.isTileFile tt = true → ¬ (r.fn fromUtf8 = fn ∧ r.type = tt) := by
    intro fn tt htt h
    rw [h.2] at ht
    exact ht htt
  refine ⟨hnd, ?_, ?_, ?_⟩
  · intro fn
    rw [hkeys fn]
    constructor
    · rintro ⟨r', hr', h⟩
      exact ⟨r', List.mem_append_left _ hr', h⟩
    · rintro ⟨r', hr', h⟩
      rw [List.mem_append, List.mem_singleton] at hr'
      rcases hr' with hr' | rfl
      · exact ⟨r', hr', h⟩
      · exact absurd h.1 ht
  · intro fn tt htt
    rw [chainOf_snoc_ne _ _ _ _ _ (hne fn tt htt)]
    exact hchain fn tt htt
  · intro fn tt htt r' hr'
    rw [recordsOf_snoc, if_neg (hne fn tt htt), List.append_nil] at hr'
    exact hfirst fn tt htt r' hr'

theorem TileInv_snoc_tile (fromUtf8 : List Nat → QString) (pre : List DirRecord)
    (r : DirRecord) (s s1 : Scan) (ht : VectorTile.isTileFile r.type = true)
    (hinv : TileInv fromUtf8 pre s.tileMap) (happ : applyRecord fromUtf8 r s = some s1) :
    TileInv fromUtf8 (pre ++ [r]) s1.tileMap ∧ s1.typFile = s.typFile ∧ s1._typ = s._typ := by
  obtain ⟨hnd, hkeys, hchain, hfirst⟩ := hinv
  have hgetD := TileMap.getD_file s.tileMap (r.fn fromUtf8) r.type
  have hch := hchain (r.fn fromUtf8) r.type ht
  rw [← hgetD] at hch
  generalize htile : (TileMap.find s.tileMap (r.fn fromUtf8)).getD VectorTile.new = tile at *
  generalize htile1 : (if r.part ≠ 0 then tile else tile.addFile r.type) = tile1
  rw [applyRecord_tile fromUtf8 r s ht tile tile1 htile htile1] at happ
  cases hfile : tile1.file r.type with
  | none => rw [hfile] at happ; simp at happ
  | some f =>
    rw [hfile] at happ
    simp only [Option.map_some', Option.some.injEq] at happ
    subst happ
    simp only [and_self, and_true]
    -- the blocks of the sub-file so far
    have hF : f._blocks = (chainOf fromUtf8 pre (r.fn fromUtf8) r.type).getD []
        ∧ (r.part ≠ 0 → recordsOf fromUtf8 pre (r.fn fromUtf8) r.type ≠ []) := by
      by_cases hp : r.part ≠ 0
      · rw [if_pos hp] at htile1
        subst htile1
        rw [hfile] at hch
        simp only [Option.map_some'] at hch
        refine ⟨by rw [← hch]; rfl, fun _ hnil => ?_⟩
        rw [← chainOf_eq_none_iff, ← hch] at hnil
        simp at hnil
      · rw [if_neg hp] at htile1
        subst htile1
        rw [VectorTile.file_addFile_self _ _ ht] at hfile
        simp only [Option.some.injEq] at hfile
        refine ⟨?_, fun h => absurd h hp⟩
        rw [← hch, ← hfile]
        cases tile.file r.type <;> rfl
    -- the other sub-files of the tile
    have hO : ∀ tt, tt ≠ r.type → tile1.file tt = tile.file tt := by
      intro tt hne
      rw [← htile1]
      by_cases hp : r.part ≠ 0
      · rw [if_pos hp]
      · rw [if_neg hp, VectorTile.file_addFile_ne _ _ _ hne]
    refine ⟨TileMap.nodup_insert _ _ _ hnd, ?_, ?_, ?_⟩
    · intro fn
      rw [← TileMap.find_isSome_iff]
      by_cases hfn : fn = r.fn fromUtf8
      · subst hfn
        rw [TileMap.find_insert_self]
        simp only [Option.isSome_some, true_iff]
        exact ⟨r, by simp, ht, rfl⟩
      · rw [TileMap.find_insert_ne _ _ _ _ hfn, TileMap.find_isSome_iff, hkeys fn]
        constructor
        · rintro ⟨r', hr', h⟩
          exact ⟨r', List.mem_append_left _ hr', h⟩
        · rintro ⟨r', hr', h⟩
          rw [List.mem_append, List.mem_singleton] at hr'
          rcases hr' with hr' | rfl
          · exact ⟨r', hr', h⟩
          · exact absurd h.2.symm hfn
    · intro fn tt htt
      by_cases hfn : fn = r.fn fromUtf8
      · subst hfn
        rw [TileMap.find_insert_self]
        simp only [Option.some_bind]
        by_cases htt0 : tt = r.type
        · subst htt0
          rw [VectorTile.file_setFile_self _ _ _ ht, chainOf_snoc_match, ← hF.1]
          rfl
        · rw [VectorTile.file_setFile_ne _ _ _ _ htt0, hO tt htt0,
            chainOf_snoc_ne _ _ _ _ _ (fun h => htt0 h.2.symm), ← hchain _ tt htt, ← htile,
            TileMap.getD_file]
      · rw [TileMap.find_insert_ne _ _ _ _ hfn,
          chainOf_snoc_ne _ _ _ _ _ (fun h => hfn h.1.symm)]
        exact hchain fn tt htt
    · intro fn tt htt r' hr'
      rw [recordsOf_snoc] at hr'
      cases hrec : recordsOf fromUtf8 pre fn tt with
      | cons a l =>
        rw [hrec] at hr'
        simp only [List.cons_append, List.head?_cons, Option.some.injEq] at hr'
        apply hfirst fn tt htt
        rw [hrec, ← hr']
        rfl
      | nil =>
        rw [hrec, List.nil_append] at hr'
        by_cases hm : r.fn fromUtf8 = fn ∧ r.type = tt
        · rw [if_pos hm] at hr'
          simp only [List.head?_cons, Option.some.injEq] at hr'
          subst hr'
          by_contra hp
          obtain ⟨h1, h2⟩ := hm
          subst h1 h2
          exact hF.2 hp hrec
        · rw [if_neg hm] at hr'
          simp at hr'

/-! ## The styling sub-file, record by record -/

theorem typRecords_snoc (pre : List DirRecord) (r : DirRecord) :
    typRecords (pre ++ [r])
      = typRecords pre ++ (if r.type = SubFileType.TYP then [r] else []) := by
  unfold typRecords
  rw [List.filter_append]
  congr 1
  by_cases h : r.type = SubFileType.TYP <;> simp [h]

theorem recordsOf_typ (fromUtf8 : List Nat → QString) (pre : List DirRecord) (fn : QString) :
    recordsOf fromUtf8 pre fn SubFileType.TYP
      = (typRecords pre).filter (fun r => decide (r.fn fromUtf8 = fn)) := by
  unfold recordsOf typRecords
  rw [List.filter_filter]

theorem StyleInv_snoc_other (fromUtf8 : List Nat → QString) (pre : List DirRecord)
    (r : DirRecord) (tf : Option QString) (ty : Option SubFile)
    (ht : r.type ≠ SubFileType.TYP) (hinv : StyleInv fromUtf8 pre tf ty) :
    StyleInv fromUtf8 (pre ++ [r]) tf ty := by
  obtain ⟨h1, h2⟩ := hinv
  unfold StyleInv styleChain
  rw [typRecords_snoc, if_neg ht, List.append_nil]
  refine ⟨h1, ?_⟩
  rw [h2]
  unfold styleChain
  cases typRecords pre with
  | nil => rfl
  | cons r0 l =>
    simp only
    rw [recordsOf_snoc, if_neg (fun h => ht h.2), List.append_nil]

theorem StyleInv_snoc_typ (fromUtf8 : List Nat → QString) (pre : List DirRecord)
    (r : DirRecord) (s s1 : Scan) (ht : r.type = SubFileType.TYP)
    (hinv : StyleInv fromUtf8 pre s.typFile s._typ)
    (happ : applyRecord fromUtf8 r s = some s1) :
    StyleInv fromUtf8 (pre ++ [r]) s1.typFile s1._typ ∧ s1.tileMap = s.tileMap := by
  obtain ⟨p, tm, tf, ty⟩ := s
  obtain ⟨h1, h2⟩ := hinv
  simp only at h1 h2
  have hnt : VectorTile.isTileFile SubFileType.TYP = false := by decide
  unfold applyRecord at happ
  simp only [ht, hnt, Bool.false_eq_true, if_false, if_true] at happ
  unfold StyleInv styleChain
  rw [typRecords_snoc, if_pos ht]
  unfold styleChain at h2
  cases htr : typRecords pre with
  | nil =>
    rw [htr] at h1 h2
    simp only [List.head?_nil, Option.map_none'] at h1
    subst h1
    simp only [Option.some.injEq] at happ
    subst happ
    have hrec : recordsOf fromUtf8 pre (r.fn fromUtf8) SubFileType.TYP = [] := by
      rw [recordsOf_typ, htr]; rfl
    have hmatch : r.fn fromUtf8 = r.fn fromUtf8 ∧ r.type = SubFileType.TYP := ⟨rfl, ht⟩
    simp only [List.nil_append, List.head?_cons, Option.map_some', recordsOf_snoc, hrec]
    simp [ht]
  | cons r0 l =>
    rw [htr] at h1 h2
    simp only [List.head?_cons, Option.map_some'] at h1 h2
    subst h1
    simp only [List.cons_append, List.head?_cons, Option.map_some', true_and]
    rw [recordsOf_snoc]
    by_cases hf : r.fn fromUtf8 = r0.fn fromUtf8
    · simp only [hf, if_true] at happ
      have hmatch : r.fn fromUtf8 = r0.fn fromUtf8 ∧ r.type = SubFileType.TYP := ⟨hf, ht⟩
      rw [if_pos hmatch]
      cases ty with
      | none => simp at h2
      | some typ =>
        simp only [Option.some.injEq] at happ
        subst happ
        simp only [Option.map_some', Option.some.injEq] at h2
        simp only [Option.map_some', h2, List.flatMap_append, List.flatMap_cons, List.flatMap_nil,
          List.append_nil, and_self]
    · simp only [hf, if_false, Option.some.injEq] at happ
      subst happ
      rw [if_neg (fun h => hf h.1), List.append_nil]
      exact ⟨⟨rfl, h2⟩, rfl⟩

/-- One record that is applied keeps both invariants. -/
theorem applyRecord_inv (fromUtf8 : List Nat → QString) (pre : List DirRecord)
    (r : DirRecord) (s s1 : Scan) (hT : TileInv fromUtf8 pre s.tileMap)
    (hS : StyleInv fromUtf8 pre s.typFile s._typ) (happ : applyRecord fromUtf8 r s = some s1) :
    TileInv fromUtf8 (pre ++ [r]) s1.tileMap
    ∧ StyleInv fromUtf8 (pre ++ [r]) s1.typFile s1._typ := by
  by_cases ht : VectorTile.isTileFile r.type = true
  · have hny : r.type ≠ SubFileType.TYP := by
      intro h; rw [h] at ht; simp [VectorTile.isTileFile] at ht
    obtain ⟨h1, h2, h3⟩ := TileInv_snoc_tile fromUtf8 pre r s s1 ht hT happ
    rw [h2, h3]
    exact ⟨h1, StyleInv_snoc_other fromUtf8 pre r _ _ hny hS⟩
  · by_cases hy : r.type = SubFileType.TYP
    · obtain ⟨h1, h2⟩ := StyleInv_snoc_typ fromUtf8 pre r s s1 hy hS happ
      rw [h2]
      exact ⟨TileInv_snoc_other fromUtf8 pre r _ ht hT, h1⟩
    · unfold applyRecord at happ
      simp only [ht, Bool.false_eq_true, if_false, hy, Option.some.injEq] at happ
      subst happ
      exact ⟨TileInv_snoc_other fromUtf8 pre r _ ht hT,
        StyleInv_snoc_other fromUtf8 pre r _ _ hy hS⟩

theorem applyDirectory_inv (fromUtf8 : List Nat → QString) (rs : List DirRecord) :
    ∀ (pre : List DirRecord) (s s1 : Scan), TileInv fromUtf8 pre s.tileMap →
      StyleInv fromUtf8 pre s.typFile s._typ → applyDirectory fromUtf8 rs s = some s1 →
      TileInv fromUtf8 (pre ++ rs) s1.tileMap
      ∧ StyleInv fromUtf8 (pre ++ rs) s1.typFile s1._typ := by
  induction rs with
  | nil =>
    intro pre s s1 hT hS happ
    simp only [applyDirectory, Option.some.injEq] at happ
    subst happ
    rw [List.append_nil]
    exact ⟨hT, hS⟩
  | cons r rs ih =>
    intro pre s s1 hT hS happ
    rw [applyDirectory] at happ
    cases h : applyRecord fromUtf8 r s with
    | none => rw [h] at happ; simp at happ
    | some s2 =>
      rw [h, Option.some_bind] at happ
      obtain ⟨hT2, hS2⟩ := applyRecord_inv fromUtf8 pre r s s2 hT hS h
      have := ih (pre ++ [r]) s2 s1 hT2 hS2 happ
      rw [List.append_assoc, List.singleton_append] at this
      exact this

theorem TileInv_nil (fromUtf8 : List Nat → QString) : TileInv fromUtf8 [] [] := by
  refine ⟨List.nodup_nil, ?_, ?_, ?_⟩
  · intro fn; simp
  · intro fn tt _; simp [TileMap.find, chainOf, recordsOf]
  · intro fn tt _ r h; simp [recordsOf] at h

theorem StyleInv_nil (fromUtf8 : List Nat → QString) : StyleInv fromUtf8 [] none none := by
  simp [StyleInv, styleChain, typRecords]

/-- A directory scan that fails no `CHECK` is the record loop over the scanned
directory. -/
theorem readFAT_of_ok (fromUtf8 : List Nat → QString) (key : Nat) (file : List Nat) (pos : Nat)
    (hok : (readFAT fromUtf8 key file pos).1 = true) :
    readFAT fromUtf8 key file pos
      = fatLoop fromUtf8 key file
          (fatCount (le32At key file ((skipUnused key file 0x200 pos).2.1 + 12))
            ((skipUnused key file 0x200 pos).2.1 + 512)).toNat
          ((skipUnused key file 0x200 pos).2.1 + 512)
          { pos := (skipUnused key file 0x200 pos).2.1 + 16, tileMap := [], typFile := none,
            _typ := none } := by
  have hs : ∀ p, QFile.seek p (((skipUnused key file 0x200 pos).2.1 : Int) + 12)
      = (true, (skipUnused key file 0x200 pos).2.1 + 12) := fun p =>
    QFile.seek_nat_add p _ 12
  unfold readFAT at hok ⊢
  simp only [hs] at hok ⊢
  by_cases h1 : (skipUnused key file 0x200 pos).1 = true
  · simp only [h1, Bool.not_true, Bool.false_eq_true, if_false] at hok ⊢
    rw [IMG.readValue_eq] at hok ⊢
    by_cases h2 : 4 ≤ file.length - ((skipUnused key file 0x200 pos).2.1 + 12)
    · simp only [h2, if_true, Bool.not_true, Bool.false_eq_true, if_false, le32At]
    · simp [h2] at hok
  · simp only [Bool.not_eq_true] at h1
    simp [h1] at hok

/-- The tile map and the styling sub-file of a directory scan that fails no
`CHECK` are those the scanned records build. -/
theorem readFAT_inv (fromUtf8 : List Nat → QString) (key : Nat) (file : List Nat) (pos : Nat)
    (hok : (readFAT fromUtf8 key file pos).1 = true) :
    TileInv fromUtf8 (scannedDirectory key file pos) (readFAT fromUtf8 key file pos).2.tileMap
    ∧ StyleInv fromUtf8 (scannedDirectory key file pos) (readFAT fromUtf8 key file pos).2.typFile
        (readFAT fromUtf8 key file pos).2._typ := by
  have heq := readFAT_of_ok fromUtf8 key file pos hok
  rw [heq] at hok ⊢
  have happ := fatLoop_applyDirectory fromUtf8 key file _ _ _ hok
  have := applyDirectory_inv fromUtf8 _ [] _ _ (TileInv_nil fromUtf8) (StyleInv_nil fromUtf8) happ
  simpa [scannedDirectory] using this

/-! ## C5: tile assembly -/

/-- C5, as the claim states it, fails: the directory of `exTileNames` scans
without failure and holds two tile-family records (type TRE, part 0) with the
distinct 8-byte names "A\0BBBBBB" and "A\0CCCCCC" and the block lists `[1, 2]`
and `[3]`; the tile map holds one tile, filed under "A", whose TRE chain is
`[1, 2, 3]`, not one tile per 8-byte name with the chains `[1, 2]` and `[3]`.
The decoder is the identity, which is what UTF-8 decoding is on the ASCII
character "A". -/
theorem tile_per_name_counterexample :
    (openScan id exIndeterminate exTileNames).1 = true
    ∧ scannedDirectory 0 exTileNames 0x84
        = [{ name := [0x41, 0, 0x42, 0x42, 0x42, 0x42, 0x42, 0x42], type := SubFileType.TRE,
             part := 0, blocks := [1, 2] },
           { name := [0x41, 0, 0x43, 0x43, 0x43, 0x43, 0x43, 0x43], type := SubFileType.TRE,
             part := 0, blocks := [3] }]
    ∧ (openScan id exIndeterminate exTileNames).2.tileMap
        = [([0x41], { _tre := some { _blocks := [1, 2, 3] }, _rgn := none, _lbl := none,
                      _net := none, _gmp := none })] := by
  set_option maxRecDepth 1000000 in decide

/-- C5, amended.  After a directory scan that completes without failure the
tile map holds exactly one tile per distinct name under which a tile-family
record (TRE, RGN, LBL, NET, GMP) is filed, the name being the string made of
the record's 8 name bytes, which ends at the first zero byte; for every such
name and every tile-family type the sub-file of that type in the tile exists
exactly when a record with that name and type occurs, and its block chain is
the concatenation, in directory order, of the block lists of all records with
that name and type; the first record of every name and type has part 0, so
that records with part > 0 only extend a chain that a record with part 0
started. -/
theorem tile_assembly (fromUtf8 : List Nat → QString) (key : Nat) (file : List Nat) (pos : Nat)
    (hok : (readFAT fromUtf8 key file pos).1 = true) :
    ((readFAT fromUtf8 key file pos).2.tileMap.map Prod.fst).Nodup
    ∧ (∀ fn, fn ∈ (readFAT fromUtf8 key file pos).2.tileMap.map Prod.fst
        ↔ ∃ r ∈ scannedDirectory key file pos,
            VectorTile.isTileFile r.type = true ∧ r.fn fromUtf8 = fn)
    ∧ (∀ r : DirRecord, r.fn fromUtf8 = fromUtf8 (r.name.takeWhile (· ≠ 0)))
    ∧ (∀ fn tt, VectorTile.isTileFile tt = true →
        ((TileMap.find (readFAT fromUtf8 key file pos).2.tileMap fn).bind
            (fun tile => tile.file tt)).map (·._blocks)
          = chainOf fromUtf8 (scannedDirectory key file pos) fn tt)
    ∧ (∀ fn tt, chainOf fromUtf8 (scannedDirectory key file pos) fn tt
        = if (scannedDirectory key file pos).filter
              (fun r => decide (r.fn fromUtf8 = fn) && decide (r.type = tt)) = [] then none
          else some (((scannedDirectory key file pos).filter
              (fun r => decide (r.fn fromUtf8 = fn) && decide (r.type = tt))).flatMap (·.blocks)))
    ∧ (∀ fn tt, VectorTile.isTileFile tt = true →
        ∀ r, ((scannedDirectory key file pos).filter
              (fun r => decide (r.fn fromUtf8 = fn) && decide (r.type = tt))).head? = some r →
          r.part = 0) := by
  obtain ⟨h1, h2, h3, h4⟩ := (readFAT_inv fromUtf8 key file pos hok).1
  refine ⟨h1, h2, fun r => rfl, h3, ?_, h4⟩
  intro fn tt
  unfold chainOf recordsOf
  cases (scannedDirectory key file pos).filter
      (fun r => decide (r.fn fromUtf8 = fn) && decide (r.type = tt)) with
  | nil => rfl
  | cons a l => rfl

/-- Witness of C5 amended: the directory of `exTileNames`. -/
theorem tile_assembly_witness :
    (readFAT id 0 exTileNames 0x84).1 = true
    ∧ ((readFAT id 0 exTileNames 0x84).2.tileMap.map Prod.fst).Nodup :=
  have h : (readFAT id 0 exTileNames 0x84).1 = true := by
    set_option maxRecDepth 1000000 in decide
  ⟨h, (tile_assembly id 0 exTileNames 0x84 h).1⟩

/-- The styling sub-file of a container whose header is accepted is the one the
directory scan leaves behind, whatever the outcome of the scan. -/
theorem IMG.open_typ (fromUtf8 : List Nat → QString) (init : VectorTile → Bool)
    (u : Indeterminate) (file : List Nat) (hh : headerOk u file = true) :
    (IMG.open fromUtf8 init u (Except.ok file))._typ = (openScan fromUtf8 u file).2._typ := by
  have hsig : signatureOk u file = true := by
    unfold headerOk at hh
    simp only [Bool.and_eq_true] at hh
    exact hh.1
  rw [IMG.open_ok]
  simp only [hsig, hh, Bool.true_eq_false, if_false]
  split_ifs <;> rfl

/-! ## C6: the single styling sub-file -/

/-- C6, as the claim states it, fails: the directory of `exStyleNames` scans
without failure and holds two styling records with the distinct 8-byte names
"A\0BBBBBB" and "A\0CCCCCC" and the block lists `[1, 2]` and `[3]`; the styling
sub-file ends with the chain `[1, 2, 3]`, so the second record, whose 8-byte
name is not that of the first, contributes its block.  The decoder is the
identity, which is what UTF-8 decoding is on the ASCII character "A". -/
theorem single_style_counterexample :
    (openScan id exIndeterminate exStyleNames).1 = true
    ∧ scannedDirectory 0 exStyleNames 0x84
        = [{ name := [0x41, 0, 0x42, 0x42, 0x42, 0x42, 0x42, 0x42], type := SubFileType.TYP,
             part := 0, blocks := [1, 2] },
           { name := [0x41, 0, 0x43, 0x43, 0x43, 0x43, 0x43, 0x43], type := SubFileType.TYP,
             part := 0, blocks := [3] }]
    ∧ (openScan id exIndeterminate exStyleNames).2._typ = some { _blocks := [1, 2, 3] }
    ∧ (IMG.open id (fun _ => true) exIndeterminate (Except.ok exStyleNames))._typ
        = some { _blocks := [1, 2, 3] } := by
  set_option maxRecDepth 1000000 in decide

/-- C6, amended.  After a directory scan that completes without failure the
styling sub-file exists exactly when a record of type TYP occurs, and its block
chain is the concatenation, in directory order, of the block lists of exactly
those TYP records that are filed under the name of the first TYP record, the
name being the string made of the record's 8 name bytes, which ends at the
first zero byte; TYP records filed under another name contribute nothing.  The
sub-file the scan leaves behind is the member `_typ` of the container when the
scan is the one the constructor runs behind an accepted header. -/
theorem single_style (fromUtf8 : List Nat → QString) (key : Nat) (file : List Nat) (pos : Nat)
    (hok : (readFAT fromUtf8 key file pos).1 = true) :
    ((readFAT fromUtf8 key file pos).2._typ.isSome = true
      ↔ ∃ r ∈ scannedDirectory key file pos, r.type = SubFileType.TYP)
    ∧ (∀ r : DirRecord, r.fn fromUtf8 = fromUtf8 (r.name.takeWhile (· ≠ 0)))
    ∧ (∀ r0, ((scannedDirectory key file pos).filter
          (fun r => decide (r.type = SubFileType.TYP))).head? = some r0 →
        (readFAT fromUtf8 key file pos).2.typFile = some (r0.fn fromUtf8)
        ∧ (readFAT fromUtf8 key file pos).2._typ.map (·._blocks)
          = some (((scannedDirectory key file pos).filter
              (fun r => decide (r.fn fromUtf8 = r0.fn fromUtf8)
                && decide (r.type = SubFileType.TYP))).flatMap (·.blocks)))
    ∧ (∀ (init : VectorTile → Bool) (u : Indeterminate), headerOk u file = true →
        key = (readSignature u file).1 →
        pos = (readDescription u (readSignature u file).1 file
                (readSignature u file).2.2.2).2.2.2.2.2 →
        (IMG.open fromUtf8 init u (Except.ok file))._typ
          = (readFAT fromUtf8 key file pos).2._typ) := by
  obtain ⟨h1, h2⟩ := (readFAT_inv fromUtf8 key file pos hok).2
  unfold styleChain typRecords at h2
  unfold typRecords at h1
  refine ⟨?_, fun r => rfl, ?_, ?_⟩
  rotate_left 2
  · intro init u hh hk hp
    subst hk hp
    exact IMG.open_typ fromUtf8 init u file hh
  · cases hty : (readFAT fromUtf8 key file pos).2._typ with
    | none =>
      rw [hty] at h2
      simp only [Option.isSome_none, Bool.false_eq_true, false_iff, not_exists, not_and]
      intro r hr ht
      have hmem : r ∈ (scannedDirectory key file pos).filter
          (fun r => decide (r.type = SubFileType.TYP)) :=
        List.mem_filter.mpr ⟨hr, by simp [ht]⟩
      cases hf : (scannedDirectory key file pos).filter
          (fun r => decide (r.type = SubFileType.TYP)) with
      | nil => rw [hf] at hmem; simp at hmem
      | cons a l => rw [hf] at h2; simp at h2
    | some typ =>
      rw [hty] at h2
      simp only [Option.isSome_some, true_iff]
      cases hf : (scannedDirectory key file pos).filter
          (fun r => decide (r.type = SubFileType.TYP)) with
      | nil => rw [hf] at h2; simp at h2
      | cons a l =>
        have hmem : a ∈ (scannedDirectory key file pos).filter
            (fun r => decide (r.type = SubFileType.TYP)) := by rw [hf]; simp
        rw [List.mem_filter] at hmem
        exact ⟨a, hmem.1, by simpa using hmem.2⟩
  · intro r0 hr0
    cases hf : (scannedDirectory key file pos).filter
        (fun r => decide (r.type = SubFileType.TYP)) with
    | nil => rw [hf] at hr0; simp at hr0
    | cons a l =>
      rw [hf] at hr0 h1 h2
      simp only [List.head?_cons, Option.some.injEq] at hr0
      subst hr0
      exact ⟨h1, h2⟩

/-- Witness of C6 amended: the directory of `exStyleNames`. -/
theorem single_style_witness :
    (readFAT id 0 exStyleNames 0x84).1 = true
    ∧ ((readFAT id 0 exStyleNames 0x84).2._typ.isSome = true
        ↔ ∃ r ∈ scannedDirectory 0 exStyleNames 0x84, r.type = SubFileType.TYP) :=
  have h : (readFAT id 0 exStyleNames 0x84).1 = true := by
    set_option maxRecDepth 1000000 in decide
  ⟨h, (single_style id 0 exStyleNames 0x84 h).1⟩

/-! ## C11: a continuation record without a first part -/

theorem directory_length (key : Nat) (file : List Nat) (o n : Nat) :
    (directory key file o n).length = n := by
  simp [directory]

theorem directory_getElem? (key : Nat) (file : List Nat) (o n j : Nat) (h : j < n) :
    (directory key file o n)[j]? = some (recordAt key file (o + 512 * j)) := by
  unfold directory
  rw [List.getElem?_map, List.getElem?_range h]
  rfl

theorem directory_mem (key : Nat) (file : List Nat) (o n : Nat) (r : DirRecord)
    (h : r ∈ directory key file o n) : ∃ j, j < n ∧ r = recordAt key file (o + 512 * j) := by
  unfold directory at h
  rw [List.mem_map] at h
  obtain ⟨j, hj, rfl⟩ := h
  exact ⟨j, List.mem_range.mp hj, rfl⟩

/-- The record loop over `i + k` records is the loop over the first `i` and,
when that fails no `CHECK`, the loop over the next `k`. -/
theorem fatLoop_add (fromUtf8 : List Nat → QString) (key : Nat) (file : List Nat) (k : Nat) :
    ∀ (i o : Nat) (s : Scan),
      fatLoop fromUtf8 key file (i + k) o s
        = if !(fatLoop fromUtf8 key file i o s).1 then fatLoop fromUtf8 key file i o s
          else fatLoop fromUtf8 key file k (o + 512 * i) (fatLoop fromUtf8 key file i o s).2 := by
  intro i
  induction i with
  | zero => intro o s; simp [fatLoop]
  | succ i ih =>
    intro o s
    rw [show i + 1 + k = (i + k) + 1 by omega, fatLoop, fatLoop]
    by_cases h : (processRecord fromUtf8 key file o s).1 = true
    · simp only [h, Bool.not_true, Bool.false_eq_true, if_false]
      rw [ih]
      rw [show o + 512 + 512 * i = o + 512 * (i + 1) by omega]
    · simp only [Bool.not_eq_true] at h
      simp [h]

/-- Under the invariant of the tile map a name and type that no record of
part 0 carries has no sub-file. -/
theorem TileInv_no_file (fromUtf8 : List Nat → QString) (pre : List DirRecord) (m : TileMap)
    (fn : QString) (tt : SubFileType) (ht : VectorTile.isTileFile tt = true)
    (hinv : TileInv fromUtf8 pre m)
    (hnew : ∀ r ∈ pre, ¬ (r.fn fromUtf8 = fn ∧ r.type = tt ∧ r.part = 0)) :
    (TileMap.find m fn).bind (fun tile => tile.file tt) = none := by
  obtain ⟨_, _, h3, h4⟩ := hinv
  have hrec : recordsOf fromUtf8 pre fn tt = [] := by
    cases hr : recordsOf fromUtf8 pre fn tt with
    | nil => rfl
    | cons a l =>
      exfalso
      have hp := h4 fn tt ht a (by rw [hr]; rfl)
      have hmem : a ∈ recordsOf fromUtf8 pre fn tt := by rw [hr]; simp
      unfold recordsOf at hmem
      rw [List.mem_filter] at hmem
      have := hmem.2
      simp only [Bool.and_eq_true, decide_eq_true_eq] at this
      exact hnew a hmem.1 ⟨this.1, this.2, hp⟩
  have h := h3 fn tt ht
  rw [(chainOf_eq_none_iff fromUtf8 pre fn tt).mpr hrec] at h
  cases hb : (TileMap.find m fn).bind (fun tile => tile.file tt) with
  | none => rfl
  | some f => rw [hb] at h; simp at h

/-- A tile-family record of a part other than 0 that finds no sub-file of its
type under its name fails `CHECK(file)`: the pass ends in failure, and no
sub-file of the tile map and nothing of the styling sub-file has changed. -/
theorem processRecord_orphan (fromUtf8 : List Nat → QString) (key : Nat) (file : List Nat)
    (o : Nat) (s : Scan)
    (ht : VectorTile.isTileFile (recordAt key file o).type = true)
    (hp : (recordAt key file o).part ≠ 0)
    (hnone : (TileMap.find s.tileMap ((recordAt key file o).fn fromUtf8)).bind
      (fun tile => tile.file (recordAt key file o).type) = none) :
    (processRecord fromUtf8 key file o s).1 = false
    ∧ (∀ fn tt, (TileMap.find (processRecord fromUtf8 key file o s).2.tileMap fn).bind
          (fun tile => tile.file tt)
        = (TileMap.find s.tileMap fn).bind (fun tile => tile.file tt))
    ∧ (processRecord fromUtf8 key file o s).2.typFile = s.typFile
    ∧ (processRecord fromUtf8 key file o s).2._typ = s._typ := by
  rw [processRecord_eq]
  by_cases hl : o + 18 ≤ file.length
  · rw [if_pos hl]
    have hname : (decrypted key file (o + 1) 8).take 8 = (recordAt key file o).name :=
      decrypted_take_self key file (o + 1) 8
    have hfn : QString.ofByteArray fromUtf8 ((decrypted key file (o + 1) 8).take 8)
        = (recordAt key file o).fn fromUtf8 := by rw [hname]; rfl
    have htt : tileType (decrypted key file (o + 9) 3) = (recordAt key file o).type := rfl
    have hpart : qFromLittleEndian (decrypted key file (o + 16) 2) = (recordAt key file o).part :=
      rfl
    generalize (recordAt key file o).fn fromUtf8 = fn at hfn hnone
    generalize (recordAt key file o).type = tt at htt ht hnone
    generalize (recordAt key file o).part = part at hpart hp
    unfold recordBody
    simp only [hfn, htt, hpart, ht, if_true, hp, ne_eq, not_false_eq_true]
    rw [TileMap.getD_file, hnone]
    refine ⟨rfl, ?_, rfl, rfl⟩
    intro fn' tt'
    simp only
    by_cases hfe : fn' = fn
    · subst hfe
      rw [TileMap.find_insert_self]
      cases hf : TileMap.find s.tileMap fn' with
      | none => simp [VectorTile.file_new]
      | some t => simp
    · rw [TileMap.find_insert_ne _ _ _ _ hfe]
      cases hf : TileMap.find s.tileMap fn with
      | none => simp [TileMap.find_insert_ne _ _ _ _ hfe]
      | some t => simp
  · rw [if_neg hl]
    exact ⟨rfl, fun _ _ => rfl, rfl, rfl⟩

/-- C11, as the claim states it, fails: the directory of `exOrphanNames` holds
a record of part 0 with the 8-byte name "A\0BBBBBB" and behind it a record of
part 1 with the 8-byte name "A\0CCCCCC", which no record before it carries,
both of type TRE.  The scan fails no `CHECK`, the block number 3 of the second
record is appended to the TRE chain of the tile filed under "A", and the
container is valid when the tile passes `init`.  The decoder is the identity,
which is what UTF-8 decoding is on the ASCII character "A". -/
theorem orphan_by_name_counterexample :
    (openScan id exIndeterminate exOrphanNames).1 = true
    ∧ scannedDirectory 0 exOrphanNames 0x84
        = [{ name := [0x41, 0, 0x42, 0x42, 0x42, 0x42, 0x42, 0x42], type := SubFileType.TRE,
             part := 0, blocks := [1, 2] },
           { name := [0x41, 0, 0x43, 0x43, 0x43, 0x43, 0x43, 0x43], type := SubFileType.TRE,
             part := 1, blocks := [3] }]
    ∧ (openScan id exIndeterminate exOrphanNames).2.tileMap
        = [([0x41], { _tre := some { _blocks := [1, 2, 3] }, _rgn := none, _lbl := none,
                      _net := none, _gmp := none })]
    ∧ (IMG.open id (fun _ => true) exIndeterminate (Except.ok exOrphanNames))._valid = true := by
  set_option maxRecDepth 1000000 in decide

/-- C11, amended.  When the scanned directory holds at index `i` a tile-family
record of a part other than 0 and no record before it is filed under the same
name string (the string made of the 8 name bytes, which ends at the first zero
byte) with the same type and part 0, then the scan ends in failure; in the
state in which the record is reached its pass fails `CHECK(file)` without
touching a null sub-file, and behind it every sub-file of every tile, the
styling name and the styling sub-file are what they were: no sub-file is
created and no block number is appended.  The open is aborted with
"Unsupported or invalid IMG file" and holds no tile. -/
theorem orphan_record (fromUtf8 : List Nat → QString) (key : Nat) (file : List Nat)
    (pos i : Nat) (r : DirRecord)
    (hr : (scannedDirectory key file pos)[i]? = some r)
    (ht : VectorTile.isTileFile r.type = true) (hp : r.part ≠ 0)
    (hnew : ∀ j r', j < i → (scannedDirectory key file pos)[j]? = some r' →
      ¬ (r'.fn fromUtf8 = r.fn fromUtf8 ∧ r'.type = r.type ∧ r'.part = 0)) :
    (readFAT fromUtf8 key file pos).1 = false
    ∧ (∀ (p : Nat) (s : Scan),
        fatLoop fromUtf8 key file i ((skipUnused key file 0x200 pos).2.1 + 512)
            { pos := p, tileMap := [], typFile := none, _typ := none } = (true, s) →
        (processRecord fromUtf8 key file
            ((skipUnused key file 0x200 pos).2.1 + 512 + 512 * i) s).1 = false
        ∧ (∀ fn tt, (TileMap.find (processRecord fromUtf8 key file
                ((skipUnused key file 0x200 pos).2.1 + 512 + 512 * i) s).2.tileMap fn).bind
              (fun tile => tile.file tt)
            = (TileMap.find s.tileMap fn).bind (fun tile => tile.file tt))
        ∧ (processRecord fromUtf8 key file
            ((skipUnused key file 0x200 pos).2.1 + 512 + 512 * i) s).2.typFile = s.typFile
        ∧ (processRecord fromUtf8 key file
            ((skipUnused key file 0x200 pos).2.1 + 512 + 512 * i) s).2._typ = s._typ)
    ∧ (∀ (init : VectorTile → Bool) (u : Indeterminate), headerOk u file = true →
        key = (readSignature u file).1 →
        pos = (readDescription u (readSignature u file).1 file
                (readSignature u file).2.2.2).2.2.2.2.2 →
        (IMG.open fromUtf8 init u (Except.ok file))._valid = false
        ∧ (IMG.open fromUtf8 init u (Except.ok file))._errorString
            = "Unsupported or invalid IMG file"
        ∧ (IMG.open fromUtf8 init u (Except.ok file))._tileTree = []) := by
  -- the record and those before it, by offset
  generalize hb : (skipUnused key file 0x200 pos).2.1 = b at *
  have hdir : scannedDirectory key file pos
      = directory key file (b + 512) (fatCount (le32At key file (b + 12)) (b + 512)).toNat := by
    unfold scannedDirectory
    simp only [hb]
  generalize hn : (fatCount (le32At key file (b + 12)) (b + 512)).toNat = n at hdir
  rw [hdir] at hr hnew
  have hi : i < n := by
    have := (List.getElem?_eq_some.mp hr).1
    rwa [directory_length] at this
  rw [directory_getElem? _ _ _ _ _ hi, Option.some.injEq] at hr
  -- the pass of the record
  have hrec : ∀ (p : Nat) (s : Scan),
      fatLoop fromUtf8 key file i (b + 512)
          { pos := p, tileMap := [], typFile := none, _typ := none } = (true, s) →
      (processRecord fromUtf8 key file (b + 512 + 512 * i) s).1 = false
      ∧ (∀ fn tt, (TileMap.find (processRecord fromUtf8 key file
              (b + 512 + 512 * i) s).2.tileMap fn).bind (fun tile => tile.file tt)
          = (TileMap.find s.tileMap fn).bind (fun tile => tile.file tt))
      ∧ (processRecord fromUtf8 key file (b + 512 + 512 * i) s).2.typFile = s.typFile
      ∧ (processRecord fromUtf8 key file (b + 512 + 512 * i) s).2._typ = s._typ := by
    intro p s hloop
    have happ := fatLoop_applyDirectory fromUtf8 key file i (b + 512)
      { pos := p, tileMap := [], typFile := none, _typ := none } (by rw [hloop])
    rw [hloop] at happ
    have hinv := (applyDirectory_inv fromUtf8 _ [] _ _ (TileInv_nil fromUtf8)
      (StyleInv_nil fromUtf8) happ).1
    simp only [List.nil_append] at hinv
    have hnone := TileInv_no_file fromUtf8 _ _ (r.fn fromUtf8) r.type ht hinv (by
      intro r' hr'
      obtain ⟨j, hj, rfl⟩ := directory_mem key file _ _ _ hr'
      exact hnew j _ hj (directory_getElem? _ _ _ _ _ (by omega)))
    subst hr
    exact processRecord_orphan fromUtf8 key file _ s ht hp hnone
  -- the scan
  have hscan : (readFAT fromUtf8 key file pos).1 = false := by
    by_cases hok : (readFAT fromUtf8 key file pos).1 = true
    · have heq := readFAT_of_ok fromUtf8 key file pos hok
      rw [hb, hn] at heq
      rw [heq] at hok ⊢
      obtain ⟨k, rfl⟩ : ∃ k, n = i + (k + 1) := ⟨n - i - 1, by omega⟩
      rw [fatLoop_add] at hok ⊢
      by_cases hfirst : (fatLoop fromUtf8 key file i (b + 512)
          { pos := b + 16, tileMap := [], typFile := none, _typ := none }).1 = true
      · have h := (hrec (b + 16) _ (Prod.ext hfirst rfl)).1
        simp only [hfirst, Bool.not_true, Bool.false_eq_true, if_false] at hok ⊢
        rw [fatLoop] at hok ⊢
        simp [h] at hok
      · simp only [Bool.not_eq_true] at hfirst
        simp [hfirst] at hok
    · simpa using hok
  refine ⟨hscan, hrec, ?_⟩
  intro init u hh hk hp'
  subst hk hp'
  have hsig : signatureOk u file = true := by
    unfold headerOk at hh
    simp only [Bool.and_eq_true] at hh
    exact hh.1
  have hos : (openScan fromUtf8 u file).1 = false := hscan
  rw [IMG.open_ok]
  simp [hsig, hh, hos, unsupportedError]

/-- Witness of C11 amended: in `exOrphan` the record at index 1, of type TRE
and part 1, is filed under "00000002", the record before it under
"00000001". -/
theorem orphan_record_witness :
    (scannedDirectory 0 exOrphan 0x84)[1]?
        = some { name := ascii "00000002", type := SubFileType.TRE, part := 1, blocks := [3] }
    ∧ (readFAT id 0 exOrphan 0x84).1 = false :=
  have hdir : scannedDirectory 0 exOrphan 0x84
      = [{ name := ascii "00000001", type := SubFileType.TRE, part := 0, blocks := [1, 2] },
         { name := ascii "00000002", type := SubFileType.TRE, part := 1, blocks := [3] }] := by
    set_option maxRecDepth 1000000 in decide
  have hr : (scannedDirectory 0 exOrphan 0x84)[1]?
      = some { name := ascii "00000002", type := SubFileType.TRE, part := 1, blocks := [3] } := by
    rw [hdir]; rfl
  ⟨hr, (orphan_record id 0 exOrphan 0x84 1 _ hr (by decide) (by decide) (by
    intro j r' hj hr'
    obtain rfl : j = 0 := by omega
    rw [hdir] at hr'
    simp only [List.getElem?_cons_zero, Option.some.injEq] at hr'
    subst hr'
    decide)).1⟩

/-! ## C12: the block size -/

/-- The `CHECK` of the name fragments and the exponents on a file that reaches
behind offset `0x65`: it passes, also when the second fragment is cut short by
the end of the file. -/
theorem readDescription_eq (u : Indeterminate) (key : Nat) (file : List Nat) (pos : Nat)
    (hlen : 0x66 ≤ file.length) :
    readDescription u key file pos
      = (true, decrypted key file 0x49 20 ++ u.d1.drop 20, byteAt key file 0x61,
          byteAt key file 0x62,
          decrypted key file 0x65 31 ++ u.d2.drop (min 31 (file.length - 0x65)),
          0x65 + min 31 (file.length - 0x65)) := by
  have h1 : min 20 (file.length - 0x49) = 20 := by omega
  have hs1 : ∀ p, QFile.seek p 0x49 = (true, 0x49) := fun p => by simp [QFile.seek]
  have hs2 : ∀ p, QFile.seek p 0x61 = (true, 0x61) := fun p => by simp [QFile.seek]
  have hs3 : ∀ p, QFile.seek p 0x65 = (true, 0x65) := fun p => by simp [QFile.seek]
  have hm : 0 < min 31 (file.length - 0x65) := by omega
  have hmI : ((min 31 (file.length - 0x65) : Nat) : Int) ≠ 0 :=
    Nat.cast_ne_zero.mpr (Nat.pos_iff_ne_zero.mp hm)
  unfold readDescription
  simp only [hs1, hs2, hs3, fun key pos buf => IMG.read_lit key file pos buf 20 20 rfl,
    fun key pos buf => IMG.read_lit key file pos buf 31 31 rfl, h1,
    byteAt_readValue key file 0x61 0 (by omega), byteAt_readValue key file 0x62 0 (by omega),
    Bool.not_true, Bool.false_eq_true, if_false, decide_eq_true hmI]
  simp

/-- The `CHECK` of the name fragments and the exponents passes exactly on the
files that reach behind offset `0x65`. -/
theorem readDescription_ok_iff (u : Indeterminate) (key : Nat) (file : List Nat) (pos : Nat) :
    (readDescription u key file pos).1 = true ↔ 0x66 ≤ file.length := by
  constructor
  · intro h
    by_contra hc
    have hs1 : ∀ p, QFile.seek p 0x49 = (true, 0x49) := fun p => by simp [QFile.seek]
    have hs2 : ∀ p, QFile.seek p 0x61 = (true, 0x61) := fun p => by simp [QFile.seek]
    have hs3 : ∀ p, QFile.seek p 0x65 = (true, 0x65) := fun p => by simp [QFile.seek]
    unfold readDescription at h
    simp only [hs1, hs2, hs3, fun key pos buf => IMG.read_lit key file pos buf 20 20 rfl,
      fun key pos buf => IMG.read_lit key file pos buf 31 31 rfl] at h
    by_cases c1 : file.length ≤ 0x49
    · have hz : min 20 (file.length - 0x49) = 0 := by omega
      simp [hz] at h
    · have hz : ((min 20 (file.length - 0x49) : Nat) : Int) ≠ 0 :=
        Nat.cast_ne_zero.mpr (by omega)
      rw [if_neg hz] at h
      by_cases c2 : file.length ≤ 0x61
      · rw [readValue_one_fail key file 0x61 0 c2] at h
        simp at h
      · rw [byteAt_readValue key file 0x61 0 (by omega)] at h
        by_cases c3 : file.length ≤ 0x62
        · rw [readValue_one_fail key file (0x61 + 1) 0 c3] at h
          simp at h
        · rw [byteAt_readValue key file (0x61 + 1) 0 (by omega)] at h
          have hz2 : min 31 (file.length - 0x65) = 0 := by omega
          simp [hz2] at h
  · intro h
    rw [readDescription_eq u key file pos h]

theorem headerOk_length (u : Indeterminate) (file : List Nat) (hh : headerOk u file = true) :
    0x66 ≤ file.length := by
  unfold headerOk at hh
  simp only [Bool.and_eq_true] at hh
  exact (readDescription_ok_iff u _ file _).mp hh.2

theorem toInt32_of_lt (x : Int) (h0 : 0 ≤ x) (h1 : x < 2 ^ 31) : toInt32 x = x := by
  unfold toInt32
  have : x % 2 ^ 32 = x := Int.emod_eq_of_lt h0 (by omega)
  simp only [this, h1, if_true]

theorem blockSizeOf_small (e1 e2 : Nat) (h : e1 + e2 ≤ 30) :
    blockSizeOf e1 e2 = 2 ^ (e1 + e2) := by
  unfold blockSizeOf
  apply toInt32_of_lt
  · positivity
  · have : (2 : Int) ^ (e1 + e2) ≤ 2 ^ 30 := pow_le_pow_right₀ (by norm_num) h
    omega

/-- The block size the constructor stores behind an accepted header. -/
theorem IMG.open_blockSize (fromUtf8 : List Nat → QString) (init : VectorTile → Bool)
    (u : Indeterminate) (file : List Nat) (hh : headerOk u file = true) :
    (IMG.open fromUtf8 init u (Except.ok file))._blockSize
      = blockSizeOf (byteAt (file.getD 0 0) file 0x61) (byteAt (file.getD 0 0) file 0x62) := by
  have hlen := headerOk_length u file hh
  have hsig : signatureOk u file = true := by
    unfold headerOk at hh
    simp only [Bool.and_eq_true] at hh
    exact hh.1
  rw [IMG.open_ok]
  simp only [hsig, hh, Bool.true_eq_false, if_false]
  rw [readSignature_eq u file (by omega), readDescription_eq u _ file _ hlen]
  split_ifs <;> rfl

/-- C12, as the claim states it, fails: `exShift31` holds the exponent bytes 16
and 15, its header is accepted, and the block size stored is `-2147483648`,
which is what `1 << 31` is as an `int`, not the positive power of two
`2^31`. -/
theorem block_size_counterexample :
    headerOk exIndeterminate exShift31 = true
    ∧ byteAt 0 exShift31 0x61 = 16
    ∧ byteAt 0 exShift31 0x62 = 15
    ∧ (IMG.open id (fun _ => true) exIndeterminate (Except.ok exShift31))._blockSize
        = -2147483648
    ∧ (IMG.open id (fun _ => true) exIndeterminate (Except.ok exShift31))._blockSize
        ≠ 2 ^ (16 + 15)
    ∧ ¬ 0 < (IMG.open id (fun _ => true) exIndeterminate (Except.ok exShift31))._blockSize := by
  set_option maxRecDepth 1000000 in decide

/-- C12, amended.  For every file whose header is accepted and whose decrypted
exponent bytes at `0x61` and `0x62` add up to at most 30, the block size stored
is the positive power of two `2^(e1 + e2)`; each exponent is the stored byte
XORed with the key. -/
theorem block_size (fromUtf8 : List Nat → QString) (init : VectorTile → Bool)
    (u : Indeterminate) (file : List Nat) (hh : headerOk u file = true)
    (hsum : byteAt (file.getD 0 0) file 0x61 + byteAt (file.getD 0 0) file 0x62 ≤ 30) :
    (IMG.open fromUtf8 init u (Except.ok file))._blockSize
      = 2 ^ (byteAt (file.getD 0 0) file 0x61 + byteAt (file.getD 0 0) file 0x62)
    ∧ 0 < (IMG.open fromUtf8 init u (Except.ok file))._blockSize
    ∧ byteAt (file.getD 0 0) file 0x61 = file.getD 0x61 0 ^^^ file.getD 0 0
    ∧ byteAt (file.getD 0 0) file 0x62 = file.getD 0x62 0 ^^^ file.getD 0 0
    ∧ (IMG.open fromUtf8 init u (Except.ok file))._key = file.getD 0 0 := by
  have hlen := headerOk_length u file hh
  have hb := IMG.open_blockSize fromUtf8 init u file hh
  rw [blockSizeOf_small _ _ hsum] at hb
  refine ⟨hb, ?_, byteAt_eq _ _ _ (by omega), byteAt_eq _ _ _ (by omega), ?_⟩
  · rw [hb]; positivity
  · rw [IMG.open_ok, readSignature_eq u file (by omega)]
    split_ifs <;> rfl

/-- Witness of C12 amended: `exHeader`, with the exponents 9 and 0. -/
theorem block_size_witness :
    headerOk exIndeterminate exHeader = true
    ∧ byteAt (exHeader.getD 0 0) exHeader 0x61 + byteAt (exHeader.getD 0 0) exHeader 0x62 ≤ 30
    ∧ (IMG.open id (fun _ => true) exIndeterminate (Except.ok exHeader))._blockSize
      = 2 ^ (byteAt (exHeader.getD 0 0) exHeader 0x61 + byteAt (exHeader.getD 0 0) exHeader 0x62) :=
  have h1 : headerOk exIndeterminate exHeader = true := by
    set_option maxRecDepth 1000000 in decide
  have h2 : byteAt (exHeader.getD 0 0) exHeader 0x61
      + byteAt (exHeader.getD 0 0) exHeader 0x62 ≤ 30 := by
    set_option maxRecDepth 1000000 in decide
  ⟨h1, h2, (block_size id (fun _ => true) exIndeterminate exHeader h1 h2).1⟩

/-! ## C13: `IMG::readBlock` -/

theorem QByteArray.resize_length (data : List Nat) (n : Nat) (fresh : Nat → Nat) :
    (QByteArray.resize data (n : Int) fresh).length = n := by
  simp [QByteArray.resize]

/-- Closed form of `IMG::readBlock` for a block number and a block size that
are not negative. -/
theorem IMG.readBlock_eq (key : Nat) (file : List Nat) (pos n B : Nat) (data : List Nat)
    (fresh : Nat → Nat) :
    IMG.readBlock key (B : Int) file pos (n : Int) data fresh
      = (decide (B ≤ file.length - n * B),
          decrypted key file (n * B) B
            ++ (QByteArray.resize data (B : Int) fresh).drop (min B (file.length - n * B)),
          n * B + min B (file.length - n * B)) := by
  have hs : QFile.seek pos ((n : Int) * (B : Int)) = (true, n * B) := by
    have := QFile.seek_nat pos (n * B)
    rwa [Nat.cast_mul] at this
  unfold IMG.readBlock
  rw [hs]
  simp only [Bool.not_true, Bool.false_eq_true, if_false, IMG.read_eq]
  by_cases h : B ≤ file.length - n * B
  · have : ¬ (((min B (file.length - n * B) : Nat) : Int) < (B : Int)) := by
      rw [Nat.min_eq_left h]; omega
    simp [this, h]
  · have : (((min B (file.length - n * B) : Nat) : Int) < (B : Int)) := by
      rw [Nat.min_eq_right (by omega)]; omega
    simp [this, h]

/-- C13.  For a block number `n` and a block size `B > 0` within the range of
`int`, `readBlock` seeks the offset `n * B`, which as a 64-bit product does not
overflow, and succeeds exactly when the file holds `(n + 1) * B` bytes; then
`data` has exactly `B` bytes, byte `i` being the byte of the file at
`n * B + i` XORed with the key, which is the byte itself for the key 0.  It
fails exactly when the seek fails or the read delivers fewer than `B`
bytes. -/
theorem readBlock_contract (key : Nat) (file : List Nat) (pos n B : Nat) (data : List Nat)
    (fresh : Nat → Nat) (hB : 0 < B) (hn31 : n < 2 ^ 31) (hB31 : B < 2 ^ 31) :
    (n : Int) * (B : Int) < 2 ^ 63
    ∧ (IMG.readBlock key (B : Int) file pos (n : Int) data fresh).2.2
        = n * B + min B (file.length - n * B)
    ∧ ((IMG.readBlock key (B : Int) file pos (n : Int) data fresh).1 = true
        ↔ (n + 1) * B ≤ file.length)
    ∧ ((IMG.readBlock key (B : Int) file pos (n : Int) data fresh).1 = true →
        (IMG.readBlock key (B : Int) file pos (n : Int) data fresh).2.1.length = B
        ∧ (∀ i, i < B →
            (IMG.readBlock key (B : Int) file pos (n : Int) data fresh).2.1[i]?
              = some (file.getD (n * B + i) 0 ^^^ key))
        ∧ (key = 0 →
            (IMG.readBlock key (B : Int) file pos (n : Int) data fresh).2.1
              = (file.drop (n * B)).take B))
    ∧ ((IMG.readBlock key (B : Int) file pos (n : Int) data fresh).1 = false
        ↔ ((QFile.seek pos ((n : Int) * (B : Int))).1 = false
            ∨ (IMG.read key file (n * B) (QByteArray.resize data (B : Int) fresh) (B : Int)).1
                < (B : Int))) := by
  have hnB : n * B < 2 ^ 62 := by
    calc n * B < 2 ^ 31 * 2 ^ 31 := Nat.mul_lt_mul'' hn31 hB31
      _ = 2 ^ 62 := by norm_num
  have hs : QFile.seek pos ((n : Int) * (B : Int)) = (true, n * B) := by
    have := QFile.seek_nat pos (n * B)
    rwa [Nat.cast_mul] at this
  have hiff : B ≤ file.length - n * B ↔ (n + 1) * B ≤ file.length := by
    rw [Nat.add_mul, Nat.one_mul]
    omega
  rw [IMG.readBlock_eq]
  refine ⟨?_, rfl, ?_, ?_, ?_⟩
  · have : ((n * B : Nat) : Int) < 2 ^ 63 := by
      have h62 : (2 : Nat) ^ 62 < 2 ^ 63 := by norm_num
      exact_mod_cast Nat.lt_trans hnB h62
    rwa [Nat.cast_mul] at this
  · simp only [decide_eq_true_eq]
    exact hiff
  · intro h
    simp only [decide_eq_true_eq] at h
    have hfull : n * B + B ≤ file.length := by
      have := hiff.mp h
      rw [Nat.add_mul, Nat.one_mul] at this
      exact this
    have hmin : min B (file.length - n * B) = B := Nat.min_eq_left h
    have hdrop : (QByteArray.resize data (B : Int) fresh).drop B = [] := by
      apply List.drop_of_length_le
      rw [QByteArray.resize_length]
    simp only [hmin, hdrop, List.append_nil]
    refine ⟨decrypted_full key file _ _ hfull, ?_, ?_⟩
    · intro i hi
      rw [decrypted_getElem? key file _ _ i hi]
      have hlt : n * B + i < file.length := by omega
      rw [List.getElem?_eq_getElem hlt, List.getD_eq_getElem?_getD, List.getElem?_eq_getElem hlt]
      rfl
    · intro hk
      subst hk
      exact decrypted_key_zero file _ _
  · rw [hs, IMG.read_eq]
    simp only [decide_eq_false_iff_not, Bool.true_eq_false, false_or]
    constructor
    · intro h
      rw [Nat.min_eq_right (by omega)]
      omega
    · intro h hle
      rw [Nat.min_eq_left hle] at h
      omega

/-- Witness of C13: block 1 of a file of four bytes, block size 2, key `0x5A`. -/
theorem readBlock_contract_witness :
    0 < 2 ∧ 1 < 2 ^ 31 ∧ 2 < 2 ^ 31
    ∧ ((IMG.readBlock 0x5A ((2 : Nat) : Int) [1, 2, 3, 4] 0 ((1 : Nat) : Int) [] (fun _ => 0)).1
          = true
        ↔ (1 + 1) * 2 ≤ ([1, 2, 3, 4] : List Nat).length) :=
  ⟨by decide, by decide, by decide,
    (readBlock_contract 0x5A [1, 2, 3, 4] 0 1 2 [] (fun _ => 0) (by decide) (by decide)
      (by decide)).2.2.1⟩

/-! ## C14: the key is transparent -/

theorem obfuscated_length (k : Nat) (P : List Nat) : (obfuscated k P).length = P.length := by
  cases P with
  | nil => rfl
  | cons a rest => simp [obfuscated]

theorem obfuscated_map (k : Nat) (P : List Nat) (hP : P.head? = some 0) :
    (obfuscated k P).map (· ^^^ k) = P := by
  cases P with
  | nil => simp at hP
  | cons a rest =>
    simp only [List.head?_cons, Option.some.injEq] at hP
    subst hP
    simp only [obfuscated, List.map_cons, List.map_map, Nat.xor_self, List.cons.injEq, true_and]
    conv_rhs => rw [← List.map_id rest]
    apply List.map_congr_left
    intro x _
    simp [Nat.xor_assoc]

theorem decrypted_eq_map (key : Nat) (file : List Nat) (p n : Nat) :
    decrypted key file p n = ((file.map (· ^^^ key)).drop p).take n := by
  unfold decrypted
  rw [List.map_take, List.map_drop]

theorem decrypted_obfuscated (k : Nat) (P : List Nat) (hP : P.head? = some 0) (p n : Nat) :
    decrypted k (obfuscated k P) p n = decrypted 0 P p n := by
  rw [decrypted_eq_map, obfuscated_map k P hP, decrypted_key_zero]

theorem IMG.read_congr (k k' : Nat) (E P : List Nat) (hlen : E.length = P.length)
    (hdec : ∀ p n, decrypted k E p n = decrypted k' P p n) :
    IMG.read k E = IMG.read k' P := by
  funext pos buf m
  by_cases hm : m < 0
  · simp [IMG.read, QFile.read, hm, xorLoop]
  · obtain ⟨n, rfl⟩ := Int.eq_ofNat_of_zero_le (by omega : 0 ≤ m)
    rw [IMG.read_eq, IMG.read_eq, hlen, hdec]

theorem IMG.readValue_congr (k k' : Nat) (E P : List Nat) (hlen : E.length = P.length)
    (hdec : ∀ p n, decrypted k E p n = decrypted k' P p n) :
    IMG.readValue k E = IMG.readValue k' P := by
  funext pos size val
  unfold IMG.readValue
  rw [IMG.read_congr k k' E P hlen hdec]

theorem readBlocks_congr (k k' : Nat) (E P : List Nat) (hlen : E.length = P.length)
    (hdec : ∀ p n, decrypted k E p n = decrypted k' P p n) :
    readBlocks k E = readBlocks k' P := by
  funext n
  induction n with
  | zero => funext pos f; rfl
  | succ n ih =>
    funext pos f
    simp only [readBlocks, IMG.readValue_congr k k' E P hlen hdec, ih]

theorem recordBody_congr (fromUtf8 : List Nat → QString) (k k' : Nat) (E P : List Nat)
    (hlen : E.length = P.length) (hdec : ∀ p n, decrypted k E p n = decrypted k' P p n) :
    recordBody fromUtf8 k E = recordBody fromUtf8 k' P := by
  funext offset name type part s
  unfold recordBody
  rw [readBlocks_congr k k' E P hlen hdec]

theorem processRecord_congr (fromUtf8 : List Nat → QString) (k k' : Nat) (E P : List Nat)
    (hlen : E.length = P.length) (hdec : ∀ p n, decrypted k E p n = decrypted k' P p n) :
    processRecord fromUtf8 k E = processRecord fromUtf8 k' P := by
  funext offset s
  unfold processRecord
  rw [IMG.readValue_congr k k' E P hlen hdec, IMG.read_congr k k' E P hlen hdec,
    recordBody_congr fromUtf8 k k' E P hlen hdec]

theorem fatLoop_congr (fromUtf8 : List Nat → QString) (k k' : Nat) (E P : List Nat)
    (hlen : E.length = P.length) (hdec : ∀ p n, decrypted k E p n = decrypted k' P p n) :
    fatLoop fromUtf8 k E = fatLoop fromUtf8 k' P := by
  funext n
  induction n with
  | zero => funext o s; rfl
  | succ n ih =>
    funext o s
    simp only [fatLoop, processRecord_congr fromUtf8 k k' E P hlen hdec, ih]

theorem skipLoop_congr (k k' : Nat) (E P : List Nat) (hlen : E.length = P.length)
    (hdec : ∀ p n, decrypted k E p n = decrypted k' P p n) (fuel : List Nat) :
    ∀ (fuel' : List Nat) (offset pos : Nat), fuel.length = fuel'.length →
      skipLoop k E fuel offset pos = skipLoop k' P fuel' offset pos := by
  induction fuel with
  | nil =>
    intro fuel' offset pos h
    cases fuel' with
    | nil => rfl
    | cons a l => simp at h
  | cons x fuel ih =>
    intro fuel' offset pos h
    cases fuel' with
    | nil => simp at h
    | cons a l =>
      simp only [List.length_cons, Nat.add_right_cancel_iff] at h
      simp only [skipLoop, IMG.readValue_congr k k' E P hlen hdec]
      rw [ih l _ _ h]

theorem readFAT_congr (fromUtf8 : List Nat → QString) (k k' : Nat) (E P : List Nat)
    (hlen : E.length = P.length) (hdec : ∀ p n, decrypted k E p n = decrypted k' P p n) :
    readFAT fromUtf8 k E = readFAT fromUtf8 k' P := by
  funext pos
  have hskip : ∀ o p, skipUnused k E o p = skipUnused k' P o p := by
    intro o p
    unfold skipUnused
    rw [skipLoop_congr k k' E P hlen hdec (0 :: E) (0 :: P) o p (by simp [hlen])]
  unfold readFAT
  simp only [hskip, IMG.readValue_congr k k' E P hlen hdec,
    fatLoop_congr fromUtf8 k k' E P hlen hdec]

theorem readDescription_congr (u : Indeterminate) (k k' : Nat) (E P : List Nat)
    (hlen : E.length = P.length) (hdec : ∀ p n, decrypted k E p n = decrypted k' P p n) :
    readDescription u k E = readDescription u k' P := by
  funext pos
  unfold readDescription
  rw [IMG.readValue_congr k k' E P hlen hdec, IMG.read_congr k k' E P hlen hdec]

theorem IMG.readBlock_congr (k k' : Nat) (E P : List Nat) (hlen : E.length = P.length)
    (hdec : ∀ p n, decrypted k E p n = decrypted k' P p n) (B : Int) :
    IMG.readBlock k B E = IMG.readBlock k' B P := by
  funext pos n data fresh
  unfold IMG.readBlock
  rw [IMG.read_congr k k' E P hlen hdec]

/-- The header statement on the obfuscated container: the key read is `k`, the
two buffers and the position are those of the plain container. -/
theorem readSignature_obfuscated (u : Indeterminate) (k : Nat) (P : List Nat)
    (hP : P.head? = some 0) :
    readSignature u (obfuscated k P) = (k, (readSignature u P).2)
    ∧ (readSignature u P).1 = 0 := by
  have hlen := obfuscated_length k P
  have hpos : 0 < P.length := by
    cases P with
    | nil => simp at hP
    | cons a rest => simp
  have hE0 : (obfuscated k P).getD 0 0 = k := by
    cases P with
    | nil => simp at hP
    | cons a rest => simp [obfuscated]
  have hP0 : P.getD 0 0 = 0 := by
    cases P with
    | nil => simp at hP
    | cons a rest => simpa using hP
  have hread := IMG.read_congr k 0 (obfuscated k P) P hlen (decrypted_obfuscated k P hP)
  unfold readSignature
  simp only [QFile.read_key _ u._key hpos, QFile.read_key _ u._key (hlen ▸ hpos), hE0, hP0,
    List.headD_cons, hread]
  constructor
  · split_ifs <;> rfl
  · split_ifs <;> rfl

/-- The constructor on the obfuscated container ends as on the plain one, the
key apart. -/
theorem IMG.open_obfuscated (fromUtf8 : List Nat → QString) (init : VectorTile → Bool)
    (u : Indeterminate) (k : Nat) (P : List Nat) (hP : P.head? = some 0) :
    IMG.open fromUtf8 init u (Except.ok (obfuscated k P))
      = { IMG.open fromUtf8 init u (Except.ok P) with _key := k }
    ∧ (IMG.open fromUtf8 init u (Except.ok P))._key = 0
    ∧ openScan fromUtf8 u (obfuscated k P) = openScan fromUtf8 u P := by
  have hlen := obfuscated_length k P
  have hdec := decrypted_obfuscated k P hP
  obtain ⟨hsE, hsP⟩ := readSignature_obfuscated u k P hP
  have hsig : signatureOk u (obfuscated k P) = signatureOk u P := by
    unfold signatureOk
    rw [hsE]
  have hd : readDescription u (readSignature u (obfuscated k P)).1 (obfuscated k P)
        (readSignature u (obfuscated k P)).2.2.2
      = readDescription u (readSignature u P).1 P (readSignature u P).2.2.2 := by
    rw [hsE, hsP, readDescription_congr u k 0 _ P hlen hdec]
  have hhead : headerOk u (obfuscated k P) = headerOk u P := by
    unfold headerOk
    rw [hsig, hd]
  have hscan : openScan fromUtf8 u (obfuscated k P) = openScan fromUtf8 u P := by
    unfold openScan
    rw [hd]
    rw [hsE, hsP, readFAT_congr fromUtf8 k 0 _ P hlen hdec]
  refine ⟨?_, ?_, hscan⟩
  · rw [IMG.open_ok, IMG.open_ok, hsig, hhead, hscan, hd]
    simp only [hsE]
    split_ifs <;> rfl
  · rw [IMG.open_ok]
    simp only [hsP]
    split_ifs <;> rfl

/-- C14.  Let `P` be a plain container, with byte 0 equal to 0, and `E` the
container with the key `k` in byte 0 and every further byte of `P` XORed with
`k`.  Opening `E` and opening `P` end with the same validity flag, error
message, display name, block size, styling sub-file and tile tree; the
directory scans end with the same outcome, the same tile map (the names, the
typed sub-files and their block chains) and the same styling name; and
`readBlock` returns the same flag and the same bytes on both, for every block
number, block size and position.  Only the key stored differs: `k` and 0.
The parser `init` of a tile reads the file through `readBlock` only, so it is
the same function of the tile for both containers. -/
theorem decrypt_transparency (fromUtf8 : List Nat → QString) (init : VectorTile → Bool)
    (u : Indeterminate) (k : Nat) (P : List Nat) (hP : P.head? = some 0) :
    (obfuscated k P).length = P.length
    ∧ (obfuscated k P).head? = some k
    ∧ (∀ i, 1 ≤ i → i < P.length → (obfuscated k P).getD i 0 = P.getD i 0 ^^^ k)
    ∧ (IMG.open fromUtf8 init u (Except.ok (obfuscated k P)))._valid
        = (IMG.open fromUtf8 init u (Except.ok P))._valid
    ∧ (IMG.open fromUtf8 init u (Except.ok (obfuscated k P)))._errorString
        = (IMG.open fromUtf8 init u (Except.ok P))._errorString
    ∧ (IMG.open fromUtf8 init u (Except.ok (obfuscated k P)))._name
        = (IMG.open fromUtf8 init u (Except.ok P))._name
    ∧ (IMG.open fromUtf8 init u (Except.ok (obfuscated k P)))._blockSize
        = (IMG.open fromUtf8 init u (Except.ok P))._blockSize
    ∧ (IMG.open fromUtf8 init u (Except.ok (obfuscated k P)))._typ
        = (IMG.open fromUtf8 init u (Except.ok P))._typ
    ∧ (IMG.open fromUtf8 init u (Except.ok (obfuscated k P)))._tileTree
        = (IMG.open fromUtf8 init u (Except.ok P))._tileTree
    ∧ (IMG.open fromUtf8 init u (Except.ok (obfuscated k P)))._key = k
    ∧ (IMG.open fromUtf8 init u (Except.ok P))._key = 0
    ∧ (openScan fromUtf8 u (obfuscated k P)).1 = (openScan fromUtf8 u P).1
    ∧ (openScan fromUtf8 u (obfuscated k P)).2.tileMap = (openScan fromUtf8 u P).2.tileMap
    ∧ (openScan fromUtf8 u (obfuscated k P)).2.typFile = (openScan fromUtf8 u P).2.typFile
    ∧ (openScan fromUtf8 u (obfuscated k P)).2._typ = (openScan fromUtf8 u P).2._typ
    ∧ (∀ (B : Int) (pos : Nat) (n : Int) (data : List Nat) (fresh : Nat → Nat),
        IMG.readBlock k B (obfuscated k P) pos n data fresh
          = IMG.readBlock 0 B P pos n data fresh) := by
  obtain ⟨hopen, hkey, hscan⟩ := IMG.open_obfuscated fromUtf8 init u k P hP
  have hblock := IMG.readBlock_congr k 0 (obfuscated k P) P (obfuscated_length k P)
    (decrypted_obfuscated k P hP)
  refine ⟨obfuscated_length k P, ?_, ?_, ?_, ?_, ?_, ?_, ?_, ?_, ?_, hkey, ?_, ?_, ?_, ?_, ?_⟩
  · cases P with
    | nil => simp at hP
    | cons a rest => rfl
  · intro i hi hlt
    cases P with
    | nil => simp at hP
    | cons a rest =>
      obtain ⟨j, rfl⟩ : ∃ j, i = j + 1 := ⟨i - 1, by omega⟩
      simp only [List.length_cons, Nat.add_lt_add_iff_right] at hlt
      simp [obfuscated, List.getD_eq_getElem?_getD, List.getElem?_eq_getElem hlt]
  all_goals first
    | rw [hopen]
    | rw [hscan]
    | (intro B pos n data fresh; rw [hblock])

/-- Witness of C14: the plain container `exCount` and the key `0x5A`. -/
theorem decrypt_transparency_witness :
    exCount.head? = some 0
    ∧ (IMG.open id (fun _ => true) exIndeterminate (Except.ok (obfuscated 0x5A exCount)))._valid
        = (IMG.open id (fun _ => true) exIndeterminate (Except.ok exCount))._valid :=
  have h : exCount.head? = some 0 := by
    set_option maxRecDepth 1000000 in decide
  ⟨h, (decrypt_transparency id (fun _ => true) exIndeterminate 0x5A exCount h).2.2.2.1⟩

/-! ## C15: failing reads during the open -/

/-- C15, the constructor at the failing inputs.  On the empty file every read
of the header statement fails, and the two signature buffers, which no read
has written, are compared all the same: the open ends with the signature error
or gets past the signatures according to what the buffers happen to hold.  On
`exTruncated` the read of the second name fragment delivers 11 of its 31 bytes,
the `CHECK` of the header passes, and the display name is built from the bytes
the buffer happened to hold behind them. -/
theorem unchecked_header_reads :
    (QFile.read [] 0 [exTagged._key] 1).1 = 0
    ∧ (readSignature exTagged []).2.1 = exTagged.signature
    ∧ (readSignature exTagged []).2.2.1 = exTagged.identifier
    ∧ signatureOk exTagged [] = true
    ∧ (IMG.open id (fun _ => true) exTagged (Except.ok []))._errorString
        = "Unsupported or invalid IMG file"
    ∧ signatureOk exIndeterminate [] = false
    ∧ (IMG.open id (fun _ => true) exIndeterminate (Except.ok []))._errorString
        = "Not a Garmin IMG file"
    ∧ (IMG.read 0 exTruncated 0x65 exLettered.d2 31).1 = 11
    ∧ headerOk exLettered exTruncated = true
    ∧ (IMG.open id (fun _ => true) exLettered (Except.ok exTruncated))._name
        = ascii "Test map" ++ List.replicate 21 0x20 ++ List.replicate 19 0x58
    ∧ (IMG.open id (fun _ => true) exIndeterminate (Except.ok exTruncated))._name
        = ascii "Test map" ++ List.replicate 21 0x20 ++ List.replicate 19 0 := by
  set_option maxRecDepth 1000000 in decide

/-! ### What holds of the claim: a valid container has read everything in full -/

/-- The skip loop never stops before the offset it starts at. -/
theorem skipLoop_stop (key : Nat) (file : List Nat) (fuel : List Nat) :
    ∀ (offset pos : Nat) (r : Bool × Nat × Nat), skipLoop key file fuel offset pos = some r →
      offset ≤ r.2.1 := by
  induction fuel with
  | nil => intro offset pos r h; simp [skipLoop] at h
  | cons x fuel ih =>
    intro offset pos r h
    rw [skipLoop_cons] at h
    by_cases hl : offset < file.length
    · by_cases hf : byteAt key file offset ≠ 0
      · rw [if_pos hl, if_pos hf] at h
        rw [← Option.some.inj h]
      · rw [if_pos hl, if_neg hf] at h
        have := ih _ _ r h
        omega
    · rw [if_neg hl] at h
      rw [← Option.some.inj h]

/-- A record loop that fails no `CHECK` has read the 18 bytes at the head of
each of its records in full. -/
theorem fatLoop_heads (fromUtf8 : List Nat → QString) (key : Nat) (file : List Nat) (n : Nat) :
    ∀ (o : Nat) (s : Scan), (fatLoop fromUtf8 key file n o s).1 = true →
      ∀ i, i < n → o + 512 * i + 18 ≤ file.length := by
  induction n with
  | zero => intro o s _ i hi; omega
  | succ n ih =>
    intro o s hok i hi
    rw [fatLoop] at hok
    by_cases h : (processRecord fromUtf8 key file o s).1 = true
    · simp only [h, Bool.not_true, Bool.false_eq_true, if_false] at hok
      cases i with
      | zero =>
        by_contra hc
        rw [processRecord_eq, if_neg (by omega)] at h
        exact Bool.false_ne_true h
      | succ i =>
        have := ih _ _ hok i (by omega)
        omega
    · simp only [Bool.not_eq_true] at h
      simp [h] at hok

/-- A directory scan that fails no `CHECK` has had every read delivered in
full: the block the skip loop stops at lies in the file up to its size field,
and so do the 18 bytes at the head of every record the record loop passes
through.  The block numbers are read by `readValue` under `CHECK`, which fails
on a short read by itself. -/
theorem scan_reads_complete (fromUtf8 : List Nat → QString) (key : Nat) (file : List Nat)
    (pos : Nat) (hok : (readFAT fromUtf8 key file pos).1 = true) :
    0x200 ≤ (skipUnused key file 0x200 pos).2.1
    ∧ (skipUnused key file 0x200 pos).2.1 + 16 ≤ file.length
    ∧ (∀ o ∈ readFATTrace fromUtf8 key file pos, o + 18 ≤ file.length) := by
  have hstop := skipLoop_stop key file _ _ _ _ (skipUnused_eq key file 0x200 pos)
  have heq := readFAT_of_ok fromUtf8 key file pos hok
  have hs : ∀ p, QFile.seek p (((skipUnused key file 0x200 pos).2.1 : Int) + 12)
      = (true, (skipUnused key file 0x200 pos).2.1 + 12) := fun p =>
    QFile.seek_nat_add p _ 12
  have hskip1 : (skipUnused key file 0x200 pos).1 = true := by
    by_contra hc
    simp only [Bool.not_eq_true] at hc
    unfold readFAT at hok
    simp [hc] at hok
  have hsize : (skipUnused key file 0x200 pos).2.1 + 16 ≤ file.length := by
    by_contra hc
    unfold readFAT at hok
    simp only [hs, hskip1, Bool.not_true, Bool.false_eq_true, if_false] at hok
    rw [IMG.readValue_eq,
      if_neg (show ¬ 4 ≤ file.length - ((skipUnused key file 0x200 pos).2.1 + 12) by omega)] at hok
    exact Bool.false_ne_true hok
  refine ⟨hstop, hsize, ?_⟩
  intro o ho
  rw [heq] at hok
  have htr : readFATTrace fromUtf8 key file pos
      = fatTrace fromUtf8 key file
          (fatCount (le32At key file ((skipUnused key file 0x200 pos).2.1 + 12))
            ((skipUnused key file 0x200 pos).2.1 + 512)).toNat
          ((skipUnused key file 0x200 pos).2.1 + 512)
          { pos := (skipUnused key file 0x200 pos).2.1 + 16, tileMap := [], typFile := none,
            _typ := none } := by
    unfold readFATTrace
    simp only [hs, hskip1, Bool.not_true, Bool.false_eq_true, if_false]
    rw [IMG.readValue_eq,
      if_pos (show 4 ≤ file.length - ((skipUnused key file 0x200 pos).2.1 + 12) by omega)]
    simp only [Bool.not_true, Bool.false_eq_true, if_false, le32At]
  rw [htr, fatTrace_of_ok _ _ _ _ _ _ hok] at ho
  obtain ⟨i, hi, rfl⟩ := List.mem_map.mp ho
  exact fatLoop_heads fromUtf8 key file _ _ _ hok i (List.mem_range.mp hi)

/-- A container that ends valid has had every read of its open delivered in
full: the file holds the header up to `0x83` and what the directory scan
reads. -/
theorem valid_reads_complete (fromUtf8 : List Nat → QString) (init : VectorTile → Bool)
    (u : Indeterminate) (file : List Nat)
    (hv : (IMG.open fromUtf8 init u (Except.ok file))._valid = true) :
    0x84 ≤ file.length
    ∧ (skipUnused (readSignature u file).1 file 0x200
          (readDescription u (readSignature u file).1 file
            (readSignature u file).2.2.2).2.2.2.2.2).2.1 + 16 ≤ file.length
    ∧ (∀ o ∈ readFATTrace fromUtf8 (readSignature u file).1 file
          (readDescription u (readSignature u file).1 file (readSignature u file).2.2.2).2.2.2.2.2,
        o + 18 ≤ file.length) := by
  have hparts : headerOk u file = true ∧ (openScan fromUtf8 u file).1 = true := by
    rw [IMG.open_ok] at hv
    by_cases hs : signatureOk u file = true
    · by_cases hh : headerOk u file = true
      · by_cases ho : (openScan fromUtf8 u file).1 = true
        · exact ⟨hh, ho⟩
        · simp only [Bool.not_eq_true] at ho
          simp [hs, hh, ho] at hv
      · simp only [Bool.not_eq_true] at hh
        simp [hs, hh] at hv
    · simp only [Bool.not_eq_true] at hs
      simp [hs] at hv
  obtain ⟨hh, ho⟩ := hparts
  have h := scan_reads_complete fromUtf8 _ file _ ho
  exact ⟨by omega, h.2.1, h.2.2⟩

/-! ## C16: the aggregate bounds -/

theorem unionBounds_eq {R : Type} (join : R → R → R) (init : VectorTile → Bool)
    (bounds : VectorTile → R) (m : TileMap) :
    ∀ b, unionBounds join init bounds m b
      = ((((m.map Prod.snd).filter init).map (fun t => some (bounds t))).foldl
          (RectC.union join) b) := by
  induction m with
  | nil => intro b; rfl
  | cons e m ih =>
    intro b
    obtain ⟨k, t⟩ := e
    by_cases h : init t = true
    · simp [unionBounds, h, ih]
    · simp only [Bool.not_eq_true] at h
      simp [unionBounds, h, ih]

/-- The tile tree of the constructor in terms of the views. -/
theorem IMG.open_tileTree (fromUtf8 : List Nat → QString) (init : VectorTile → Bool)
    (u : Indeterminate) (file : List Nat) :
    (IMG.open fromUtf8 init u (Except.ok file))._tileTree
      = if headerOk u file && (openScan fromUtf8 u file).1 then
          ((openScan fromUtf8 u file).2.tileMap.map Prod.snd).filter init
        else [] := by
  rw [IMG.open_ok]
  by_cases hs : signatureOk u file = true
  · by_cases hh : headerOk u file = true
    · by_cases ho : (openScan fromUtf8 u file).1 = true
      · by_cases hf : ((openScan fromUtf8 u file).2.tileMap.map Prod.snd).filter init = []
        · simp [hs, hh, ho, hf]
        · simp [hs, hh, ho, hf]
      · simp only [Bool.not_eq_true] at ho
        simp [hs, hh, ho]
    · simp only [Bool.not_eq_true] at hh
      simp [hs, hh]
  · simp only [Bool.not_eq_true] at hs
    have hh : headerOk u file = false := by
      unfold headerOk
      rw [hs]
      rfl
    simp [hs, hh]

/-- Every tile of the tile tree has passed `init`. -/
theorem IMG.open_tree_init (fromUtf8 : List Nat → QString) (init : VectorTile → Bool)
    (u : Indeterminate) (disk : Except String (List Nat)) :
    ∀ t ∈ (IMG.open fromUtf8 init u disk)._tileTree, init t = true := by
  cases disk with
  | error e => intro t ht; simp [IMG.open] at ht
  | ok file =>
    rw [IMG.open_tileTree]
    intro t ht
    by_cases h : (headerOk u file && (openScan fromUtf8 u file).1) = true
    · simp only [h, if_true] at ht
      exact (List.mem_filter.mp ht).2
    · simp [h] at ht

theorem foldl_union_some {R : Type} (join : R → R → R) (l : List R) :
    ∀ a, ∃ c, (l.map some).foldl (RectC.union join) (some a) = some c := by
  induction l with
  | nil => intro a; exact ⟨a, rfl⟩
  | cons x l ih => intro a; exact ih (join a x)

theorem foldl_union_eq_none {R : Type} (join : R → R → R) (l : List R) :
    (l.map some).foldl (RectC.union join) none = none ↔ l = [] := by
  cases l with
  | nil => simp
  | cons x l =>
    obtain ⟨c, hc⟩ := foldl_union_some join l x
    simp only [List.map_cons, List.foldl_cons, RectC.union, hc]
    simp

theorem union_right_comm {R : Type} (join : R → R → R)
    (hassoc : ∀ a b c, join (join a b) c = join a (join b c))
    (hcomm : ∀ a b, join a b = join b a) (b x y : RectC R) :
    RectC.union join (RectC.union join b x) y = RectC.union join (RectC.union join b y) x := by
  rcases b with _ | b <;> rcases x with _ | x <;> rcases y with _ | y <;>
    simp only [RectC.union]
  · rw [hcomm]
  · rw [hassoc, hassoc, hcomm x y]

/-- C16.  The aggregate bounds the constructor leaves behind are the union,
started from the default empty rectangle, of the bounds of the tiles of the
tile tree, which are exactly the tiles of the tile map whose `init` succeeded;
a tile that is discarded contributes nothing.  The aggregate bounds are the
empty rectangle exactly when no tile survived, and then the container is
invalid.  When the union of proper rectangles is associative and commutative
the order in which the tiles are visited does not matter. -/
theorem aggregate_bounds {R : Type} (join : R → R → R) (fromUtf8 : List Nat → QString)
    (init : VectorTile → Bool) (bounds : VectorTile → R) (u : Indeterminate)
    (disk : Except String (List Nat)) :
    IMG.openBounds join fromUtf8 init bounds u disk
      = ((IMG.open fromUtf8 init u disk)._tileTree.map (fun t => some (bounds t))).foldl
          (RectC.union join) none
    ∧ (∀ t ∈ (IMG.open fromUtf8 init u disk)._tileTree, init t = true)
    ∧ (∀ file, disk = Except.ok file → (IMG.open fromUtf8 init u disk)._valid = true →
        (IMG.open fromUtf8 init u disk)._tileTree
          = ((openScan fromUtf8 u file).2.tileMap.map Prod.snd).filter init)
    ∧ (IMG.openBounds join fromUtf8 init bounds u disk = none
        ↔ (IMG.open fromUtf8 init u disk)._tileTree = [])
    ∧ ((IMG.open fromUtf8 init u disk)._tileTree = [] →
        (IMG.open fromUtf8 init u disk)._valid = false)
    ∧ ((∀ a b c, join (join a b) c = join a (join b c)) → (∀ a b, join a b = join b a) →
        ∀ l : List VectorTile, l.Perm (IMG.open fromUtf8 init u disk)._tileTree →
          IMG.openBounds join fromUtf8 init bounds u disk
            = (l.map (fun t => some (bounds t))).foldl (RectC.union join) none) := by
  have hfold : IMG.openBounds join fromUtf8 init bounds u disk
      = ((IMG.open fromUtf8 init u disk)._tileTree.map (fun t => some (bounds t))).foldl
          (RectC.union join) none := by
    cases disk with
    | error e => rfl
    | ok file =>
      rw [IMG.open_tileTree]
      unfold IMG.openBounds
      by_cases h : (headerOk u file && (openScan fromUtf8 u file).1) = true
      · simp only [h, if_true, unionBounds_eq]
      · simp only [h, Bool.false_eq_true, if_false]
        rfl
  have htree := IMG.open_tree_init fromUtf8 init u disk
  have hvalid : (IMG.open fromUtf8 init u disk)._tileTree = [] →
      (IMG.open fromUtf8 init u disk)._valid = false := by
    cases disk with
    | error e => intro _; rfl
    | ok file =>
      rw [IMG.open_ok]
      intro h
      by_cases hs : signatureOk u file = true
      · by_cases hh : headerOk u file = true
        · by_cases ho : (openScan fromUtf8 u file).1 = true
          · by_cases hf : ((openScan fromUtf8 u file).2.tileMap.map Prod.snd).filter init = []
            · simp only [hs, hh, ho, hf, Bool.true_eq_false, if_false, if_true]
            · simp only [hs, hh, ho, hf, Bool.true_eq_false, if_false] at h
          · simp only [Bool.not_eq_true] at ho
            simp only [hs, hh, ho, Bool.true_eq_false, if_false, if_true]
        · simp only [Bool.not_eq_true] at hh
          simp only [hs, hh, Bool.true_eq_false, if_false, if_true]
      · simp only [Bool.not_eq_true] at hs
        simp only [hs, if_true]
  refine ⟨hfold, htree, ?_, ?_, hvalid, ?_⟩
  · intro file hd hv
    subst hd
    rw [IMG.open_tileTree]
    by_cases h : (headerOk u file && (openScan fromUtf8 u file).1) = true
    · simp only [h, if_true]
    · exfalso
      have hnil : (IMG.open fromUtf8 init u (Except.ok file))._tileTree = [] := by
        rw [IMG.open_tileTree]
        simp [h]
      rw [hvalid hnil] at hv
      exact Bool.false_ne_true hv
  · rw [hfold]
    have := foldl_union_eq_none join ((IMG.open fromUtf8 init u disk)._tileTree.map bounds)
    rw [List.map_map] at this
    rw [show (fun t => some (bounds t)) = some ∘ bounds from rfl, this]
    simp
  · intro hassoc hcomm l hl
    rw [hfold]
    have hp : (l.map (fun t => some (bounds t))).Perm
        ((IMG.open fromUtf8 init u disk)._tileTree.map (fun t => some (bounds t))) :=
      hl.map _
    exact (hp.foldl_eq' (fun x _ y _ z => union_right_comm join hassoc hcomm z x y) none).symm

/-- Witness of C16: the container `exCount`, rectangles that are numbers, the
greater of two numbers as the rectangle that spans both. -/
theorem aggregate_bounds_witness :
    (∀ a b c : Nat, max (max a b) c = max a (max b c))
    ∧ (∀ a b : Nat, max a b = max b a)
    ∧ IMG.openBounds max id (fun _ => true) (fun _ => 7) exIndeterminate (Except.ok exCount)
        = (((IMG.open id (fun _ => true) exIndeterminate (Except.ok exCount))._tileTree).map
            (fun _ => some 7)).foldl (RectC.union max) none :=
  ⟨Nat.max_assoc, Nat.max_comm,
    (aggregate_bounds max id (fun _ => true) (fun _ => 7) exIndeterminate
      (Except.ok exCount)).2.2.2.2.2 Nat.max_assoc Nat.max_comm _ (List.Perm.refl _)⟩

/-! ## C17: `IMG::clear` -/

theorem clearTiles_eq (ts : List VectorTile) (h : ∀ t ∈ ts, t._tre.isSome = true) :
    clearTiles ts = some ts := by
  induction ts with
  | nil => rfl
  | cons t ts ih =>
    have ht := h t (List.mem_cons_self _ _)
    have hts := ih (fun x hx => h x (List.mem_cons_of_mem _ hx))
    cases htre : t._tre with
    | none => rw [htre] at ht; simp at ht
    | some tre =>
      have hc : t.clear = some t := by
        unfold VectorTile.clear
        rw [htre]
        simp only [SubFile.clear]
        cases t
        simp_all
      simp [clearTiles, hc, hts]

/-- The tiles of the tile tree have their mandatory sub-file when `init` lets
no other tile pass. -/
theorem IMG.open_tree_tre (fromUtf8 : List Nat → QString) (init : VectorTile → Bool)
    (u : Indeterminate) (disk : Except String (List Nat))
    (hinit : ∀ t, init t = true → t._tre.isSome = true) :
    ∀ t ∈ (IMG.open fromUtf8 init u disk)._tileTree, t._tre.isSome = true :=
  fun t ht => hinit t (IMG.open_tree_init fromUtf8 init u disk t ht)

/-- C17.  In every state of a container whose tile tree holds tiles with their
mandatory sub-file, which are the tiles that `init` lets pass, `clear()` ends,
and afterwards both caches hold no entry, so that the lookup of any key is a
miss, and the style is none; the key, the block size, the display name, the
validity flag, the error message, the aggregate bounds, the styling sub-file,
the tiles of the tile tree and the maximum costs of the caches are what they
were. -/
theorem clear_contract {B S K P Q : Type} [DecidableEq K] (c : Container B S K P Q)
    (htre : ∀ t ∈ c.img._tileTree, t._tre.isSome = true) :
    ∃ c1, IMG.clear c = some c1
      ∧ c1._polyCache.entries = [] ∧ c1._pointCache.entries = []
      ∧ (∀ key, c1._polyCache.object key = none)
      ∧ (∀ key, c1._pointCache.object key = none)
      ∧ c1._style = none
      ∧ c1.img._key = c.img._key ∧ c1.img._blockSize = c.img._blockSize
      ∧ c1.img._name = c.img._name ∧ c1.img._valid = c.img._valid
      ∧ c1.img._errorString = c.img._errorString ∧ c1._bounds = c._bounds
      ∧ c1.img._typ = c.img._typ ∧ c1.img._tileTree = c.img._tileTree
      ∧ c1._polyCache.maxCost = c._polyCache.maxCost
      ∧ c1._pointCache.maxCost = c._pointCache.maxCost := by
  refine ⟨{ c with img := { c.img with _tileTree := c.img._tileTree }, _style := none,
                   _polyCache := c._polyCache.clear, _pointCache := c._pointCache.clear }, ?_, ?_⟩
  · unfold IMG.clear
    rw [clearTiles_eq _ htre]
  · simp [QCache.clear, QCache.object]

/-- Witness of C17: the container `exLoaded`, whose tile has its mandatory
sub-file and whose caches hold the key 5; the lookup of the key hits before
`clear()` and misses behind it. -/
theorem clear_contract_witness :
    (∀ t ∈ exLoaded.img._tileTree, t._tre.isSome = true)
    ∧ exLoaded.img._tileTree ≠ []
    ∧ exLoaded._polyCache.object 5 = some [1, 2]
    ∧ exLoaded._pointCache.object 5 = some [4]
    ∧ ∃ c1, IMG.clear exLoaded = some c1
        ∧ c1._polyCache.object 5 = none ∧ c1._pointCache.object 5 = none
        ∧ c1._style = none ∧ c1.img._tileTree = exLoaded.img._tileTree :=
  have h : ∀ t ∈ exLoaded.img._tileTree, t._tre.isSome = true :=
    IMG.open_tree_tre id (fun t => t._tre.isSome) exIndeterminate (Except.ok exCount)
      (fun _ ht => ht)
  have h2 : exLoaded.img._tileTree ≠ [] := by
    set_option maxRecDepth 1000000 in decide
  ⟨h, h2, by decide, by decide,
    match clear_contract exLoaded h with
    | ⟨c1, hc, _, _, hp, hq, hs, _, _, _, _, _, _, _, ht, _, _⟩ =>
      ⟨c1, hc, hp 5, hq 5, hs, ht⟩⟩

/-! ## C18: the display name -/

/-- What `trimmed()` removes and what it leaves: white space before and behind,
and a string that neither starts nor ends with white space. -/
theorem QString.trimmed_spec (s : QString) :
    ∃ pre post, s = pre ++ QString.trimmed s ++ post
      ∧ (∀ c ∈ pre, QChar.isSpace c = true) ∧ (∀ c ∈ post, QChar.isSpace c = true)
      ∧ (∀ c, (QString.trimmed s).head? = some c → QChar.isSpace c = false)
      ∧ (∀ c, (QString.trimmed s).getLast? = some c → QChar.isSpace c = false) := by
  have hhead : ∀ (l : List Nat) (c : Nat), (l.dropWhile QChar.isSpace).head? = some c →
      QChar.isSpace c = false := by
    intro l c hc
    induction l with
    | nil => simp at hc
    | cons a l ih =>
      by_cases ha : QChar.isSpace a = true
      · rw [List.dropWhile_cons_of_pos ha] at hc
        exact ih hc
      · rw [List.dropWhile_cons_of_neg ha] at hc
        simp only [List.head?_cons, Option.some.injEq] at hc
        subst hc
        simpa using ha
  have hsplit : ∀ l : List Nat, l = l.takeWhile QChar.isSpace ++ l.dropWhile QChar.isSpace :=
    fun l => (List.takeWhile_append_dropWhile _ l).symm
  have htake : ∀ (l : List Nat) (c : Nat), c ∈ l.takeWhile QChar.isSpace →
      QChar.isSpace c = true := fun l c hc => List.mem_takeWhile_imp hc
  refine ⟨s.takeWhile QChar.isSpace,
    (((s.dropWhile QChar.isSpace).reverse).takeWhile QChar.isSpace).reverse, ?_, ?_, ?_, ?_, ?_⟩
  · unfold QString.trimmed
    rw [List.append_assoc, ← List.reverse_append, ← hsplit, List.reverse_reverse]
    exact hsplit s
  · exact htake s
  · intro c hc
    exact htake _ c (List.mem_reverse.mp hc)
  · intro c hc
    unfold QString.trimmed at hc
    -- the trimmed string starts the string left by the first `dropWhile`
    have hpre : ((s.dropWhile QChar.isSpace).reverse.dropWhile QChar.isSpace).reverse
        <+: s.dropWhile QChar.isSpace := by
      refine ⟨(((s.dropWhile QChar.isSpace).reverse).takeWhile QChar.isSpace).reverse, ?_⟩
      rw [← List.reverse_append, ← hsplit, List.reverse_reverse]
    apply hhead s c
    obtain ⟨t, ht⟩ := hpre
    rw [← ht]
    cases hl : ((s.dropWhile QChar.isSpace).reverse.dropWhile QChar.isSpace).reverse with
    | nil => rw [hl] at hc; simp at hc
    | cons a l => rw [hl] at hc; simpa using hc
  · intro c hc
    unfold QString.trimmed at hc
    rw [List.getLast?_reverse] at hc
    exact hhead _ c hc

/-- The display name after a header whose reads are all complete. -/
theorem IMG.open_name (fromUtf8 : List Nat → QString) (init : VectorTile → Bool)
    (u : Indeterminate) (file : List Nat) (hh : headerOk u file = true)
    (hlen : 0x84 ≤ file.length) :
    (IMG.open fromUtf8 init u (Except.ok file))._name
      = QString.trimmed (decrypted (file.getD 0 0) file 0x49 20
          ++ decrypted (file.getD 0 0) file 0x65 30) := by
  have hsig : signatureOk u file = true := by
    unfold headerOk at hh
    simp only [Bool.and_eq_true] at hh
    exact hh.1
  have hname : (IMG.open fromUtf8 init u (Except.ok file))._name
      = displayName (decrypted (file.getD 0 0) file 0x49 20 ++ u.d1.drop 20)
          (decrypted (file.getD 0 0) file 0x65 31 ++ u.d2.drop (min 31 (file.length - 0x65))) := by
    rw [IMG.open_ok]
    simp only [hsig, hh, Bool.true_eq_false, if_false]
    rw [readSignature_eq u file (by omega), readDescription_eq u _ file _ (by omega)]
    split_ifs <;> rfl
  rw [hname]
  have l1 : (decrypted (file.getD 0 0) file 0x49 20).length = 20 :=
    decrypted_full _ _ _ _ (by omega)
  have l2 : (decrypted (file.getD 0 0) file 0x65 31).length = 31 :=
    decrypted_full _ _ _ _ (by omega)
  have h30 : (decrypted (file.getD 0 0) file 0x65 31).take 30
      = decrypted (file.getD 0 0) file 0x65 30 := by
    have := decrypted_drop_take (file.getD 0 0) file 0x65 31 0 30 (by omega)
    simpa using this
  generalize file.getD 0 0 = k at *
  unfold displayName QString.fromLatin1
  rw [List.take_append_of_le_length (by omega), List.take_of_length_le (by omega),
    List.take_append_of_le_length (by omega), List.take_of_length_le (by omega)]
  simp only [List.length_append, l1, l2]
  rw [List.take_append_eq_append_take, List.take_of_length_le (by omega), l1, h30]

theorem decrypted_of_take (key : Nat) (file : List Nat) (p n m : Nat) (h : p + n ≤ m) :
    decrypted key (file.take m) p n = decrypted key file p n := by
  unfold decrypted
  rw [List.drop_take, List.take_take, Nat.min_eq_left (by omega)]

theorem getD_zero_of_take (file : List Nat) (m : Nat) (h : 0 < m) :
    (file.take m).getD 0 0 = file.getD 0 0 := by
  cases file with
  | nil => simp
  | cons a l =>
    obtain ⟨j, rfl⟩ : ∃ j, m = j + 1 := ⟨m - 1, by omega⟩
    simp

/-- C18.  For every file whose header is accepted and that holds the header up
to offset `0x83`, the display name is the string of the 50 decrypted bytes made
of the 20 bytes at `0x49` and the 30 bytes at `0x65`, one character per byte as
Latin-1 has it, without the white space at its two ends: white space is all
that is removed in front and behind, and what is left neither starts nor ends
with white space.  The byte at `0x83`, the last one read for the second
fragment, and the bytes behind it do not contribute: a file that agrees in the
bytes before `0x83` has the same display name. -/
theorem display_name (fromUtf8 : List Nat → QString) (init : VectorTile → Bool)
    (u : Indeterminate) (file : List Nat) (hh : headerOk u file = true)
    (hlen : 0x84 ≤ file.length) :
    (decrypted (file.getD 0 0) file 0x49 20 ++ decrypted (file.getD 0 0) file 0x65 30).length = 50
    ∧ (∀ i, i < 20 →
        (decrypted (file.getD 0 0) file 0x49 20 ++ decrypted (file.getD 0 0) file 0x65 30)[i]?
          = some (file.getD (0x49 + i) 0 ^^^ file.getD 0 0))
    ∧ (∀ i, i < 30 →
        (decrypted (file.getD 0 0) file 0x49 20
            ++ decrypted (file.getD 0 0) file 0x65 30)[20 + i]?
          = some (file.getD (0x65 + i) 0 ^^^ file.getD 0 0))
    ∧ QString.fromLatin1
          (decrypted (file.getD 0 0) file 0x49 20 ++ decrypted (file.getD 0 0) file 0x65 30) 50
        = decrypted (file.getD 0 0) file 0x49 20 ++ decrypted (file.getD 0 0) file 0x65 30
    ∧ (IMG.open fromUtf8 init u (Except.ok file))._name
        = QString.trimmed (decrypted (file.getD 0 0) file 0x49 20
            ++ decrypted (file.getD 0 0) file 0x65 30)
    ∧ (∃ pre post,
        decrypted (file.getD 0 0) file 0x49 20 ++ decrypted (file.getD 0 0) file 0x65 30
          = pre ++ (IMG.open fromUtf8 init u (Except.ok file))._name ++ post
        ∧ (∀ c ∈ pre, QChar.isSpace c = true) ∧ (∀ c ∈ post, QChar.isSpace c = true)
        ∧ (∀ c, (IMG.open fromUtf8 init u (Except.ok file))._name.head? = some c →
            QChar.isSpace c = false)
        ∧ (∀ c, (IMG.open fromUtf8 init u (Except.ok file))._name.getLast? = some c →
            QChar.isSpace c = false))
    ∧ (∀ (fromUtf8' : List Nat → QString) (init' : VectorTile → Bool) (u' : Indeterminate)
        (file' : List Nat), headerOk u' file' = true → 0x84 ≤ file'.length →
        file'.take 0x83 = file.take 0x83 →
        (IMG.open fromUtf8' init' u' (Except.ok file'))._name
          = (IMG.open fromUtf8 init u (Except.ok file))._name) := by
  have l1 : (decrypted (file.getD 0 0) file 0x49 20).length = 20 :=
    decrypted_full _ _ _ _ (by omega)
  have l2 : (decrypted (file.getD 0 0) file 0x65 30).length = 30 :=
    decrypted_full _ _ _ _ (by omega)
  have hname := IMG.open_name fromUtf8 init u file hh hlen
  refine ⟨by rw [List.length_append, l1, l2], ?_, ?_, ?_, hname, ?_, ?_⟩
  · intro i hi
    rw [List.getElem?_append_left (by omega), decrypted_getElem? _ _ _ _ _ hi]
    generalize file.getD 0 0 = k
    have hlt : 0x49 + i < file.length := by omega
    rw [List.getElem?_eq_getElem hlt, List.getD_eq_getElem?_getD, List.getElem?_eq_getElem hlt]
    rfl
  · intro i hi
    rw [List.getElem?_append_right (by omega), l1, Nat.add_sub_cancel_left,
      decrypted_getElem? _ _ _ _ _ hi]
    generalize file.getD 0 0 = k
    have hlt : 0x65 + i < file.length := by omega
    rw [List.getElem?_eq_getElem hlt, List.getD_eq_getElem?_getD, List.getElem?_eq_getElem hlt]
    rfl
  · unfold QString.fromLatin1
    apply List.take_of_length_le
    rw [List.length_append, l1, l2]
  · rw [hname]
    exact QString.trimmed_spec _
  · intro fromUtf8' init' u' file' hh' hlen' htake
    rw [hname, IMG.open_name fromUtf8' init' u' file' hh' hlen']
    have hk : file'.getD 0 0 = file.getD 0 0 := by
      rw [← getD_zero_of_take file' 0x83 (by decide), htake, getD_zero_of_take file 0x83 (by decide)]
    rw [hk, ← decrypted_of_take _ file' 0x49 20 0x83 (by decide),
      ← decrypted_of_take _ file' 0x65 30 0x83 (by decide), htake,
      decrypted_of_take _ file 0x49 20 0x83 (by decide),
      decrypted_of_take _ file 0x65 30 0x83 (by decide)]

/-- Witness of C18: the container `exCount`, with the name "Test map" between
two spaces in front and white space up to offset `0x82` behind. -/
theorem display_name_witness :
    headerOk exIndeterminate exCount = true
    ∧ 0x84 ≤ exCount.length
    ∧ (IMG.open id (fun _ => true) exIndeterminate (Except.ok exCount))._name
        = QString.trimmed (decrypted (exCount.getD 0 0) exCount 0x49 20
            ++ decrypted (exCount.getD 0 0) exCount 0x65 30)
    ∧ (IMG.open id (fun _ => true) exIndeterminate (Except.ok exCount))._name
        = ascii "Test map" :=
  have h1 : headerOk exIndeterminate exCount = true := by
    set_option maxRecDepth 1000000 in decide
  have h2 : 0x84 ≤ exCount.length := by
    have := exCount_length
    omega
  ⟨h1, h2, (display_name id (fun _ => true) exIndeterminate exCount h1 h2).2.2.2.2.1,
    by set_option maxRecDepth 1000000 in decide⟩

/-! ## C19: the skip loop ends -/

/-- The skip loop only counts its fuel. -/
theorem skipLoop_length (key : Nat) (file : List Nat) (fuel fuel' : List Nat)
    (offset pos : Nat) (h : fuel.length = fuel'.length) :
    skipLoop key file fuel offset pos = skipLoop key file fuel' offset pos :=
  skipLoop_congr key key file file rfl (fun _ _ => rfl) fuel fuel' offset pos h

/-- The skip loop ends within one pass per block of 512 bytes that starts
before the end of the file, and one more. -/
theorem skipLoop_isSome_stride (key : Nat) (file : List Nat) (fuel : List Nat) :
    ∀ (offset pos : Nat), 0 < fuel.length → file.length ≤ offset + 512 * (fuel.length - 1) →
      (skipLoop key file fuel offset pos).isSome = true := by
  induction fuel with
  | nil => intro offset pos h0 _; simp at h0
  | cons x fuel ih =>
    intro offset pos _ h
    rw [skipLoop_cons]
    rw [List.length_cons] at h
    by_cases hl : offset < file.length
    · by_cases hf : byteAt key file offset ≠ 0
      · simp [hl, hf]
      · simp only [hl, if_true, hf, if_false]
        exact ih _ _ (by omega) (by omega)
    · simp [hl]

/-- The number of passes that bounds the skip loop on a file of length `L`:
`ceil((L - 0x200) / 512) + 1`, and 1 when the file ends at or before `0x200`. -/
theorem skipLoop_bound (key : Nat) (file : List Nat) (pos : Nat) :
    skipLoop key file
        (List.replicate (if 0x200 < file.length then (file.length - 0x200 + 511) / 512 + 1 else 1) 0)
        0x200 pos
      = some (skipUnused key file 0x200 pos) := by
  generalize hN : (if 0x200 < file.length then (file.length - 0x200 + 511) / 512 + 1 else 1) = N
  have hN1 : 0 < N := by
    rw [← hN]; split_ifs <;> omega
  have hNL : file.length ≤ 0x200 + 512 * (N - 1) := by
    rw [← hN]; split_ifs <;> omega
  have hNle : N ≤ file.length + 1 := by
    rw [← hN]; split_ifs <;> omega
  have hsome := skipLoop_isSome_stride key file (List.replicate N 0) 0x200 pos
    (by rw [List.length_replicate]; exact hN1) (by rw [List.length_replicate]; exact hNL)
  obtain ⟨r, hr⟩ := Option.isSome_iff_exists.mp hsome
  have hmore := skipLoop_fuel key file _ _ _ r hr (List.replicate (file.length + 1 - N) 0)
  rw [skipLoop_length key file _ (0 :: file) 0x200 pos (by
    rw [List.length_append, List.length_replicate, List.length_replicate, List.length_cons]
    omega), skipUnused_eq] at hmore
  rw [hr, ← Option.some.inj hmore]

/-- When every block of the directory that starts within the file has a zero
flag, the skip loop runs into the end of the file and its `CHECK` fails. -/
theorem skipUnused_all_zero (key : Nat) (file : List Nat) (pos : Nat)
    (hzero : ∀ j, 0x200 + 512 * j < file.length → byteAt key file (0x200 + 512 * j) = 0) :
    (skipUnused key file 0x200 pos).1 = false := by
  have hb := skipLoop_bound key file pos
  generalize hN : (if 0x200 < file.length then (file.length - 0x200 + 511) / 512 + 1 else 1) = N
    at hb
  obtain ⟨n, rfl⟩ : ∃ n, N = n + 1 := ⟨N - 1, by rw [← hN]; split_ifs <;> omega⟩
  have hlt : ∀ j, j < n → 0x200 + 512 * j < file.length := by
    intro j hj
    split_ifs at hN <;> omega
  have hend : ¬ (0x200 + 512 * n < file.length) := by
    split_ifs at hN <;> omega
  have hz := skipLoop_zero_blocks key file (List.replicate n 0) [0] 0x200 pos (by
    intro j hj
    rw [List.length_replicate] at hj
    exact ⟨hlt j hj, hzero j (hlt j hj)⟩)
  rw [List.length_replicate, skipLoop_cons, if_neg hend] at hz
  have hrep : List.replicate (n + 1) 0 = List.replicate n 0 ++ [0] := by
    rw [List.replicate_succ']
  rw [hrep, hz] at hb
  rw [← Option.some.inj hb]

/-- C19.  On a file of length `L` the loop that skips the directory blocks with
a zero flag, started at `0x200`, ends within `ceil((L - 0x200) / 512) + 1`
passes, 1 when `L` is at most `0x200`.  It stops at the first offset
`0x200 + 512 * n` whose decrypted flag byte is not zero, after `n + 1` passes;
and when every flag byte at such an offset within the file is zero, the read
of the flag behind the end of the file fails, and an open that got past the
header is aborted with "Unsupported or invalid IMG file". -/
theorem skip_loop_terminates (key : Nat) (file : List Nat) (pos : Nat) :
    skipLoop key file
        (List.replicate (if 0x200 < file.length then (file.length - 0x200 + 511) / 512 + 1 else 1) 0)
        0x200 pos
      = some (skipUnused key file 0x200 pos)
    ∧ (0x200 < file.length →
        512 * ((file.length - 0x200 + 511) / 512) < file.length - 0x200 + 512
        ∧ file.length - 0x200 ≤ 512 * ((file.length - 0x200 + 511) / 512))
    ∧ (∀ n, (∀ j, j < n → 0x200 + 512 * j < file.length
          ∧ byteAt key file (0x200 + 512 * j) = 0) →
        0x200 + 512 * n < file.length → byteAt key file (0x200 + 512 * n) ≠ 0 →
        skipUnused key file 0x200 pos = (true, 0x200 + 512 * n, 0x200 + 512 * n + 1)
        ∧ skipLoop key file (List.replicate (n + 1) 0) 0x200 pos
            = some (true, 0x200 + 512 * n, 0x200 + 512 * n + 1)
        ∧ n + 1 ≤ (if 0x200 < file.length then (file.length - 0x200 + 511) / 512 + 1 else 1))
    ∧ ((∀ j, 0x200 + 512 * j < file.length → byteAt key file (0x200 + 512 * j) = 0) →
        (skipUnused key file 0x200 pos).1 = false
        ∧ ∀ (fromUtf8 : List Nat → QString), (readFAT fromUtf8 key file pos).1 = false
          ∧ ∀ (init : VectorTile → Bool) (u : Indeterminate),
            headerOk u file = true → key = (readSignature u file).1 →
            pos = (readDescription u (readSignature u file).1 file
                    (readSignature u file).2.2.2).2.2.2.2.2 →
            (IMG.open fromUtf8 init u (Except.ok file))._valid = false
            ∧ (IMG.open fromUtf8 init u (Except.ok file))._errorString
                = "Unsupported or invalid IMG file") := by
  refine ⟨skipLoop_bound key file pos, fun h => by omega, ?_, ?_⟩
  · intro n hzero hlen hflag
    have hs := skipUnused_first_nonzero key file n 0x200 pos hzero hlen hflag
    refine ⟨hs, ?_, ?_⟩
    · have hz := skipLoop_zero_blocks key file (List.replicate n 0) [0] 0x200 pos (by
        rw [List.length_replicate]; exact hzero)
      rw [List.length_replicate, skipLoop_cons, if_pos hlen, if_pos hflag] at hz
      rw [List.replicate_succ', hz]
    · split_ifs <;> omega
  · intro hzero
    have hfail := skipUnused_all_zero key file pos hzero
    have hscan : ∀ fromUtf8 : List Nat → QString, (readFAT fromUtf8 key file pos).1 = false := by
      intro fromUtf8
      unfold readFAT
      simp [hfail]
    refine ⟨hfail, fun fromUtf8 => ⟨hscan fromUtf8, ?_⟩⟩
    intro init u hh hk hp
    subst hk hp
    have hsig : signatureOk u file = true := by
      unfold headerOk at hh
      simp only [Bool.and_eq_true] at hh
      exact hh.1
    have hos : (openScan fromUtf8 u file).1 = false := hscan fromUtf8
    rw [IMG.open_ok]
    simp [hsig, hh, hos, unsupportedError]

theorem exAllZero_length : exAllZero.length = 1536 := by
  unfold exAllZero
  rw [List.length_append, exHeader_length, List.length_replicate]

/-- Witness of C19: in `exCount` the flag byte at `0x200` is not zero and the
loop ends in its first pass; in `exAllZero` the two flag bytes within the file
are zero and the `CHECK` of the loop fails. -/
theorem skip_loop_terminates_witness :
    (∀ j, j < 0 → 0x200 + 512 * j < exCount.length ∧ byteAt 0 exCount (0x200 + 512 * j) = 0)
    ∧ 0x200 + 512 * 0 < exCount.length
    ∧ byteAt 0 exCount (0x200 + 512 * 0) ≠ 0
    ∧ skipUnused 0 exCount 0x200 0x84 = (true, 0x200 + 512 * 0, 0x200 + 512 * 0 + 1)
    ∧ (∀ j, 0x200 + 512 * j < exAllZero.length → byteAt 0 exAllZero (0x200 + 512 * j) = 0)
    ∧ (skipUnused 0 exAllZero 0x200 0x84).1 = false :=
  have h1 : ∀ j, j < 0 → 0x200 + 512 * j < exCount.length
      ∧ byteAt 0 exCount (0x200 + 512 * j) = 0 := fun j hj => absurd hj (Nat.not_lt_zero j)
  have h2 : 0x200 + 512 * 0 < exCount.length := by
    have := exCount_length
    omega
  have h3 : byteAt 0 exCount (0x200 + 512 * 0) ≠ 0 := by
    set_option maxRecDepth 1000000 in decide
  have h4 : ∀ j, 0x200 + 512 * j < exAllZero.length → byteAt 0 exAllZero (0x200 + 512 * j) = 0 := by
    intro j hj
    have hl := exAllZero_length
    have hj2 : j < 2 := by omega
    interval_cases j
    · set_option maxRecDepth 1000000 in decide
    · set_option maxRecDepth 1000000 in decide
  ⟨h1, h2, h3, ((skip_loop_terminates 0 exCount 0x84).2.2.1 0 h1 h2 h3).1, h4,
    ((skip_loop_terminates 0 exAllZero 0x84).2.2.2 h4).1⟩

/-! ## C20: an end offset before the first record -/

theorem exUndersized_length : exUndersized.length = 1024 := by
  unfold exUndersized
  rw [List.length_append, exHeader_length, exFatBlock_length]

/-- The record count is not positive when the size declared does not exceed the
offset of the first record. -/
theorem fatCount_nonpos (size o : Nat) (hle : size ≤ o) (ho : o < 2 ^ 40) :
    fatCount size o ≤ 0
    ∧ fatCount size o
        = toInt32 ((((size : Int) - (o : Int)) % 2 ^ 64) / 512) := by
  refine ⟨?_, rfl⟩
  unfold fatCount toInt32
  have h64 : (2 : Int) ^ 64 = 18446744073709551616 := by norm_num
  have h32 : (2 : Int) ^ 32 = 4294967296 := by norm_num
  have h31 : (2 : Int) ^ 31 = 2147483648 := by norm_num
  have h40 : (2 : Nat) ^ 40 = 1099511627776 := by norm_num
  rw [h40] at ho
  simp only [h64, h32, h31]
  split_ifs <;> omega

/-- C20.  Let the skip loop stop at the block at `0x200 + 512 * N`, let `o` be
the offset of the first record, 512 behind that block, with `o < 2^40`, and let
the size declared at byte 12 of the block be at most `o`.  Then the record
count, the 64-bit unsigned difference `size - o` divided by 512 and converted
to `int`, is at most 0; the record loop makes no pass, so the scan reads no
record and ends with no tile and no styling sub-file; and an open that got past
the header ends invalid with "No usable map tile found". -/
theorem undersized_end (fromUtf8 : List Nat → QString) (key : Nat) (file : List Nat)
    (pos N : Nat)
    (hzero : ∀ j, j < N → 0x200 + 512 * j < file.length
      ∧ byteAt key file (0x200 + 512 * j) = 0)
    (hflag : byteAt key file (0x200 + 512 * N) ≠ 0)
    (hsize : 0x200 + 512 * N + 16 ≤ file.length)
    (hle : le32At key file (0x200 + 512 * N + 12) ≤ 0x200 + 512 * N + 512)
    (ho : 0x200 + 512 * N + 512 < 2 ^ 40) :
    fatCount (le32At key file (0x200 + 512 * N + 12)) (0x200 + 512 * N + 512) ≤ 0
    ∧ fatCount (le32At key file (0x200 + 512 * N + 12)) (0x200 + 512 * N + 512)
        = toInt32 ((((le32At key file (0x200 + 512 * N + 12) : Int)
            - ((0x200 + 512 * N + 512 : Nat) : Int)) % 2 ^ 64) / 512)
    ∧ readFATTrace fromUtf8 key file pos = []
    ∧ readFAT fromUtf8 key file pos
        = (true, { pos := 0x200 + 512 * N + 16, tileMap := [], typFile := none, _typ := none })
    ∧ (∀ (init : VectorTile → Bool) (u : Indeterminate), headerOk u file = true →
        key = (readSignature u file).1 →
        pos = (readDescription u (readSignature u file).1 file
                (readSignature u file).2.2.2).2.2.2.2.2 →
        (IMG.open fromUtf8 init u (Except.ok file))._valid = false
        ∧ (IMG.open fromUtf8 init u (Except.ok file))._errorString = "No usable map tile found"
        ∧ (IMG.open fromUtf8 init u (Except.ok file))._tileTree = []
        ∧ (IMG.open fromUtf8 init u (Except.ok file))._typ = none) := by
  obtain ⟨hcnt, hdef⟩ := fatCount_nonpos _ _ hle ho
  have hskip := skipUnused_first_nonzero key file N 0x200 pos hzero (by omega) hflag
  obtain ⟨hfat, htrace⟩ := readFAT_eq fromUtf8 key file pos _ hskip hsize
  have h0 : (fatCount (le32At key file (0x200 + 512 * N + 12)) (0x200 + 512 * N + 512)).toNat
      = 0 := by omega
  rw [h0] at hfat htrace
  have hfat2 : readFAT fromUtf8 key file pos
      = (true, { pos := 0x200 + 512 * N + 16, tileMap := [], typFile := none, _typ := none }) :=
    hfat
  refine ⟨hcnt, hdef, htrace, hfat2, ?_⟩
  intro init u hh hk hp
  subst hk hp
  have hsig : signatureOk u file = true := by
    unfold headerOk at hh
    simp only [Bool.and_eq_true] at hh
    exact hh.1
  have hos : openScan fromUtf8 u file
      = (true, { pos := 0x200 + 512 * N + 16, tileMap := [], typFile := none, _typ := none }) :=
    hfat2
  rw [IMG.open_ok]
  simp [hsig, hh, hos]

/-- Witness of C20: `exUndersized`, whose block at `0x200` declares the size
`0x200`. -/
theorem undersized_end_witness :
    (∀ j, j < 0 → 0x200 + 512 * j < exUndersized.length
      ∧ byteAt 0 exUndersized (0x200 + 512 * j) = 0)
    ∧ byteAt 0 exUndersized (0x200 + 512 * 0) ≠ 0
    ∧ 0x200 + 512 * 0 + 16 ≤ exUndersized.length
    ∧ le32At 0 exUndersized (0x200 + 512 * 0 + 12) ≤ 0x200 + 512 * 0 + 512
    ∧ 0x200 + 512 * 0 + 512 < 2 ^ 40
    ∧ fatCount (le32At 0 exUndersized (0x200 + 512 * 0 + 12)) (0x200 + 512 * 0 + 512) ≤ 0
    ∧ (IMG.open id (fun _ => true) exIndeterminate (Except.ok exUndersized))._errorString
        = "No usable map tile found" :=
  have h1 : ∀ j, j < 0 → 0x200 + 512 * j < exUndersized.length
      ∧ byteAt 0 exUndersized (0x200 + 512 * j) = 0 := fun j hj => absurd hj (Nat.not_lt_zero j)
  have h2 : byteAt 0 exUndersized (0x200 + 512 * 0) ≠ 0 := by
    set_option maxRecDepth 1000000 in decide
  have h3 : 0x200 + 512 * 0 + 16 ≤ exUndersized.length := by
    have := exUndersized_length
    omega
  have h4 : le32At 0 exUndersized (0x200 + 512 * 0 + 12) ≤ 0x200 + 512 * 0 + 512 := by
    set_option maxRecDepth 1000000 in decide
  have h5 : 0x200 + 512 * 0 + 512 < 2 ^ 40 := by decide
  ⟨h1, h2, h3, h4, h5, (undersized_end id 0 exUndersized 0x84 0 h1 h2 h3 h4 h5).1,
    by set_option maxRecDepth 1000000 in decide⟩

end GPXSee
